import Mathlib

/-!
Verification development for libos: the byte ring buffer (`src/rbuf.c`), the
mailbox registry (`src/port/linux/queue.c`), variable-length packing
(`src/bytes.c`), time values (`src/port/linux/time.c`) and timers
(`src/port/linux/timer.c`), as a shallow embedding.

* A `uint32_t` is a `Nat` below `2 ^ 32`; additions and subtractions wrap
  explicitly (`u32_add`, `u32_sub`).
* A byte array reached through a pointer is a map from index to byte
  (`Nat → Nat`); a pointer that may be `NULL` is an `Option`.
* `os_errno` is threaded through every call: each function takes the value of
  `os_errno` before the call and returns its value after the call.
-/

namespace Libos

/-! ## errno.h -/

/-- Value of `OS_EINVAL` in `inc/errno.h`. -/
def OS_EINVAL : Int := 2

/-- Value of `OS_EOVERFLOW` in `inc/errno.h`. -/
def OS_EOVERFLOW : Int := 5

/-- Value of `OS_ENOENT` in `inc/errno.h`. -/
def OS_ENOENT : Int := 6

/-! ## `uint32_t` arithmetic -/

/-- Addition of two `uint32_t` values (wraps modulo `2 ^ 32`). -/
def u32_add (a b : Nat) : Nat := (a + b) % 2 ^ 32

/-- Subtraction of two `uint32_t` values (wraps modulo `2 ^ 32`). -/
def u32_sub (a b : Nat) : Nat := (a + (2 ^ 32 - b % 2 ^ 32)) % 2 ^ 32

/-! ## rbuf.h -/

/-- The struct `os_rbuf_t` of `inc/rbuf.h`; `pool` is the memory the pool
pointer refers to, indexed from the pointer. -/
structure os_rbuf_t where
  pool : Nat → Nat
  size : Nat
  head : Nat
  tail : Nat

/-- Outcome of a call that takes no output buffer: the returned `int`, the value
of `os_errno` after the call and the ring the pointer `p` refers to after the
call (`none` when `p` is `NULL`). -/
structure rbuf_ret where
  ret : Int
  os_errno : Int
  p : Option os_rbuf_t

/-- Outcome of a call that fills an output buffer: as `rbuf_ret`, with the
caller's buffer after the call (`none` when the buffer pointer is `NULL`). -/
structure rbuf_read where
  ret : Int
  os_errno : Int
  p : Option os_rbuf_t
  p_buffer : Option (Nat → Nat)

/-- Outcome of a call that stores one integer through `p_value`: as `rbuf_ret`,
with the integer `*p_value` after the call (`none` when `p_value` is `NULL`). -/
structure rbuf_value where
  ret : Int
  os_errno : Int
  p : Option os_rbuf_t
  p_value : Option Nat

/-- The `os_rbuf_init` of `src/rbuf.c`. -/
def os_rbuf_init (e : Int) (p : Option os_rbuf_t) (p_pool : Option (Nat → Nat))
    (pool_size : Nat) : rbuf_ret :=
  match p, p_pool with
  | some r, some pool =>
    if pool_size &&& u32_sub pool_size 1 ≠ 0 then
      ⟨-1, OS_EINVAL, some r⟩
    else
      ⟨0, e, some ⟨pool, u32_sub pool_size 1, 0, 0⟩⟩
  | _, _ => ⟨-1, OS_EINVAL, p⟩

/-- The `os_rbuf_change_size` of `src/rbuf.c`. -/
def os_rbuf_change_size (e : Int) (p : Option os_rbuf_t) (pool_size : Nat) : rbuf_ret :=
  match p with
  | none => ⟨-1, OS_EINVAL, none⟩
  | some r =>
    if pool_size &&& u32_sub pool_size 1 ≠ 0 then
      ⟨-1, OS_EINVAL, some r⟩
    else
      ⟨0, e, some ⟨r.pool, u32_sub pool_size 1,
        r.head &&& u32_sub pool_size 1, r.tail &&& u32_sub pool_size 1⟩⟩

/-- The `os_rbuf_flush` of `src/rbuf.c`. -/
def os_rbuf_flush (e : Int) (p : Option os_rbuf_t) : rbuf_ret :=
  match p with
  | none => ⟨-1, OS_EINVAL, none⟩
  | some r => ⟨0, e, some ⟨r.pool, r.size, 0, 0⟩⟩

/-- The `os_rbuf_used` of `src/rbuf.c`. -/
def os_rbuf_used (p : Option os_rbuf_t) : Nat :=
  match p with
  | none => 0
  | some r => u32_sub r.tail r.head &&& r.size

/-- The `os_rbuf_free` of `src/rbuf.c`. -/
def os_rbuf_free (p : Option os_rbuf_t) : Nat :=
  match p with
  | none => 0
  | some r => u32_sub (u32_sub r.head r.tail) 1 &&& r.size

/-- The copy loop of `os_rbuf_push`: for `i = 0 .. nbytes - 1`,
`pool[(tail + i) & size] = bytes[i]`. -/
def push_loop (r : os_rbuf_t) (bytes : Nat → Nat) (nbytes : Nat) : Nat → Nat :=
  (List.range nbytes).foldl
    (fun pool i => Function.update pool (u32_add r.tail i &&& r.size) (bytes i)) r.pool

/-- The `os_rbuf_push` of `src/rbuf.c`. -/
def os_rbuf_push (e : Int) (p : Option os_rbuf_t) (bytes : Option (Nat → Nat))
    (nbytes : Nat) : rbuf_ret :=
  match p, bytes with
  | some r, some bs =>
    if nbytes = 0 then ⟨-1, OS_EINVAL, some r⟩
    else if os_rbuf_free (some r) < nbytes then ⟨-1, OS_EOVERFLOW, some r⟩
    else ⟨0, e, some ⟨push_loop r bs nbytes, r.size, r.head, u32_add r.tail nbytes &&& r.size⟩⟩
  | _, _ => ⟨-1, OS_EINVAL, p⟩

/-- The array `tmp` of a `push_uN`/`peek_uN` wrapper, as memory: the listed
bytes at indices `0 ..`. -/
def tmp_array (bs : List Nat) : Nat → Nat := fun i => bs.getD i 0

/-- The `os_rbuf_push_u8` of `src/rbuf.c`. -/
def os_rbuf_push_u8 (e : Int) (p : Option os_rbuf_t) (value : Nat) : rbuf_ret :=
  os_rbuf_push e p (some (tmp_array [value])) 1

/-- The `os_rbuf_push_u16` of `src/rbuf.c`. -/
def os_rbuf_push_u16 (e : Int) (p : Option os_rbuf_t) (value : Nat) : rbuf_ret :=
  os_rbuf_push e p (some (tmp_array [(value >>> 8) % 256, value % 256])) 2

/-- The `os_rbuf_push_u32` of `src/rbuf.c`. -/
def os_rbuf_push_u32 (e : Int) (p : Option os_rbuf_t) (value : Nat) : rbuf_ret :=
  os_rbuf_push e p
    (some (tmp_array [(value >>> 24) % 256, (value >>> 16) % 256, (value >>> 8) % 256,
      value % 256])) 4

/-- The `os_rbuf_push_u64` of `src/rbuf.c` (`__LP64__` builds). -/
def os_rbuf_push_u64 (e : Int) (p : Option os_rbuf_t) (value : Nat) : rbuf_ret :=
  os_rbuf_push e p
    (some (tmp_array [(value >>> 56) % 256, (value >>> 48) % 256, (value >>> 40) % 256,
      (value >>> 32) % 256, (value >>> 24) % 256, (value >>> 16) % 256, (value >>> 8) % 256,
      value % 256])) 8

/-- The copy loop of `os_rbuf_peek`: for `i = 0 .. count - 1`,
`p_buffer[i] = pool[(head + i + offset) & size]`. -/
def peek_loop (r : os_rbuf_t) (offset : Nat) (buf : Nat → Nat) (count : Nat) : Nat → Nat :=
  (List.range count).foldl
    (fun b i => Function.update b i (r.pool (u32_add (u32_add r.head i) offset &&& r.size))) buf

/-- The `os_rbuf_peek` of `src/rbuf.c`. -/
def os_rbuf_peek (e : Int) (p : Option os_rbuf_t) (offset : Nat)
    (p_buffer : Option (Nat → Nat)) (count : Nat) : rbuf_read :=
  match p, p_buffer with
  | some r, some buf =>
    if count = 0 then ⟨-1, OS_EINVAL, some r, some buf⟩
    else if u32_add (os_rbuf_used (some r)) offset < count then
      ⟨-1, OS_ENOENT, some r, some buf⟩
    else ⟨0, e, some r, some (peek_loop r offset buf count)⟩
  | _, _ => ⟨-1, OS_EINVAL, p, p_buffer⟩

/-- The macro `WORD_BE16` of `inc/bytes.h` (little-endian host). -/
def WORD_BE16 (bytes : Nat → Nat) : Nat :=
  ((bytes 0 <<< 8) ||| bytes 1) % 2 ^ 16

/-- The macro `WORD_BE32` of `inc/bytes.h` (little-endian host). -/
def WORD_BE32 (bytes : Nat → Nat) : Nat :=
  ((bytes 0 <<< 24) % 2 ^ 32 ||| (bytes 1 <<< 16) % 2 ^ 32 ||| (bytes 2 <<< 8) % 2 ^ 32
    ||| bytes 3) % 2 ^ 32

/-- The macro `WORD_BE64` of `inc/bytes.h` (little-endian host, `__LP64__`). -/
def WORD_BE64 (bytes : Nat → Nat) : Nat :=
  ((bytes 0 <<< 56) % 2 ^ 64 ||| (bytes 1 <<< 48) % 2 ^ 64 ||| (bytes 2 <<< 40) % 2 ^ 64
    ||| (bytes 3 <<< 32) % 2 ^ 64 ||| (bytes 4 <<< 24) % 2 ^ 64 ||| (bytes 5 <<< 16) % 2 ^ 64
    ||| (bytes 6 <<< 8) % 2 ^ 64 ||| bytes 7) % 2 ^ 64

/-- The `os_rbuf_peek_u8` of `src/rbuf.c`; the byte `*p_value` is the one-byte
buffer handed to `os_rbuf_peek`. -/
def os_rbuf_peek_u8 (e : Int) (p : Option os_rbuf_t) (offset : Nat)
    (p_value : Option Nat) : rbuf_value :=
  match p_value with
  | none => ⟨-1, OS_EINVAL, p, none⟩
  | some v =>
    let res := os_rbuf_peek e p offset (some (tmp_array [v])) 1
    ⟨res.ret, res.os_errno, res.p, res.p_buffer.map (fun b => b 0)⟩

/-- The body shared by `os_rbuf_peek_u16/32/64` of `src/rbuf.c`: the `NULL`
check, the peek of `n` bytes into an uninitialised `tmp` (its prior content is
the parameter `tmp`) and the conversion `conv` of `tmp` into `*p_value`. -/
def peek_word (n : Nat) (conv : (Nat → Nat) → Nat) (tmp : Nat → Nat) (e : Int)
    (p : Option os_rbuf_t) (offset : Nat) (p_value : Option Nat) : rbuf_value :=
  match p_value with
  | none => ⟨-1, OS_EINVAL, p, none⟩
  | some v =>
    let res := os_rbuf_peek e p offset (some tmp) n
    if res.ret = -1 then ⟨-1, res.os_errno, res.p, some v⟩
    else ⟨0, res.os_errno, res.p, res.p_buffer.map conv⟩

/-- The `os_rbuf_peek_u16` of `src/rbuf.c`. -/
def os_rbuf_peek_u16 (tmp : Nat → Nat) (e : Int) (p : Option os_rbuf_t) (offset : Nat)
    (p_value : Option Nat) : rbuf_value :=
  peek_word 2 WORD_BE16 tmp e p offset p_value

/-- The `os_rbuf_peek_u32` of `src/rbuf.c`. -/
def os_rbuf_peek_u32 (tmp : Nat → Nat) (e : Int) (p : Option os_rbuf_t) (offset : Nat)
    (p_value : Option Nat) : rbuf_value :=
  peek_word 4 WORD_BE32 tmp e p offset p_value

/-- The `os_rbuf_peek_u64` of `src/rbuf.c` (`__LP64__` builds). -/
def os_rbuf_peek_u64 (tmp : Nat → Nat) (e : Int) (p : Option os_rbuf_t) (offset : Nat)
    (p_value : Option Nat) : rbuf_value :=
  peek_word 8 WORD_BE64 tmp e p offset p_value

/-- The copy loop of `os_rbuf_pop`: for `i = 0 .. count - 1`,
`p_buffer[i] = pool[(head + i) & size]`. -/
def pop_loop (r : os_rbuf_t) (buf : Nat → Nat) (count : Nat) : Nat → Nat :=
  (List.range count).foldl
    (fun b i => Function.update b i (r.pool (u32_add r.head i &&& r.size))) buf

/-- The `os_rbuf_pop` of `src/rbuf.c`. -/
def os_rbuf_pop (e : Int) (p : Option os_rbuf_t) (p_buffer : Option (Nat → Nat))
    (count : Nat) : rbuf_read :=
  match p, p_buffer with
  | some r, some buf =>
    if count = 0 then ⟨-1, OS_EINVAL, some r, some buf⟩
    else if os_rbuf_used (some r) < count then ⟨-1, OS_ENOENT, some r, some buf⟩
    else ⟨0, e, some ⟨r.pool, r.size, u32_add r.head count &&& r.size, r.tail⟩,
      some (pop_loop r buf count)⟩
  | _, _ => ⟨-1, OS_EINVAL, p, p_buffer⟩

/-! ## Call sequences on a ring -/

/-- One call of the ring API that may change or read the ring, with its
arguments. -/
inductive rbuf_call where
  | push (bytes : Option (Nat → Nat)) (nbytes : Nat)
  | pop (p_buffer : Option (Nat → Nat)) (count : Nat)
  | peek (offset : Nat) (p_buffer : Option (Nat → Nat)) (count : Nat)
  | flush
  | change_size (pool_size : Nat)

/-- Ring and `os_errno` after one call, from the ring and `os_errno` before. -/
def rbuf_call.run (c : rbuf_call) (s : Int × Option os_rbuf_t) : Int × Option os_rbuf_t :=
  match c with
  | .push bytes nbytes =>
    let res := os_rbuf_push s.1 s.2 bytes nbytes
    (res.os_errno, res.p)
  | .pop p_buffer count =>
    let res := os_rbuf_pop s.1 s.2 p_buffer count
    (res.os_errno, res.p)
  | .peek offset p_buffer count =>
    let res := os_rbuf_peek s.1 s.2 offset p_buffer count
    (res.os_errno, res.p)
  | .flush =>
    let res := os_rbuf_flush s.1 s.2
    (res.os_errno, res.p)
  | .change_size pool_size =>
    let res := os_rbuf_change_size s.1 s.2 pool_size
    (res.os_errno, res.p)

/-- Ring and `os_errno` after a sequence of calls, first call first. -/
def run_calls (s : Int × Option os_rbuf_t) (calls : List rbuf_call) : Int × Option os_rbuf_t :=
  calls.foldl (fun st c => c.run st) s

/-- Capacity the caller last gave the ring: the `pool_size` of the last
`change_size` in `calls`, or `C` (the `pool_size` of `os_rbuf_init`) if none. -/
def capacity_after (C : Nat) (calls : List rbuf_call) : Nat :=
  calls.foldl (fun c call => match call with
    | .change_size pool_size => pool_size
    | _ => c) C

/-- Bytes the ring holds, oldest first: what `os_rbuf_peek` at offset 0 of
`os_rbuf_used` bytes reads (no byte when the ring is empty). -/
def held (r : os_rbuf_t) : List Nat :=
  match (os_rbuf_peek 0 (some r) 0 (some (fun _ => 0)) (os_rbuf_used (some r))).p_buffer with
  | some b => (List.range (os_rbuf_used (some r))).map b
  | none => []

/-- The ring has a power-of-two capacity (`size` is the mask `2 ^ k - 1`) and
both cursors lie within the mask. -/
def rbuf_wf (r : os_rbuf_t) : Prop :=
  (∃ k, k ≤ 32 ∧ r.size + 1 = 2 ^ k) ∧ r.head ≤ r.size ∧ r.tail ≤ r.size

/-- The ring behind `p` is well formed and its capacity is `cap`. -/
def rbuf_inv (cap : Nat) (p : Option os_rbuf_t) : Prop :=
  ∃ r, p = some r ∧ rbuf_wf r ∧ r.size + 1 = cap

/-- The ring a successful `os_rbuf_push` of `nbytes` bytes leaves. -/
def pushed (r : os_rbuf_t) (bytes : Nat → Nat) (nbytes : Nat) : os_rbuf_t :=
  ⟨push_loop r bytes nbytes, r.size, r.head, u32_add r.tail nbytes &&& r.size⟩

/-- Bytes of `v` as an `n`-byte big-endian integer, most significant byte
first (the order the specification gives for `push_u16/32/64`). -/
def big_endian_bytes (n v : Nat) : List Nat :=
  (List.range n).map (fun i => v / 256 ^ (n - 1 - i) % 256)

/-- The `os_rbuf_pop_u8` of `src/rbuf.c`: `p_value` is handed to `os_rbuf_pop` as
a one-byte buffer. -/
def os_rbuf_pop_u8 (e : Int) (p : Option os_rbuf_t) (p_value : Option Nat) : rbuf_value :=
  ⟨(os_rbuf_pop e p (p_value.map (fun v => tmp_array [v])) 1).ret,
    (os_rbuf_pop e p (p_value.map (fun v => tmp_array [v])) 1).os_errno,
    (os_rbuf_pop e p (p_value.map (fun v => tmp_array [v])) 1).p,
    (os_rbuf_pop e p (p_value.map (fun v => tmp_array [v])) 1).p_buffer.map (fun b => b 0)⟩

/-- The body shared by `os_rbuf_pop_u16/32/64` of `src/rbuf.c`: the `NULL`
check, the pop of `n` bytes into an uninitialised `tmp` (its prior content is
the parameter `tmp`) and the conversion `conv` of `tmp` into `*p_value`. -/
def pop_word (n : Nat) (conv : (Nat → Nat) → Nat) (tmp : Nat → Nat) (e : Int)
    (p : Option os_rbuf_t) (p_value : Option Nat) : rbuf_value :=
  match p_value with
  | none => ⟨-1, OS_EINVAL, p, none⟩
  | some v =>
    let res := os_rbuf_pop e p (some tmp) n
    if res.ret = -1 then ⟨-1, res.os_errno, res.p, some v⟩
    else ⟨0, res.os_errno, res.p, res.p_buffer.map conv⟩

/-- The `os_rbuf_pop_u16` of `src/rbuf.c`. -/
def os_rbuf_pop_u16 (tmp : Nat → Nat) (e : Int) (p : Option os_rbuf_t)
    (p_value : Option Nat) : rbuf_value :=
  pop_word 2 WORD_BE16 tmp e p p_value

/-- The `os_rbuf_pop_u32` of `src/rbuf.c`. -/
def os_rbuf_pop_u32 (tmp : Nat → Nat) (e : Int) (p : Option os_rbuf_t)
    (p_value : Option Nat) : rbuf_value :=
  pop_word 4 WORD_BE32 tmp e p p_value

/-- The `os_rbuf_pop_u64` of `src/rbuf.c` (`__LP64__` builds). -/
def os_rbuf_pop_u64 (tmp : Nat → Nat) (e : Int) (p : Option os_rbuf_t)
    (p_value : Option Nat) : rbuf_value :=
  pop_word 8 WORD_BE64 tmp e p p_value

/-- The integer round trip through a ring `r`, for one width: the push of `v`
succeeds and leaves `os_errno` alone; on the ring it leaves, the peek at offset
0 returns 0, stores `v` and leaves that ring as it is; the pop returns 0, stores
`v` and leaves an empty ring. `v0` is what `*p_value` held before. -/
def word_round_trip (push : Int → Option os_rbuf_t → Nat → rbuf_ret)
    (peek : Int → Option os_rbuf_t → Nat → Option Nat → rbuf_value)
    (pop : Int → Option os_rbuf_t → Option Nat → rbuf_value)
    (e : Int) (r : os_rbuf_t) (v v0 : Nat) : Prop :=
  (push e (some r) v).ret = 0 ∧ (push e (some r) v).os_errno = e ∧
    (peek e (push e (some r) v).p 0 (some v0)).ret = 0 ∧
    (peek e (push e (some r) v).p 0 (some v0)).p_value = some v ∧
    (peek e (push e (some r) v).p 0 (some v0)).p = (push e (some r) v).p ∧
    (pop e (push e (some r) v).p (some v0)).ret = 0 ∧
    (pop e (push e (some r) v).p (some v0)).p_value = some v ∧
    ∃ r2, (pop e (push e (some r) v).p (some v0)).p = some r2 ∧ r2.head = r2.tail ∧
      os_rbuf_used (some r2) = 0

/-! ## queue.h and `src/port/linux/queue.c`

* A pointer to a mailbox is an address (`Nat`), `NULL` is `none`; the memory
  `mem` gives the `os_queue_t` that lives at each address, and `g_queue_list` is
  the head pointer of the registry list.
* The message storage a mailbox owns is held in its `buffer` field as a map
  from slot index to message (`none` is the `NULL` pointer); every mailbox has
  storage of its own.
* `os_mutex_lock`/`os_mutex_unlock` on `g_queue_mutex` always succeed.
* A `while` loop over the list takes a bound `fuel` on its iterations and yields
  `none` when the bound is reached before the loop ends.
-/

/-- Value of `OS_QUEUE_MSGID_MAX` in `inc/queue.h`. -/
def OS_QUEUE_MSGID_MAX : Nat := 8192

/-- Value of `OS_QUEUE_SUB_TABLE_SIZE` in `inc/queue.h`. -/
def OS_QUEUE_SUB_TABLE_SIZE : Nat := OS_QUEUE_MSGID_MAX / 32

/-- Value of `OS_QUEUE_PARAM_COUNT` in `inc/queue.h`. -/
def OS_QUEUE_PARAM_COUNT : Nat := 128

/-- The struct `os_msg_t` of `inc/queue.h`; `params` is the array of 32-bit
words of the payload. -/
structure os_msg_t where
  source : Option Nat
  target : Option Nat
  userdata : Nat
  id : Nat
  params : List Nat
deriving DecidableEq

/-- The struct `os_queue_s` of `inc/queue.h`. -/
structure os_queue_t where
  next : Option Nat
  buffer : Option (Nat → os_msg_t)
  head : Nat
  tail : Nat
  size : Nat
  subscriptions : Nat → Nat

/-- What the queue functions read and write: `os_errno`, the global
`g_queue_list` and the mailbox at each address. -/
structure queue_state where
  os_errno : Int
  g_queue_list : Option Nat
  mem : Nat → os_queue_t

/-- Outcome of a queue call: the returned `int` and the state after it. -/
structure queue_ret where
  ret : Int
  st : queue_state

/-- Outcome of a queue call that takes a message pointer: as `queue_ret`, with
the message behind the pointer after the call (`none` when it is `NULL`). -/
structure queue_msg_ret where
  ret : Int
  st : queue_state
  msg : Option os_msg_t

/-- A mailbox after `memset(p, 0, sizeof(os_queue_t))`. -/
def queue_zero : os_queue_t := ⟨none, none, 0, 0, 0, fun _ => 0⟩

/-- The `os_queue_init` of `src/port/linux/queue.c`. -/
def os_queue_init (s : queue_state) (p : Option Nat) (p_msg_pool : Option (Nat → os_msg_t))
    (pool_size : Nat) : queue_ret :=
  match p, p_msg_pool with
  | some a, some pool =>
    if pool_size &&& u32_sub pool_size 1 ≠ 0 then
      ⟨-1, ⟨OS_EINVAL, s.g_queue_list, s.mem⟩⟩
    else
      let q0 := queue_zero
      let q1 : os_queue_t :=
        ⟨q0.next, some pool, q0.head, q0.tail, u32_sub pool_size 1, q0.subscriptions⟩
      let q2 : os_queue_t :=
        ⟨s.g_queue_list, q1.buffer, q1.head, q1.tail, q1.size, q1.subscriptions⟩
      ⟨0, ⟨s.os_errno, some a, Function.update s.mem a q2⟩⟩
  | _, _ => ⟨-1, ⟨OS_EINVAL, s.g_queue_list, s.mem⟩⟩

/-- The mailbox `q` with its `next` pointer replaced. -/
def set_next (q : os_queue_t) (next : Option Nat) : os_queue_t :=
  ⟨next, q.buffer, q.head, q.tail, q.size, q.subscriptions⟩

/-- The statement `if (NULL != prv) prv->next = tmp->next` of `os_queue_destroy`,
on the memory of mailboxes; `next` is `tmp->next`. -/
def link_prev (mem : Nat → os_queue_t) (prv : Option Nat) (next : Option Nat) :
    Nat → os_queue_t :=
  match prv with
  | some v => Function.update mem v (set_next (mem v) next)
  | none => mem

/-- The branch `p == tmp` of the loop of `os_queue_destroy`, with `tmp = p`: the
list head moves on if it is `p`, the previous node (if any) is linked to the
node after `p`, and the memory of `p` is zeroed. -/
def destroy_found (s : queue_state) (p : Nat) (prv : Option Nat) : queue_state :=
  let g1 := if some p = s.g_queue_list then (s.mem p).next else s.g_queue_list
  let mem1 := link_prev s.mem prv (s.mem p).next
  ⟨s.os_errno, g1, Function.update mem1 p queue_zero⟩

/-- The `while (NULL != tmp)` loop of `os_queue_destroy`. -/
def destroy_loop (p : Nat) : Nat → queue_state → Option Nat → Option Nat → Option queue_state
  | _, s, _, none => some s
  | 0, _, _, some _ => none
  | fuel + 1, s, prv, some t =>
    if p = t then some (destroy_found s p prv)
    else destroy_loop p fuel s (some t) (s.mem t).next

/-- The `os_queue_destroy` of `src/port/linux/queue.c`. -/
def os_queue_destroy (fuel : Nat) (s : queue_state) (p : Option Nat) : Option queue_ret :=
  match p with
  | none => some ⟨-1, ⟨OS_EINVAL, s.g_queue_list, s.mem⟩⟩
  | some a => (destroy_loop a fuel s none s.g_queue_list).map (fun s1 => ⟨0, s1⟩)

/-- Bitwise complement of a `uint32_t`. -/
def u32_not (a : Nat) : Nat := 2 ^ 32 - 1 - a % 2 ^ 32

/-- The mailbox `q` with the word `off` of its subscription table replaced. -/
def set_subscription (q : os_queue_t) (off word : Nat) : os_queue_t :=
  ⟨q.next, q.buffer, q.head, q.tail, q.size, Function.update q.subscriptions off word⟩

/-- The `os_queue_sub` of `src/port/linux/queue.c`. -/
def os_queue_sub (s : queue_state) (p : Option Nat) (id : Nat) : queue_ret :=
  let off := id / 32
  let bit := id &&& 7
  match p with
  | none => ⟨-1, ⟨OS_EINVAL, s.g_queue_list, s.mem⟩⟩
  | some a =>
    if id > OS_QUEUE_MSGID_MAX - 1 then ⟨-1, ⟨OS_EINVAL, s.g_queue_list, s.mem⟩⟩
    else
      ⟨0, ⟨s.os_errno, s.g_queue_list, Function.update s.mem a
        (set_subscription (s.mem a) off ((s.mem a).subscriptions off ||| (1 <<< bit)))⟩⟩

/-- The `os_queue_unsub` of `src/port/linux/queue.c`. -/
def os_queue_unsub (s : queue_state) (p : Option Nat) (id : Nat) : queue_ret :=
  let off := id / 32
  let bit := id &&& 7
  match p with
  | none => ⟨-1, ⟨OS_EINVAL, s.g_queue_list, s.mem⟩⟩
  | some a =>
    if id > OS_QUEUE_MSGID_MAX - 1 then ⟨-1, ⟨OS_EINVAL, s.g_queue_list, s.mem⟩⟩
    else
      ⟨0, ⟨s.os_errno, s.g_queue_list, Function.update s.mem a
        (set_subscription (s.mem a) off
          ((s.mem a).subscriptions off &&& u32_not (1 <<< bit)))⟩⟩

/-- The two statements that put a message into a mailbox, in `os_queue_send` and
`os_queue_post`: `memcpy(&tmp->buffer[tmp->tail], msg, sizeof(*msg))` and
`tmp->tail = (tmp->tail + 1U) & tmp->size`. -/
def deliver (q : os_queue_t) (msg : os_msg_t) : os_queue_t :=
  ⟨q.next, q.buffer.map (fun b => Function.update b q.tail msg), q.head,
    u32_add q.tail 1 &&& q.size, q.size, q.subscriptions⟩

/-- The test `0U != ((tmp->subscriptions[off] >> bit) & 1U)` of `os_queue_post`. -/
def sub_bit_set (q : os_queue_t) (off bit : Nat) : Bool :=
  ((q.subscriptions off >>> bit) &&& 1) != 0

/-- The `while (NULL != tmp)` loop of `os_queue_post`. -/
def post_loop (msg : os_msg_t) (off bit : Nat) :
    Nat → queue_state → Option Nat → Option queue_state
  | _, s, none => some s
  | 0, _, some _ => none
  | fuel + 1, s, some t =>
    if sub_bit_set (s.mem t) off bit then
      post_loop msg off bit fuel
        ⟨s.os_errno, s.g_queue_list, Function.update s.mem t (deliver (s.mem t) msg)⟩
        (deliver (s.mem t) msg).next
    else post_loop msg off bit fuel s (s.mem t).next

/-- The `os_queue_post` of `src/port/linux/queue.c`. -/
def os_queue_post (fuel : Nat) (s : queue_state) (p : Option Nat) (msg : Option os_msg_t) :
    Option queue_msg_ret :=
  match p, msg with
  | some a, some m =>
    if m.id > OS_QUEUE_MSGID_MAX - 1 then
      some ⟨-1, ⟨OS_EINVAL, s.g_queue_list, s.mem⟩, some m⟩
    else
      (post_loop ⟨some a, m.target, m.userdata, m.id, m.params⟩ (m.id / 32) (m.id &&& 7) fuel s
        s.g_queue_list).map
        (fun s1 => ⟨0, s1, some ⟨some a, m.target, m.userdata, m.id, m.params⟩⟩)
  | _, _ => some ⟨-1, ⟨OS_EINVAL, s.g_queue_list, s.mem⟩, msg⟩

/-- The nodes reached from the pointer `o` by following `next` up to `NULL` are
exactly the addresses of `l`, in order. -/
def is_chain (mem : Nat → os_queue_t) : Option Nat → List Nat → Prop
  | none, [] => True
  | some a, b :: l => a = b ∧ is_chain mem (mem b).next l
  | none, _ :: _ => False
  | some _, [] => False

/-- The registry list of the state `s` is `l`: the list `g_queue_list` heads. -/
def registry (s : queue_state) (l : List Nat) : Prop :=
  is_chain s.mem s.g_queue_list l

/-- The node that `os_queue_destroy` holds in `prv` when it finds `p`: the node
before `p` in the rest `l` of the list, or the incoming `prv` if `p` is first. -/
def pred_in (p : Nat) : List Nat → Option Nat → Option Nat
  | [], prv => prv
  | b :: l, prv => if b = p then prv else pred_in p l (some b)

/-- The subscription table of the specification: one bit per event id, bit
`id % 32` of the 32-bit word `id / 32`. -/
def subscribed_spec (q : os_queue_t) (id : Nat) : Bool :=
  (q.subscriptions (id / 32)).testBit (id % 32)

/-- What one of `os_queue_sub`/`os_queue_unsub` may do, by C17: fail with
`OS_EINVAL` exactly for `id > 8191` and then leave every mailbox and the list
alone, return 0 for `id <= 8191`, and never write a table word at index 256 or
above. -/
def sub_range_ok (f : queue_state → Option Nat → Nat → queue_ret) (s : queue_state)
    (a id : Nat) : Prop :=
  (((f s (some a) id).ret = -1 ∧ (f s (some a) id).st.os_errno = OS_EINVAL) ↔ 8191 < id) ∧
    (8191 < id → (f s (some a) id).st.mem = s.mem ∧
      (f s (some a) id).st.g_queue_list = s.g_queue_list) ∧
    (id ≤ 8191 → (f s (some a) id).ret = 0) ∧
    (∀ b i, 256 ≤ i → ((f s (some a) id).st.mem b).subscriptions i = (s.mem b).subscriptions i)

/-- Value of `OS_EAGAIN` in `inc/errno.h`. -/
def OS_EAGAIN : Int := 7

/-- The mailbox `q` with its `head` cursor replaced. -/
def set_head (q : os_queue_t) (head : Nat) : os_queue_t :=
  ⟨q.next, q.buffer, head, q.tail, q.size, q.subscriptions⟩

/-- The statement `memcpy(p_msg, &p->buffer[p->head], sizeof(*p_msg))` of
`os_queue_recv`: the message `*p_msg` afterwards (a `NULL` buffer is not read
and leaves `*p_msg` as it was). -/
def read_slot (q : os_queue_t) (m : os_msg_t) : os_msg_t :=
  match q.buffer with
  | some b => b q.head
  | none => m

/-- The `os_queue_recv` of `src/port/linux/queue.c`. -/
def os_queue_recv (s : queue_state) (p : Option Nat) (p_msg : Option os_msg_t) :
    queue_msg_ret :=
  match p, p_msg with
  | some a, some m =>
    if (s.mem a).head = (s.mem a).tail then
      ⟨-1, ⟨OS_EAGAIN, s.g_queue_list, s.mem⟩, some m⟩
    else
      ⟨0, ⟨s.os_errno, s.g_queue_list, Function.update s.mem a
        (set_head (s.mem a) (u32_add (s.mem a).head 1 &&& (s.mem a).size))⟩,
        some (read_slot (s.mem a) m)⟩
  | _, _ => ⟨-1, ⟨OS_EINVAL, s.g_queue_list, s.mem⟩, p_msg⟩

/-- The `while (NULL != tmp)` loop of `os_queue_send`: the local `err` and the
state when the loop ends. -/
def send_loop (msg : os_msg_t) : Nat → queue_state → Option Nat → Option (Int × queue_state)
  | _, s, none => some (-2, s)
  | 0, _, some _ => none
  | fuel + 1, s, some t =>
    if msg.target = some t then
      some (0, ⟨s.os_errno, s.g_queue_list, Function.update s.mem t (deliver (s.mem t) msg)⟩)
    else send_loop msg fuel s (s.mem t).next

/-- The `os_queue_send` of `src/port/linux/queue.c`. -/
def os_queue_send (fuel : Nat) (s : queue_state) (p : Option Nat) (msg : Option os_msg_t) :
    Option queue_msg_ret :=
  match p, msg with
  | some a, some m =>
    (send_loop ⟨some a, m.target, m.userdata, m.id, m.params⟩ fuel s s.g_queue_list).map
      (fun r =>
        if r.1 = -2 then
          ⟨-1, ⟨OS_ENOENT, r.2.g_queue_list, r.2.mem⟩,
            some ⟨some a, m.target, m.userdata, m.id, m.params⟩⟩
        else ⟨r.1, r.2, some ⟨some a, m.target, m.userdata, m.id, m.params⟩⟩)
  | _, _ => some ⟨-1, ⟨OS_EINVAL, s.g_queue_list, s.mem⟩, msg⟩

/-- The `params` array of `qmsg` in `os_queue_sendv`/`os_queue_postv` after
`memset(&qmsg, 0, sizeof(qmsg))` and the loop
`for (i = 0; i < param_count; i++) qmsg.params[i] = va_arg(argp, uint32_t)`;
`args` are the variadic arguments in order. -/
def va_params (param_count : Nat) (args : List Nat) : List Nat :=
  (List.range param_count).foldl (fun ps i => ps.set i (args.getD i 0))
    (List.replicate OS_QUEUE_PARAM_COUNT 0)

/-- The `os_queue_sendv` of `src/port/linux/queue.c`. -/
def os_queue_sendv (fuel : Nat) (s : queue_state) (p dst : Option Nat) (userdata id : Nat)
    (param_count : Nat) (args : List Nat) : Option queue_ret :=
  match p, dst with
  | some a, some d =>
    if param_count > OS_QUEUE_PARAM_COUNT then some ⟨-1, ⟨OS_EINVAL, s.g_queue_list, s.mem⟩⟩
    else
      (os_queue_send fuel s (some a)
        (some ⟨some a, some d, userdata, id, va_params param_count args⟩)).map
        (fun r => ⟨r.ret, r.st⟩)
  | _, _ => some ⟨-1, ⟨OS_EINVAL, s.g_queue_list, s.mem⟩⟩

/-- The mailbox has a power-of-two capacity (`size` is the mask `2 ^ k - 1`) and
both cursors lie within the mask. -/
def queue_wf (q : os_queue_t) : Prop :=
  (∃ k, k ≤ 32 ∧ q.size + 1 = 2 ^ k) ∧ q.head ≤ q.size ∧ q.tail ≤ q.size

/-- Number of unread messages of a mailbox, `(tail - head) & size`. -/
def queue_used (q : os_queue_t) : Nat := u32_sub q.tail q.head &&& q.size

/-- The unread messages of a mailbox, oldest first: the slots from `head` up to
`tail`, each index masked by `size`. -/
def queue_unread (q : os_queue_t) : List os_msg_t :=
  match q.buffer with
  | some b => (List.range (queue_used q)).map (fun i => b (u32_add q.head i &&& q.size))
  | none => []

/-- One call of the mailbox API on the shared state, with its arguments. -/
inductive queue_call where
  | sub (p : Option Nat) (id : Nat)
  | unsub (p : Option Nat) (id : Nat)
  | send (p : Option Nat) (msg : Option os_msg_t)
  | post (p : Option Nat) (msg : Option os_msg_t)
  | recv (p : Option Nat) (p_msg : Option os_msg_t)

/-- State after one call (`none` when a list loop runs out of fuel). -/
def queue_call.run (fuel : Nat) (s : queue_state) : queue_call → Option queue_state
  | .sub p id => some (os_queue_sub s p id).st
  | .unsub p id => some (os_queue_unsub s p id).st
  | .send p msg => (os_queue_send fuel s p msg).map (fun r => r.st)
  | .post p msg => (os_queue_post fuel s p msg).map (fun r => r.st)
  | .recv p p_msg => some (os_queue_recv s p p_msg).st

/-- State after a sequence of calls, first call first. -/
def run_queue_calls (fuel : Nat) : queue_state → List queue_call → Option queue_state
  | s, [] => some s
  | s, c :: cs =>
    match c.run fuel s with
    | some s1 => run_queue_calls fuel s1 cs
    | none => none

/-- The message a call puts into the mailbox at address `t` whose record is `q`:
a send by a non-null sender to target `t`, or a post by a non-null sender with
an id that passes the range check and whose tested bit is set in `q`; `none`
for every other call. -/
def delivered_message (t : Nat) (q : os_queue_t) : queue_call → Option os_msg_t
  | .send (some a) (some m) =>
    if m.target = some t then some ⟨some a, m.target, m.userdata, m.id, m.params⟩ else none
  | .post (some a) (some m) =>
    if m.id ≤ OS_QUEUE_MSGID_MAX - 1 ∧ sub_bit_set q (m.id / 32) (m.id &&& 7) = true then
      some ⟨some a, m.target, m.userdata, m.id, m.params⟩
    else none
  | _ => none

/-- The outcomes of `n` successive calls `os_queue_recv(t, &m0)`, each with an
output message holding `m0` before the call: the state after the last call and,
per call, the returned `int`, `os_errno` after the call and `*p_msg` after the
call. -/
def recv_many (t : Nat) (m0 : os_msg_t) : Nat → queue_state →
    queue_state × List (Int × Int × Option os_msg_t)
  | 0, s => (s, [])
  | n + 1, s =>
    ((recv_many t m0 n (os_queue_recv s (some t) (some m0)).st).1,
      ((os_queue_recv s (some t) (some m0)).ret,
        (os_queue_recv s (some t) (some m0)).st.os_errno,
        (os_queue_recv s (some t) (some m0)).msg) ::
        (recv_many t m0 n (os_queue_recv s (some t) (some m0)).st).2)

/-- The subscription scenario of the specification: mailboxes `a` and `b` are
created with capacity `C`, `b` subscribes to the id of `m`, `a` posts `m`, then
`b` receives twice and `a` once (each receive into an output message holding
`m0`). The result holds the return values of the two creations and of the
subscription and the outcomes of the three receives. -/
def subscription_scenario (fuel : Nat) (s0 : queue_state) (a b : Nat)
    (poolA poolB : Nat → os_msg_t) (C : Nat) (m m0 : os_msg_t) :
    Option (Int × Int × Int × queue_msg_ret × queue_msg_ret × queue_msg_ret) :=
  let rA := os_queue_init s0 (some a) (some poolA) C
  let rB := os_queue_init rA.st (some b) (some poolB) C
  let rS := os_queue_sub rB.st (some b) m.id
  (os_queue_post fuel rS.st (some a) (some m)).map (fun rP =>
    let r1 := os_queue_recv rP.st (some b) (some m0)
    let r2 := os_queue_recv r1.st (some b) (some m0)
    let r3 := os_queue_recv r2.st (some a) (some m0)
    (rA.ret, rB.ret, rS.ret, r1, r2, r3))

/-- What every call of `os_queue_sub`, `os_queue_unsub`, `os_queue_send`,
`os_queue_post` and `os_queue_recv` keeps of a mailbox `q` (`q1` is the mailbox
after the call): the `next` pointer, `size`, and each cursor within `size` if it
was within `size` before. -/
def cursors_kept (q q1 : os_queue_t) : Prop :=
  q1.next = q.next ∧ q1.size = q.size ∧ (q.head ≤ q.size → q1.head ≤ q1.size) ∧
    (q.tail ≤ q.size → q1.tail ≤ q1.size)

/-! ## `src/bytes.c` (64-bit build, little-endian host) -/

/-- The assignments `p_buffer[i] = (uint8_t) v` of a list of index and value
pairs, first pair first. -/
def store_all (buf : Nat → Nat) (ws : List (Nat × Nat)) : Nat → Nat :=
  ws.foldl (fun b w => Function.update b w.1 (w.2 % 256)) buf

/-- The `os_bytes_pack` of `src/bytes.c`, in the branch for a little-endian
host; `nbytes` is a `uint8_t` and the result a `uint64_t`. -/
def os_bytes_pack (nbytes : Nat) (bytes : Option (Nat → Nat)) : Nat :=
  match bytes with
  | none => 0
  | some b =>
    if nbytes < 1 ∨ nbytes > 8 then 0
    else
      (List.range nbytes).foldl
        (fun retval i => (retval + (b (nbytes - 1 - i) <<< (i * 8)) % 2 ^ 64) % 2 ^ 64) 0

/-- The `os_bytes_unpack` of `src/bytes.c`: the returned length and the buffer
after the call. -/
def os_bytes_unpack (value : Nat) (p_buffer : Option (Nat → Nat)) (bufsize : Nat) :
    Nat × Option (Nat → Nat) :=
  match p_buffer with
  | none => (0, none)
  | some buf =>
    if value ≤ 0xFF then
      if bufsize < 2 then (0, some buf)
      else (2, some (store_all buf [(0, 1), (1, value)]))
    else if value ≤ 0xFFFF then
      if bufsize < 3 then (0, some buf)
      else (3, some (store_all buf [(0, 2), (1, value >>> 8), (2, value)]))
    else if value ≤ 0xFFFFFF then
      if bufsize < 4 then (0, some buf)
      else (4, some (store_all buf [(0, 3), (1, value >>> 16), (2, value >>> 8), (3, value)]))
    else if value ≤ 0xFFFFFFFF then
      if bufsize < 5 then (0, some buf)
      else (5, some (store_all buf
        [(0, 4), (1, value >>> 24), (2, value >>> 16), (3, value >>> 8), (4, value)]))
    else if value ≤ 0xFFFFFFFFFF then
      if bufsize < 6 then (0, some buf)
      else (6, some (store_all buf
        [(0, 5), (1, value >>> 32), (2, value >>> 24), (3, value >>> 16), (4, value >>> 8),
          (5, value)]))
    else if value ≤ 0xFFFFFFFFFFFF then
      if bufsize < 7 then (0, some buf)
      else (7, some (store_all buf
        [(0, 6), (1, value >>> 40), (1, value >>> 32), (2, value >>> 24), (3, value >>> 16),
          (4, value >>> 8), (5, value)]))
    else if value ≤ 0xFFFFFFFFFFFFFF then
      if bufsize < 8 then (0, some buf)
      else (8, some (store_all buf
        [(0, 7), (1, value >>> 48), (2, value >>> 40), (3, value >>> 32), (4, value >>> 24),
          (5, value >>> 16), (6, value >>> 8), (7, value)]))
    else
      if bufsize < 9 then (0, some buf)
      else (9, some (store_all buf
        [(0, 8), (1, value >>> 56), (2, value >>> 48), (3, value >>> 40), (4, value >>> 32),
          (5, value >>> 24), (6, value >>> 16), (7, value >>> 8), (8, value)]))

/-- Number of bytes that hold `v`, in the words of the specification: the least
`n >= 1` with `v < 256 ^ n`. -/
def byte_count (v : Nat) : Nat :=
  if v = 0 then 1 else Nat.log 256 v + 1

/-- The `os_bytes_pack_ex` of `src/bytes.c` on a little-endian host: with
`big_endian` the byte `bytes[nbytes - 1 - i]` is shifted by `i * 8`, without it
the byte `bytes[i]`. -/
def os_bytes_pack_ex (nbytes : Nat) (bytes : Option (Nat → Nat)) (big_endian : Bool) : Nat :=
  match bytes with
  | none => 0
  | some b =>
    if nbytes < 1 ∨ nbytes > 8 then 0
    else if big_endian then
      (List.range nbytes).foldl
        (fun retval i => (retval + (b (nbytes - 1 - i) <<< (i * 8)) % 2 ^ 64) % 2 ^ 64) 0
    else
      (List.range nbytes).foldl
        (fun retval i => (retval + (b i <<< (i * 8)) % 2 ^ 64) % 2 ^ 64) 0

/-- The body of `os_bytes_unpack_ex` of `src/bytes.c` for a non-null buffer: the
returned length and the assignments `p_buffer[i] = (uint8_t) v` the call makes,
as pairs of index and value in the order of the source. -/
def unpack_ex_stores (value : Nat) (big_endian : Bool) (bufsize : Nat) :
    Nat × List (Nat × Nat) :=
  if value ≤ 0xFF then
    if bufsize < 2 then (0, [])
    else (2, [(0, 1), (1, value)])
  else if value ≤ 0xFFFF then
    if bufsize < 3 then (0, [])
    else if big_endian then (3, [(0, 2), (1, value >>> 8), (2, value)])
    else (3, [(0, 2), (1, value), (2, value >>> 8)])
  else if value ≤ 0xFFFFFF then
    if bufsize < 4 then (0, [])
    else if big_endian then (4, [(0, 3), (1, value >>> 16), (2, value >>> 8), (3, value)])
    else (4, [(0, 3), (1, value), (2, value >>> 8), (3, value >>> 16)])
  else if value ≤ 0xFFFFFFFF then
    if bufsize < 5 then (0, [])
    else if big_endian then
      (5, [(0, 4), (1, value >>> 24), (2, value >>> 16), (3, value >>> 8), (4, value)])
    else (5, [(0, 4), (1, value), (2, value >>> 8), (3, value >>> 16), (4, value >>> 24)])
  else if value ≤ 0xFFFFFFFFFF then
    if bufsize < 6 then (0, [])
    else if big_endian then
      (6, [(0, 5), (1, value >>> 32), (2, value >>> 24), (3, value >>> 16), (4, value >>> 8),
        (5, value)])
    else
      (6, [(0, 5), (1, value), (2, value >>> 8), (3, value >>> 16), (4, value >>> 24),
        (6, value >>> 32)])
  else if value ≤ 0xFFFFFFFFFFFF then
    if bufsize < 7 then (0, [])
    else if big_endian then
      (7, [(0, 6), (1, value >>> 40), (2, value >>> 32), (3, value >>> 24), (4, value >>> 16),
        (5, value >>> 8), (6, value)])
    else
      (7, [(0, 6), (1, value), (2, value >>> 8), (3, value >>> 16), (4, value >>> 24),
        (6, value >>> 32), (6, value >>> 40)])
  else if value ≤ 0xFFFFFFFFFFFFFF then
    if bufsize < 8 then (0, [])
    else if big_endian then
      (8, [(0, 7), (1, value >>> 48), (2, value >>> 40), (3, value >>> 32), (4, value >>> 24),
        (5, value >>> 16), (6, value >>> 8), (7, value)])
    else
      (8, [(0, 7), (1, value), (2, value >>> 8), (3, value >>> 16), (4, value >>> 24),
        (6, value >>> 32), (6, value >>> 40), (6, value >>> 48)])
  else
    if bufsize < 9 then (0, [])
    else if big_endian then
      (9, [(0, 8), (1, value >>> 56), (2, value >>> 48), (3, value >>> 40), (4, value >>> 32),
        (5, value >>> 24), (6, value >>> 16), (7, value >>> 8), (8, value)])
    else
      (9, [(0, 8), (1, value), (2, value >>> 8), (3, value >>> 16), (4, value >>> 24),
        (6, value >>> 32), (6, value >>> 40), (6, value >>> 48), (6, value >>> 56)])

/-- The `os_bytes_unpack_ex` of `src/bytes.c`: the returned length and the buffer
after the call. -/
def os_bytes_unpack_ex (value : Nat) (big_endian : Bool) (p_buffer : Option (Nat → Nat))
    (bufsize : Nat) : Nat × Option (Nat → Nat) :=
  match p_buffer with
  | none => (0, none)
  | some buf =>
    ((unpack_ex_stores value big_endian bufsize).1,
      some (store_all buf (unpack_ex_stores value big_endian bufsize).2))

/-- Bytes of `v` as an `n`-byte little-endian integer, least significant byte
first. -/
def little_endian_bytes (n v : Nat) : List Nat :=
  (List.range n).map (fun i => v / 256 ^ i % 256)

/-! ## time.h and `src/port/linux/time.c` (64-bit `long`)

* A `long` is an `Int` from `LONG_MIN` to `LONG_MAX`; an addition, subtraction
  or multiplication of two `long` values is reduced to that range
  (`long_wrap`), the arithmetic of the machine.
* The C operators `/` and `%` on `long` truncate towards zero (`Int.tdiv`,
  `Int.tmod`).
-/

/-- Value of `LONG_MAX` in `<limits.h>` for a 64-bit `long`. -/
def LONG_MAX : Int := 2 ^ 63 - 1

/-- Value of `LONG_MIN` in `<limits.h>` for a 64-bit `long`. -/
def LONG_MIN : Int := -2 ^ 63

/-- Reduction of an integer to the range of a 64-bit `long`. -/
def long_wrap (x : Int) : Int := (x + 2 ^ 63) % 2 ^ 64 - 2 ^ 63

/-- Addition of two `long` values. -/
def long_add (a b : Int) : Int := long_wrap (a + b)

/-- Subtraction of two `long` values. -/
def long_sub (a b : Int) : Int := long_wrap (a - b)

/-- Multiplication of two `long` values. -/
def long_mul (a b : Int) : Int := long_wrap (a * b)

/-- The macro `BILLION` of `src/port/linux/time.c`. -/
def BILLION : Int := 1000000000

/-- The macro `MILLISECOND` of `src/port/linux/time.c`. -/
def MILLISECOND : Int := 1000

/-- The macro `NANOSECOND` of `src/port/linux/time.c`. -/
def NANOSECOND : Int := 1000000000

/-- The type `os_time_t` of `inc/time.h`, a `struct timespec`. -/
structure os_time_t where
  tv_sec : Int
  tv_nsec : Int
deriving DecidableEq

/-- The macro `OS_TIME_INIT` of `inc/time.h`. -/
def OS_TIME_INIT : os_time_t := ⟨0, 0⟩

/-- The macro `OS_OVERFLOW_ADD` of `inc/overflow.h`. -/
def OS_OVERFLOW_ADD (max min lhs rhs : Int) : Bool :=
  (decide (rhs > 0) && decide (lhs > long_sub max rhs)) ||
    (decide (rhs < 0) && decide (lhs < long_sub min rhs))

/-- The macro `os_time_cmp` of `inc/time.h` with the operator `<`. -/
def os_time_cmp_lt (ts0 ts1 : os_time_t) : Bool :=
  if ts0.tv_sec = ts1.tv_sec then decide (ts0.tv_nsec < ts1.tv_nsec)
  else decide (ts0.tv_sec < ts1.tv_sec)

/-- The `os_time_add` of `src/port/linux/time.c`. -/
def os_time_add (old new : os_time_t) : os_time_t :=
  if OS_OVERFLOW_ADD LONG_MAX LONG_MIN (long_add old.tv_sec 1) new.tv_sec = true then
    OS_TIME_INIT
  else if OS_OVERFLOW_ADD LONG_MAX LONG_MIN old.tv_nsec new.tv_nsec = true then OS_TIME_INIT
  else
    let ss := long_add old.tv_sec new.tv_sec
    let ns := long_add old.tv_nsec new.tv_nsec
    if ns > BILLION then ⟨long_add ss 1, long_sub ns BILLION⟩
    else ⟨ss, ns⟩

/-- The macro `mstos` of `src/port/linux/time.c`:
`UNIT_CONV(MILLISECOND, SECOND, n)`, which is `n / (1000 / 1)`. -/
def mstos (n : Int) : Int := Int.tdiv n (Int.tdiv MILLISECOND 1)

/-- The macro `mstons` of `src/port/linux/time.c`:
`UNIT_CONV(MILLISECOND, NANOSECOND, n)`, which is `(1000000000 / 1000) * n`. -/
def mstons (n : Int) : Int := long_mul (Int.tdiv NANOSECOND MILLISECOND) n

/-- The macro `stons` of `src/port/linux/time.c`:
`UNIT_CONV(SECOND, NANOSECOND, n)`, which is `(1000000000 / 1) * n`. -/
def stons (n : Int) : Int := long_mul (Int.tdiv NANOSECOND 1) n

/-- The `os_time_from_ms` of `src/port/linux/time.c`. -/
def os_time_from_ms (msec : Int) : os_time_t :=
  if msec < 1 then OS_TIME_INIT
  else ⟨mstos msec, Int.tmod (mstons (Int.tmod msec MILLISECOND)) BILLION⟩

/-- The `os_time_from_ns` of `src/port/linux/time.c`. -/
def os_time_from_ns (nsec : Int) : os_time_t :=
  if nsec < 1 then OS_TIME_INIT
  else ⟨0, Int.tmod nsec BILLION⟩

/-- The `os_time_ns` of `src/port/linux/time.c`. -/
def os_time_ns (tval : os_time_t) : Int :=
  if OS_OVERFLOW_ADD LONG_MAX LONG_MIN (stons tval.tv_sec) tval.tv_nsec = true then 0
  else long_add (stons tval.tv_sec) tval.tv_nsec

/-- The macro `os_time_add_ms` of `inc/time.h`. -/
def os_time_add_ms (tval : os_time_t) (msec : Int) : os_time_t :=
  os_time_add tval (os_time_from_ms msec)

/-- Total nanoseconds of a time value, in the words of the specification:
`tv_sec * 10^9 + tv_nsec`. -/
def total_ns (t : os_time_t) : Int := t.tv_sec * 1000000000 + t.tv_nsec

/-- A time value is normalised: `tv_sec >= 0` and `0 <= tv_nsec < 10^9`. -/
def time_normalised (t : os_time_t) : Prop :=
  0 ≤ t.tv_sec ∧ 0 ≤ t.tv_nsec ∧ t.tv_nsec < 1000000000

/-! ## timer.h and `src/port/linux/timer.c`

* The timer behind the pointer `p` is an `Option os_timer_t` (`none` is `NULL`).
* `os_mutex_init`, `os_mutex_lock` and `os_mutex_unlock` always succeed, so the
  `mutex` field plays no part and is left out.
* The reading of `os_time_monotonic()` is the argument `now` of each call that
  reads the clock.
-/

/-- The macro `TIMER_MAGIC` of `src/port/linux/timer.c`. -/
def TIMER_MAGIC : Nat := 0x345E887D

/-- The struct `os_timer_s` of `inc/timer.h`: the one-bit fields are numbers 0
or 1, the `mutex` field is left out. -/
structure os_timer_t where
  magic : Nat
  enabled : Nat
  running : Nat
  expired : Nat
  wake_time : os_time_t
  interval : Int
deriving DecidableEq

/-- Outcome of a timer call that returns `int`: the returned value, `os_errno`
after the call and the timer behind `p` after the call. -/
structure timer_ret where
  ret : Int
  os_errno : Int
  p : Option os_timer_t
deriving DecidableEq

/-- Outcome of a timer call that returns `bool`. -/
structure timer_bool where
  ret : Bool
  p : Option os_timer_t
deriving DecidableEq

/-- A timer after `memset(p, 0, sizeof(*p))`. -/
def timer_zero : os_timer_t := ⟨0, 0, 0, 0, ⟨0, 0⟩, 0⟩

/-- The `os_timer_init` of `src/port/linux/timer.c`. -/
def os_timer_init (e : Int) (p : Option os_timer_t) : timer_ret :=
  match p with
  | none => ⟨-1, OS_EINVAL, none⟩
  | some _ =>
    ⟨0, e, some ⟨TIMER_MAGIC, timer_zero.enabled, timer_zero.running, timer_zero.expired,
      timer_zero.wake_time, timer_zero.interval⟩⟩

/-- The `os_timer_destroy` of `src/port/linux/timer.c`. -/
def os_timer_destroy (e : Int) (p : Option os_timer_t) : timer_ret :=
  match p with
  | none => ⟨-1, OS_EINVAL, none⟩
  | some t =>
    if TIMER_MAGIC ≠ t.magic then ⟨-1, OS_EINVAL, some t⟩
    else ⟨0, e, some timer_zero⟩

/-- The `os_timer_start` of `src/port/linux/timer.c`. -/
def os_timer_start (e : Int) (p : Option os_timer_t) (interval : Int) (now : os_time_t) :
    timer_ret :=
  match p with
  | none => ⟨-1, OS_EINVAL, none⟩
  | some t =>
    if TIMER_MAGIC ≠ t.magic then ⟨-1, OS_EINVAL, some t⟩
    else ⟨0, e, some ⟨t.magic, 1, 1, 0, os_time_add_ms now interval, interval⟩⟩

/-- The `os_timer_stop` of `src/port/linux/timer.c`. -/
def os_timer_stop (e : Int) (p : Option os_timer_t) : timer_ret :=
  match p with
  | none => ⟨-1, OS_EINVAL, none⟩
  | some t =>
    if TIMER_MAGIC ≠ t.magic then ⟨-1, OS_EINVAL, some t⟩
    else ⟨0, e, some ⟨t.magic, 0, 0, 0, t.wake_time, t.interval⟩⟩

/-- The `os_timer_restart` of `src/port/linux/timer.c`. -/
def os_timer_restart (e : Int) (p : Option os_timer_t) (now : os_time_t) : timer_ret :=
  match p with
  | none => ⟨-1, OS_EINVAL, none⟩
  | some t =>
    if TIMER_MAGIC ≠ t.magic then ⟨-1, OS_EINVAL, some t⟩
    else ⟨0, e, some ⟨t.magic, 1, 1, 0, os_time_add_ms now t.interval, t.interval⟩⟩

/-- The `os_timer_running` of `src/port/linux/timer.c`. -/
def os_timer_running (p : Option os_timer_t) (now : os_time_t) : timer_bool :=
  match p with
  | none => ⟨false, none⟩
  | some t =>
    if TIMER_MAGIC ≠ t.magic then ⟨false, some t⟩
    else
      let expired := if os_time_cmp_lt t.wake_time now = true then 1 else t.expired
      ⟨decide (0 ≠ t.enabled) && decide (0 ≠ t.running) && decide (0 = expired),
        some ⟨t.magic, t.enabled, t.running, expired, t.wake_time, t.interval⟩⟩

/-- The `os_timer_expired` of `src/port/linux/timer.c`. -/
def os_timer_expired (p : Option os_timer_t) (now : os_time_t) : timer_bool :=
  match p with
  | none => ⟨false, none⟩
  | some t =>
    if TIMER_MAGIC ≠ t.magic then ⟨false, some t⟩
    else
      let expired := if os_time_cmp_lt t.wake_time now = true then 1 else t.expired
      ⟨decide (0 ≠ t.enabled) && decide (0 ≠ expired),
        some ⟨t.magic, if 0 ≠ expired then 0 else t.enabled, t.running, expired, t.wake_time,
          t.interval⟩⟩

/-- One call of the timer API, with its arguments and, where the call reads the
clock, the clock reading. -/
inductive timer_call where
  | init
  | destroy
  | start (interval : Int) (now : os_time_t)
  | stop
  | restart (now : os_time_t)
  | running (now : os_time_t)
  | expired (now : os_time_t)

/-- The call is `os_timer_start` or `os_timer_restart`. -/
def timer_call.starts : timer_call → Bool
  | .start _ _ => true
  | .restart _ => true
  | _ => false

/-- The value of `os_errno` and the timer behind `p` after one call. -/
def timer_call.run (s : Int × Option os_timer_t) : timer_call → Int × Option os_timer_t
  | .init => ((os_timer_init s.1 s.2).os_errno, (os_timer_init s.1 s.2).p)
  | .destroy => ((os_timer_destroy s.1 s.2).os_errno, (os_timer_destroy s.1 s.2).p)
  | .start interval now =>
    ((os_timer_start s.1 s.2 interval now).os_errno, (os_timer_start s.1 s.2 interval now).p)
  | .stop => ((os_timer_stop s.1 s.2).os_errno, (os_timer_stop s.1 s.2).p)
  | .restart now => ((os_timer_restart s.1 s.2 now).os_errno, (os_timer_restart s.1 s.2 now).p)
  | .running now => (s.1, (os_timer_running s.2 now).p)
  | .expired now => (s.1, (os_timer_expired s.2 now).p)

/-- The value of `os_errno` and the timer after a sequence of calls, first call
first. -/
def run_timer_calls (s : Int × Option os_timer_t) (calls : List timer_call) :
    Int × Option os_timer_t :=
  calls.foldl (fun st c => c.run st) s

/-- The timer behind `p`, if there is one, has its `enabled` flag cleared. -/
def timer_disabled (p : Option os_timer_t) : Prop :=
  ∀ t, p = some t → t.enabled = 0

/-! ## `os_queue_postv` and call sequences on the registry -/

/-- The `os_queue_postv` of `src/port/linux/queue.c`. -/
def os_queue_postv (fuel : Nat) (s : queue_state) (p : Option Nat) (id : Nat)
    (param_count : Nat) (args : List Nat) : Option queue_ret :=
  match p with
  | some a =>
    if param_count > OS_QUEUE_PARAM_COUNT then some ⟨-1, ⟨OS_EINVAL, s.g_queue_list, s.mem⟩⟩
    else
      (os_queue_post fuel s (some a)
        (some ⟨some a, none, 0, id, va_params param_count args⟩)).map
        (fun r => ⟨r.ret, r.st⟩)
  | none => some ⟨-1, ⟨OS_EINVAL, s.g_queue_list, s.mem⟩⟩

/-- One call that may change the registry list, with its arguments. -/
inductive registry_call where
  | init (p : Option Nat) (p_msg_pool : Option (Nat → os_msg_t)) (pool_size : Nat)
  | destroy (p : Option Nat)

/-- State after one registry call (`none` when the list loop of
`os_queue_destroy` runs out of fuel). -/
def registry_call.run (fuel : Nat) (s : queue_state) : registry_call → Option queue_state
  | .init p p_msg_pool pool_size => some (os_queue_init s p p_msg_pool pool_size).st
  | .destroy p => (os_queue_destroy fuel s p).map (fun r => r.st)

/-- State after a sequence of registry calls, first call first. -/
def run_registry_calls (fuel : Nat) : queue_state → List registry_call → Option queue_state
  | s, [] => some s
  | s, c :: cs =>
    match c.run fuel s with
    | some s1 => run_registry_calls fuel s1 cs
    | none => none

/-- In the sequence of calls run from the state `s`, every `os_queue_init` is
applied to a mailbox that is not on the registry list at the time of the call. -/
def init_only_unregistered (fuel : Nat) : queue_state → List registry_call → Prop
  | _, [] => True
  | s, c :: cs =>
    (match c with
      | .init (some a) _ _ => ∀ l, registry s l → a ∉ l
      | _ => True) ∧
    (match c.run fuel s with
      | some s1 => init_only_unregistered fuel s1 cs
      | none => True)

/-! ## Arithmetic of masks -/

theorem pow_dvd_two_pow_32 {k : Nat} (hk : k ≤ 32) : 2 ^ k ∣ 2 ^ 32 :=
  Nat.pow_dvd_pow 2 hk

theorem u32_mask_eq_mod {k : Nat} (hk : k ≤ 32) (x : Nat) :
    (x % 2 ^ 32) &&& (2 ^ k - 1) = x % 2 ^ k := by
  rw [Nat.and_pow_two_sub_one_eq_mod, Nat.mod_mod_of_dvd _ (pow_dvd_two_pow_32 hk)]

theorem mod_lt_two_mul {M x : Nat} (hx : x < 2 * M) :
    x % M = if x < M then x else x - M := by
  split
  · next h => exact Nat.mod_eq_of_lt h
  · next h =>
    rw [Nat.mod_eq_sub_mod (by omega), Nat.mod_eq_of_lt (by omega)]

theorem add_mul_mod_lt_two_mul {M x q : Nat} (hx : x < 2 * M) :
    (x + M * q) % M = if x < M then x else x - M := by
  rw [Nat.add_mul_mod_self_left, mod_lt_two_mul hx]

theorem two_pow_32_eq {k size : Nat} (hk : k ≤ 32) (hs : size + 1 = 2 ^ k) :
    ∃ q, 2 ^ 32 = (size + 1) * q + (size + 1) := by
  obtain ⟨c, hc⟩ := pow_dvd_two_pow_32 hk
  rw [← hs] at hc
  cases c with
  | zero => simp at hc
  | succ c => exact ⟨c, by rw [hc, Nat.mul_succ]⟩

theorem u32_and_size {k size : Nat} (hk : k ≤ 32) (hs : size + 1 = 2 ^ k) (x : Nat) :
    (x % 2 ^ 32) &&& size = x % (size + 1) := by
  have h1 : size = 2 ^ k - 1 := by omega
  rw [hs, h1, u32_mask_eq_mod hk]

/-- Index `(a + i) & size` of a cursor `a` within the mask and a step `i` of at
most `size`: the sum, wrapped once at the capacity. -/
theorem index_eq {k size : Nat} (hk : k ≤ 32) (hs : size + 1 = 2 ^ k) {a i : Nat}
    (ha : a ≤ size) (hi : i ≤ size) :
    u32_add a i &&& size = if a + i ≤ size then a + i else a + i - (size + 1) := by
  unfold u32_add
  rw [u32_and_size hk hs, mod_lt_two_mul (by omega)]
  split <;> split <;> omega

theorem used_eq {r : os_rbuf_t} (h : rbuf_wf r) :
    os_rbuf_used (some r) =
      if r.head ≤ r.tail then r.tail - r.head else r.tail + (r.size + 1) - r.head := by
  obtain ⟨⟨k, hk, hs⟩, hh, ht⟩ := h
  obtain ⟨q, hq⟩ := two_pow_32_eq hk hs
  simp only [os_rbuf_used, u32_sub]
  rw [u32_and_size hk hs, Nat.mod_eq_of_lt (a := r.head) (by omega),
    show r.tail + (2 ^ 32 - r.head) = (r.tail + (r.size + 1) - r.head) + (r.size + 1) * q by omega,
    add_mul_mod_lt_two_mul (by omega)]
  split <;> split <;> omega

theorem free_eq {r : os_rbuf_t} (h : rbuf_wf r) :
    os_rbuf_free (some r) =
      if r.head ≤ r.tail then r.size - (r.tail - r.head) else r.head - r.tail - 1 := by
  obtain ⟨⟨k, hk, hs⟩, hh, ht⟩ := h
  obtain ⟨q, hq⟩ := two_pow_32_eq hk hs
  simp only [os_rbuf_free, u32_sub]
  rw [u32_and_size hk hs, Nat.mod_eq_of_lt (a := r.tail) (by omega),
    Nat.mod_eq_of_lt (a := 1) (by omega)]
  by_cases hc : r.tail ≤ r.head
  · rw [show r.head + (2 ^ 32 - r.tail) = (r.head - r.tail) + 2 ^ 32 by omega,
      Nat.add_mod_right, Nat.mod_eq_of_lt (a := r.head - r.tail) (by omega),
      show r.head - r.tail + (2 ^ 32 - 1) =
        (r.head - r.tail + r.size) + (r.size + 1) * q by omega,
      add_mul_mod_lt_two_mul (by omega)]
    split <;> split <;> omega
  · rw [Nat.mod_eq_of_lt (a := r.head + (2 ^ 32 - r.tail)) (by omega),
      show r.head + (2 ^ 32 - r.tail) + (2 ^ 32 - 1) =
        (r.head + r.size - r.tail) + (r.size + 1) * (q + q + 1) by
          rw [Nat.mul_add, Nat.mul_add]; omega,
      add_mul_mod_lt_two_mul (by omega)]
    split <;> split <;> omega

theorem used_add_free {r : os_rbuf_t} (h : rbuf_wf r) :
    os_rbuf_used (some r) + os_rbuf_free (some r) = r.size := by
  rw [used_eq h, free_eq h]
  obtain ⟨-, hh, ht⟩ := h
  split <;> omega

/-! ## Preservation of the ring invariant -/

/-- The power-of-two test of `os_rbuf_init`/`os_rbuf_change_size` passes for a
power of two below `2 ^ 32`, and the mask it stores is `pool_size - 1`. -/
theorem pow2_check {C k : Nat} (hC : C = 2 ^ k) (h32 : C < 2 ^ 32) :
    u32_sub C 1 = C - 1 ∧ C &&& u32_sub C 1 = 0 := by
  have h1 : 1 ≤ C := hC ▸ Nat.one_le_two_pow
  have h2 : u32_sub C 1 = C - 1 := by
    unfold u32_sub
    rw [Nat.mod_eq_of_lt (a := 1) (by omega),
      show C + (2 ^ 32 - 1) = (C - 1) + 2 ^ 32 by omega, Nat.add_mod_right,
      Nat.mod_eq_of_lt (by omega)]
  refine ⟨h2, ?_⟩
  rw [h2, hC, Nat.and_pow_two_sub_one_eq_mod, Nat.mod_self]

theorem pow2_exponent_le {C k : Nat} (hC : C = 2 ^ k) (h32 : C < 2 ^ 32) : k ≤ 32 := by
  by_contra hk
  have : 2 ^ 32 ≤ 2 ^ k := Nat.pow_le_pow_right (by decide) (by omega)
  omega

theorem init_inv (e : Int) (r0 : os_rbuf_t) (pool : Nat → Nat) {C k : Nat}
    (hC : C = 2 ^ k) (h32 : C < 2 ^ 32) :
    os_rbuf_init e (some r0) (some pool) C = ⟨0, e, some ⟨pool, C - 1, 0, 0⟩⟩ ∧
      rbuf_inv C (os_rbuf_init e (some r0) (some pool) C).p := by
  obtain ⟨h1, h2⟩ := pow2_check hC h32
  have h3 : 1 ≤ C := hC ▸ Nat.one_le_two_pow
  rw [h1] at h2
  have h4 : os_rbuf_init e (some r0) (some pool) C = ⟨0, e, some ⟨pool, C - 1, 0, 0⟩⟩ := by
    simp [os_rbuf_init, h1, h2]
  refine ⟨h4, ?_⟩
  rw [h4]
  refine ⟨_, rfl, ⟨⟨k, pow2_exponent_le hC h32, ?_⟩, ?_, ?_⟩, ?_⟩ <;> simp <;> omega

theorem change_size_inv (e : Int) {cap : Nat} {p : Option os_rbuf_t} (h : rbuf_inv cap p)
    {C k : Nat} (hC : C = 2 ^ k) (h32 : C < 2 ^ 32) :
    rbuf_inv C (os_rbuf_change_size e p C).p := by
  obtain ⟨r, rfl, -, -⟩ := h
  obtain ⟨h1, h2⟩ := pow2_check hC h32
  have h3 : 1 ≤ C := hC ▸ Nat.one_le_two_pow
  rw [h1] at h2
  simp only [os_rbuf_change_size, h1, h2, ne_eq, not_true_eq_false, if_false]
  refine ⟨_, rfl, ⟨⟨k, pow2_exponent_le hC h32, ?_⟩, Nat.and_le_right, Nat.and_le_right⟩, ?_⟩
    <;> simp <;> omega

theorem flush_inv (e : Int) {cap : Nat} {p : Option os_rbuf_t} (h : rbuf_inv cap p) :
    rbuf_inv cap (os_rbuf_flush e p).p := by
  obtain ⟨r, rfl, ⟨hk, -, -⟩, hc⟩ := h
  exact ⟨_, rfl, ⟨hk, Nat.zero_le _, Nat.zero_le _⟩, hc⟩

theorem push_inv (e : Int) {cap : Nat} {p : Option os_rbuf_t} (h : rbuf_inv cap p)
    (bytes : Option (Nat → Nat)) (nbytes : Nat) :
    rbuf_inv cap (os_rbuf_push e p bytes nbytes).p := by
  obtain ⟨r, rfl, ⟨hk, hh, ht⟩, hc⟩ := h
  cases bytes with
  | none => exact ⟨r, rfl, ⟨hk, hh, ht⟩, hc⟩
  | some bs =>
    simp only [os_rbuf_push]
    split
    · exact ⟨r, rfl, ⟨hk, hh, ht⟩, hc⟩
    · split
      · exact ⟨r, rfl, ⟨hk, hh, ht⟩, hc⟩
      · exact ⟨_, rfl, ⟨hk, hh, Nat.and_le_right⟩, hc⟩

theorem pop_inv (e : Int) {cap : Nat} {p : Option os_rbuf_t} (h : rbuf_inv cap p)
    (p_buffer : Option (Nat → Nat)) (count : Nat) :
    rbuf_inv cap (os_rbuf_pop e p p_buffer count).p := by
  obtain ⟨r, rfl, ⟨hk, hh, ht⟩, hc⟩ := h
  cases p_buffer with
  | none => exact ⟨r, rfl, ⟨hk, hh, ht⟩, hc⟩
  | some buf =>
    simp only [os_rbuf_pop]
    split
    · exact ⟨r, rfl, ⟨hk, hh, ht⟩, hc⟩
    · split
      · exact ⟨r, rfl, ⟨hk, hh, ht⟩, hc⟩
      · exact ⟨_, rfl, ⟨hk, Nat.and_le_right, ht⟩, hc⟩

/-- The call `os_rbuf_peek` leaves the ring behind `p` as it was. -/
theorem peek_p (e : Int) (p : Option os_rbuf_t) (offset : Nat)
    (p_buffer : Option (Nat → Nat)) (count : Nat) :
    (os_rbuf_peek e p offset p_buffer count).p = p := by
  cases p with
  | none => rfl
  | some r =>
    cases p_buffer with
    | none => rfl
    | some buf =>
      simp only [os_rbuf_peek]
      split
      · rfl
      · split <;> rfl

theorem run_calls_inv (calls : List rbuf_call) :
    ∀ (s : Int × Option os_rbuf_t) (cap : Nat), rbuf_inv cap s.2 →
      (∀ c ∈ calls, ∀ C, c = rbuf_call.change_size C → (∃ k, C = 2 ^ k) ∧ C < 2 ^ 32) →
      rbuf_inv (capacity_after cap calls) (run_calls s calls).2 := by
  induction calls with
  | nil => intro s cap h _; exact h
  | cons c cs ih =>
    intro s cap h hcs
    have hrest : ∀ c ∈ cs, ∀ C, c = rbuf_call.change_size C →
        (∃ k, C = 2 ^ k) ∧ C < 2 ^ 32 :=
      fun c hc => hcs c (List.mem_cons_of_mem _ hc)
    simp only [run_calls, capacity_after, List.foldl_cons]
    cases c with
    | push bytes nbytes => exact ih _ cap (push_inv _ h bytes nbytes) hrest
    | pop p_buffer count => exact ih _ cap (pop_inv _ h p_buffer count) hrest
    | peek offset p_buffer count =>
      refine ih _ cap ?_ hrest
      simp only [rbuf_call.run, peek_p]
      exact h
    | flush => exact ih _ cap (flush_inv _ h) hrest
    | change_size C =>
      obtain ⟨⟨k, hC⟩, h32⟩ := hcs _ (List.mem_cons_self _ _) C rfl
      exact ih _ C (change_size_inv _ h hC h32) hrest

/-! ## The copy loops -/

/-- A loop `for i < n: b[i] = g i` leaves `g j` at every `j < n` and the old
content elsewhere. -/
theorem foldl_update_range (g : Nat → Nat) (buf : Nat → Nat) (n j : Nat) :
    (List.range n).foldl (fun b i => Function.update b i (g i)) buf j =
      if j < n then g j else buf j := by
  induction n with
  | zero => simp
  | succ n ih =>
    rw [List.range_succ, List.foldl_append, List.foldl_cons, List.foldl_nil,
      Function.update_apply, ih]
    by_cases h1 : j = n
    · subst h1; simp
    · rw [if_neg h1]
      by_cases h2 : j < n
      · rw [if_pos h2, if_pos (by omega)]
      · rw [if_neg h2, if_neg (by omega)]

/-- A loop `for i < n: pool[ix i] = bytes i` leaves untouched every cell that is
no `ix i`. -/
theorem foldl_update_index_other (ix bytes pool : Nat → Nat) (n j : Nat)
    (hj : ∀ i, i < n → ix i ≠ j) :
    (List.range n).foldl (fun m i => Function.update m (ix i) (bytes i)) pool j = pool j := by
  induction n with
  | zero => simp
  | succ n ih =>
    rw [List.range_succ, List.foldl_append, List.foldl_cons, List.foldl_nil,
      Function.update_apply, if_neg (fun h => hj n (Nat.lt_succ_self n) h.symm)]
    exact ih (fun i hi => hj i (Nat.lt_succ_of_lt hi))

/-- A loop `for i < n: pool[ix i] = bytes i` whose indices are pairwise distinct
leaves `bytes i` at `ix i`. -/
theorem foldl_update_index_at (ix bytes pool : Nat → Nat) (n : Nat)
    (hinj : ∀ a b, a < n → b < n → ix a = ix b → a = b) (i : Nat) (hi : i < n) :
    (List.range n).foldl (fun m i => Function.update m (ix i) (bytes i)) pool (ix i) =
      bytes i := by
  induction n with
  | zero => omega
  | succ n ih =>
    rw [List.range_succ, List.foldl_append, List.foldl_cons, List.foldl_nil,
      Function.update_apply]
    by_cases h1 : i = n
    · subst h1; simp
    · have h2 : i < n := by omega
      rw [if_neg (fun h => h1 (hinj i n hi (Nat.lt_succ_self n) h))]
      exact ih (fun a b ha hb => hinj a b (Nat.lt_succ_of_lt ha) (Nat.lt_succ_of_lt hb)) h2

theorem peek_loop_apply (r : os_rbuf_t) (offset : Nat) (buf : Nat → Nat) (count j : Nat) :
    peek_loop r offset buf count j =
      if j < count then r.pool (u32_add (u32_add r.head j) offset &&& r.size) else buf j :=
  foldl_update_range _ buf count j

theorem pop_loop_apply (r : os_rbuf_t) (buf : Nat → Nat) (count j : Nat) :
    pop_loop r buf count j =
      if j < count then r.pool (u32_add r.head j &&& r.size) else buf j :=
  foldl_update_range _ buf count j

theorem u32_add_zero (a i : Nat) : u32_add (u32_add a i) 0 = u32_add a i := by
  simp [u32_add]

theorem pop_loop_eq_peek_loop (r : os_rbuf_t) (buf : Nat → Nat) (count : Nat) :
    pop_loop r buf count = peek_loop r 0 buf count := by
  funext j
  rw [pop_loop_apply, peek_loop_apply, u32_add_zero]

theorem used_lt (p : Option os_rbuf_t) : os_rbuf_used p < 2 ^ 32 := by
  cases p with
  | none => simp [os_rbuf_used]
  | some r =>
    simp only [os_rbuf_used, u32_sub]
    exact Nat.lt_of_le_of_lt Nat.and_le_left (Nat.mod_lt _ (by decide))

theorem used_add_zero (p : Option os_rbuf_t) : u32_add (os_rbuf_used p) 0 = os_rbuf_used p := by
  unfold u32_add
  rw [Nat.add_zero, Nat.mod_eq_of_lt (used_lt p)]

/-- The span `bs` read back index by index from its memory. -/
theorem map_tmp_array (bs : List Nat) :
    (List.range bs.length).map (tmp_array bs) = bs := by
  apply List.ext_getElem
  · simp
  · intro i h1 h2
    simp [tmp_array, List.getD_eq_getElem?_getD, List.getElem?_eq_getElem h2]

/-- The bytes the ring holds, read straight from the pool. -/
theorem held_eq (r : os_rbuf_t) :
    held r = (List.range (os_rbuf_used (some r))).map
      (fun i => r.pool (u32_add r.head i &&& r.size)) := by
  unfold held
  simp only [os_rbuf_peek, used_add_zero, Nat.lt_irrefl, if_false]
  by_cases h0 : os_rbuf_used (some r) = 0
  · simp [h0]
  · simp only [if_neg h0]
    apply List.map_congr_left
    intro i hi
    rw [peek_loop_apply, if_pos (List.mem_range.mp hi), u32_add_zero]

/-! ## A successful push -/

theorem push_ok (e : Int) (r : os_rbuf_t) (bytes : Nat → Nat) {nbytes : Nat}
    (h1 : 1 ≤ nbytes) (hn : nbytes ≤ os_rbuf_free (some r)) :
    os_rbuf_push e (some r) (some bytes) nbytes = ⟨0, e, some (pushed r bytes nbytes)⟩ := by
  simp only [os_rbuf_push, pushed]
  rw [if_neg (by omega), if_neg (by omega)]

theorem pushed_wf {r : os_rbuf_t} (h : rbuf_wf r) (bytes : Nat → Nat) (nbytes : Nat) :
    rbuf_wf (pushed r bytes nbytes) :=
  ⟨h.1, h.2.1, Nat.and_le_right⟩

theorem pushed_used {r : os_rbuf_t} (h : rbuf_wf r) (bytes : Nat → Nat) {nbytes : Nat}
    (hn : nbytes ≤ os_rbuf_free (some r)) :
    os_rbuf_used (some (pushed r bytes nbytes)) = os_rbuf_used (some r) + nbytes := by
  have hf := free_eq h
  rw [used_eq (pushed_wf h bytes nbytes), used_eq h]
  obtain ⟨⟨k, hk, hs⟩, hh, ht⟩ := h
  have hi := index_eq hk hs ht (show nbytes ≤ r.size by split at hf <;> omega)
  simp only [pushed]
  rw [hi]
  split at hf <;> split <;> split <;> omega

/-- Cells the ring holds are not written by a push that fits. -/
theorem pushed_pool_old {r : os_rbuf_t} (h : rbuf_wf r) (bytes : Nat → Nat) {nbytes : Nat}
    (hn : nbytes ≤ os_rbuf_free (some r)) {i : Nat} (hi : i < os_rbuf_used (some r)) :
    (pushed r bytes nbytes).pool (u32_add r.head i &&& r.size) =
      r.pool (u32_add r.head i &&& r.size) := by
  have hf := free_eq h
  have hu := used_eq h
  obtain ⟨⟨k, hk, hs⟩, hh, ht⟩ := h
  have hi1 := index_eq hk hs hh (show i ≤ r.size by split at hu <;> omega)
  apply foldl_update_index_other
  intro j hj
  have hj1 := index_eq hk hs ht (show j ≤ r.size by split at hf <;> omega)
  rw [hi1, hj1]
  split at hf <;> split at hu <;> split <;> split <;> omega

/-- The pushed bytes lie right after the bytes the ring held. -/
theorem pushed_pool_new {r : os_rbuf_t} (h : rbuf_wf r) (bytes : Nat → Nat) {nbytes : Nat}
    (hn : nbytes ≤ os_rbuf_free (some r)) {j : Nat} (hj : j < nbytes) :
    (pushed r bytes nbytes).pool (u32_add r.head (os_rbuf_used (some r) + j) &&& r.size) =
      bytes j := by
  have hf := free_eq h
  have hu := used_eq h
  obtain ⟨⟨k, hk, hs⟩, hh, ht⟩ := h
  have hidx : ∀ a, a < nbytes → u32_add r.tail a &&& r.size =
      if r.tail + a ≤ r.size then r.tail + a else r.tail + a - (r.size + 1) :=
    fun a ha => index_eq hk hs ht (show a ≤ r.size by split at hf <;> omega)
  have h1 : u32_add r.head (os_rbuf_used (some r) + j) &&& r.size =
      u32_add r.tail j &&& r.size := by
    rw [hidx j hj, index_eq hk hs hh
      (show os_rbuf_used (some r) + j ≤ r.size by split at hf <;> split at hu <;> omega)]
    split at hf <;> split at hu <;> split <;> split <;> omega
  rw [h1]
  apply foldl_update_index_at (fun i => u32_add r.tail i &&& r.size) bytes r.pool nbytes _ j hj
  intro a b ha hb hab
  simp only [hidx a ha, hidx b hb] at hab
  split at hab <;> split at hab <;> split at hf <;> omega

theorem pushed_held {r : os_rbuf_t} (h : rbuf_wf r) (bs : List Nat)
    (hn : bs.length ≤ os_rbuf_free (some r)) :
    held (pushed r (tmp_array bs) bs.length) = held r ++ bs := by
  rw [held_eq, held_eq, pushed_used h _ hn, List.range_add, List.map_append, List.map_map]
  congr 1
  · apply List.map_congr_left
    intro i hi
    exact pushed_pool_old h _ hn (List.mem_range.mp hi)
  · conv_rhs => rw [← map_tmp_array bs]
    apply List.map_congr_left
    intro j hj
    exact pushed_pool_new h _ hn (List.mem_range.mp hj)

/-! ## Claims on the ring buffer -/

/-- C1: in every ring state reached from a successful `os_rbuf_init` with a
power-of-two capacity `C` through any sequence of push, pop, peek, flush and
change_size (to a power-of-two capacity) calls, `os_rbuf_used` plus
`os_rbuf_free` equals the current capacity minus 1, and the mask `size` is that
same number. -/
theorem rbuf_used_add_free_reachable (e : Int) (r0 : os_rbuf_t) (pool : Nat → Nat) (C : Nat)
    (calls : List rbuf_call) (hC : ∃ k, C = 2 ^ k) (h32 : C < 2 ^ 32)
    (hcalls : ∀ c ∈ calls, ∀ n, c = rbuf_call.change_size n → (∃ k, n = 2 ^ k) ∧ n < 2 ^ 32) :
    (os_rbuf_init e (some r0) (some pool) C).ret = 0 ∧
      os_rbuf_used (run_calls (e, (os_rbuf_init e (some r0) (some pool) C).p) calls).2 +
        os_rbuf_free (run_calls (e, (os_rbuf_init e (some r0) (some pool) C).p) calls).2 =
        capacity_after C calls - 1 := by
  obtain ⟨k, hk⟩ := hC
  obtain ⟨h1, h2⟩ := init_inv e r0 pool hk h32
  refine ⟨by rw [h1], ?_⟩
  obtain ⟨r, hr, hwf, hcap⟩ := run_calls_inv calls (e, (os_rbuf_init e (some r0) (some pool) C).p)
    C h2 hcalls
  rw [hr, used_add_free hwf, ← hcap, Nat.add_sub_cancel]

/-- Witness of C1: capacity 8, then a push of three bytes, a pop of two, a peek,
a resize to 16 and a flush. -/
theorem rbuf_used_add_free_reachable_witness :
    (os_rbuf_init 0 (some ⟨fun _ => 0, 0, 0, 0⟩) (some (fun _ => 0)) 8).ret = 0 ∧
      os_rbuf_used (run_calls (0, (os_rbuf_init 0 (some ⟨fun _ => 0, 0, 0, 0⟩)
          (some (fun _ => 0)) 8).p)
        [rbuf_call.push (some (tmp_array [1, 2, 3])) 3, rbuf_call.pop (some (fun _ => 0)) 2,
          rbuf_call.peek 0 (some (fun _ => 0)) 1, rbuf_call.change_size 16,
          rbuf_call.flush]).2 +
        os_rbuf_free (run_calls (0, (os_rbuf_init 0 (some ⟨fun _ => 0, 0, 0, 0⟩)
          (some (fun _ => 0)) 8).p)
        [rbuf_call.push (some (tmp_array [1, 2, 3])) 3, rbuf_call.pop (some (fun _ => 0)) 2,
          rbuf_call.peek 0 (some (fun _ => 0)) 1, rbuf_call.change_size 16,
          rbuf_call.flush]).2 =
        capacity_after 8
          [rbuf_call.push (some (tmp_array [1, 2, 3])) 3, rbuf_call.pop (some (fun _ => 0)) 2,
            rbuf_call.peek 0 (some (fun _ => 0)) 1, rbuf_call.change_size 16,
            rbuf_call.flush] - 1 :=
  rbuf_used_add_free_reachable 0 ⟨fun _ => 0, 0, 0, 0⟩ (fun _ => 0) 8 _ ⟨3, rfl⟩ (by decide)
    (by
      intro c hc n hn
      subst hn
      simp only [List.mem_cons, List.mem_singleton, List.mem_nil_iff, or_false,
        reduceCtorEq, false_or, rbuf_call.change_size.injEq] at hc
      subst hc
      exact ⟨⟨4, rfl⟩, by decide⟩)

/-- C3: a push of `nbytes >= 1` bytes from a non-null span into a ring with
fewer than `nbytes` free bytes returns -1 with `os_errno = OS_EOVERFLOW` and
leaves pool, head, tail and size as they were. -/
theorem rbuf_push_overflow (e : Int) (r : os_rbuf_t) (bytes : Nat → Nat) (nbytes : Nat)
    (h1 : 1 ≤ nbytes) (hfree : os_rbuf_free (some r) < nbytes) :
    os_rbuf_push e (some r) (some bytes) nbytes = ⟨-1, OS_EOVERFLOW, some r⟩ := by
  simp only [os_rbuf_push]
  rw [if_neg (by omega), if_pos hfree]

/-- Witness of C3: a ring of capacity 8 holding 7 bytes refuses one more byte. -/
theorem rbuf_push_overflow_witness :
    os_rbuf_free (some ⟨fun _ => 0, 7, 0, 7⟩) < 1 ∧
      os_rbuf_push 0 (some ⟨fun _ => 0, 7, 0, 7⟩) (some (tmp_array [9])) 1 =
        ⟨-1, OS_EOVERFLOW, some ⟨fun _ => 0, 7, 0, 7⟩⟩ :=
  ⟨by decide, rbuf_push_overflow 0 ⟨fun _ => 0, 7, 0, 7⟩ (tmp_array [9]) 1 (by decide)
    (by decide)⟩

/-- C5: a pop of `count >= 1` bytes into a non-null buffer from a ring that holds
fewer than `count` bytes returns -1 with `os_errno = OS_ENOENT` and leaves head,
tail, size and pool (and the output buffer) as they were. -/
theorem rbuf_pop_not_enough (e : Int) (r : os_rbuf_t) (buf : Nat → Nat) (count : Nat)
    (h1 : 1 ≤ count) (hused : os_rbuf_used (some r) < count) :
    os_rbuf_pop e (some r) (some buf) count = ⟨-1, OS_ENOENT, some r, some buf⟩ := by
  simp only [os_rbuf_pop]
  rw [if_neg (by omega), if_pos hused]

/-- Witness of C5: a pop of one byte from an empty ring of capacity 8. -/
theorem rbuf_pop_not_enough_witness :
    os_rbuf_used (some ⟨fun _ => 0, 7, 2, 2⟩) < 1 ∧
      os_rbuf_pop 0 (some ⟨fun _ => 0, 7, 2, 2⟩) (some (fun _ => 0)) 1 =
        ⟨-1, OS_ENOENT, some ⟨fun _ => 0, 7, 2, 2⟩, some (fun _ => 0)⟩ :=
  ⟨by decide, rbuf_pop_not_enough 0 ⟨fun _ => 0, 7, 2, 2⟩ (fun _ => 0) 1 (by decide)
    (by decide)⟩

theorem pop_ok (e : Int) (r : os_rbuf_t) (buf : Nat → Nat) {count : Nat}
    (h1 : 1 ≤ count) (hn : count ≤ os_rbuf_used (some r)) :
    os_rbuf_pop e (some r) (some buf) count =
      ⟨0, e, some ⟨r.pool, r.size, u32_add r.head count &&& r.size, r.tail⟩,
        some (pop_loop r buf count)⟩ := by
  simp only [os_rbuf_pop]
  rw [if_neg (by omega), if_neg (by omega)]

/-- C2: on an empty ring of power-of-two capacity (head = tail at any position
within the mask), a push of a span `bs` with `1 <= |bs| <= capacity - 1`
succeeds, the following pop of `|bs|` bytes succeeds and returns exactly the
bytes of `bs` in order, and the ring is empty again. -/
theorem rbuf_push_pop_round_trip (e : Int) (r : os_rbuf_t) (bs : List Nat) (buf : Nat → Nat)
    (hwf : rbuf_wf r) (hempty : r.head = r.tail) (h1 : 1 ≤ bs.length)
    (hlen : bs.length ≤ r.size) :
    (os_rbuf_push e (some r) (some (tmp_array bs)) bs.length).ret = 0 ∧
      (os_rbuf_pop (os_rbuf_push e (some r) (some (tmp_array bs)) bs.length).os_errno
        (os_rbuf_push e (some r) (some (tmp_array bs)) bs.length).p (some buf) bs.length).ret
        = 0 ∧
      (∃ out, (os_rbuf_pop (os_rbuf_push e (some r) (some (tmp_array bs)) bs.length).os_errno
          (os_rbuf_push e (some r) (some (tmp_array bs)) bs.length).p (some buf)
          bs.length).p_buffer = some out ∧ (List.range bs.length).map out = bs) ∧
      (∃ r2, (os_rbuf_pop (os_rbuf_push e (some r) (some (tmp_array bs)) bs.length).os_errno
          (os_rbuf_push e (some r) (some (tmp_array bs)) bs.length).p (some buf)
          bs.length).p = some r2 ∧ r2.head = r2.tail ∧ r2.size = r.size ∧
          os_rbuf_used (some r2) = 0) := by
  have hf : os_rbuf_free (some r) = r.size := by
    rw [free_eq hwf, if_pos (by omega)]; omega
  have hu : os_rbuf_used (some r) = 0 := by
    rw [used_eq hwf, if_pos (by omega)]; omega
  have hn : bs.length ≤ os_rbuf_free (some r) := by omega
  have hu2 := pushed_used hwf (tmp_array bs) hn
  rw [hu, Nat.zero_add] at hu2
  rw [push_ok e r (tmp_array bs) h1 hn]
  show _ ∧ (os_rbuf_pop e (some (pushed r (tmp_array bs) bs.length)) (some buf) bs.length).ret
      = 0 ∧
    (∃ out, (os_rbuf_pop e (some (pushed r (tmp_array bs) bs.length)) (some buf)
      bs.length).p_buffer = some out ∧ _) ∧
    (∃ r2, (os_rbuf_pop e (some (pushed r (tmp_array bs) bs.length)) (some buf)
      bs.length).p = some r2 ∧ _)
  rw [pop_ok e _ buf h1 (by omega)]
  refine ⟨rfl, rfl, ⟨_, rfl, ?_⟩, ⟨_, rfl, ?_, rfl, ?_⟩⟩
  · conv_rhs => rw [← map_tmp_array bs]
    apply List.map_congr_left
    intro j hj
    have hj2 := pushed_pool_new hwf (tmp_array bs) hn (List.mem_range.mp hj)
    rw [hu, Nat.zero_add] at hj2
    rw [pop_loop_apply, if_pos (List.mem_range.mp hj)]
    exact hj2
  · simp only [pushed, hempty]
  · have hwf2 : rbuf_wf ⟨(pushed r (tmp_array bs) bs.length).pool,
        (pushed r (tmp_array bs) bs.length).size,
        u32_add (pushed r (tmp_array bs) bs.length).head bs.length &&&
          (pushed r (tmp_array bs) bs.length).size,
        (pushed r (tmp_array bs) bs.length).tail⟩ :=
      ⟨hwf.1, Nat.and_le_right, Nat.and_le_right⟩
    rw [used_eq hwf2]
    simp only [pushed, hempty]
    rw [if_pos (Nat.le_refl _), Nat.sub_self]

/-- Witness of C2: the span 1, 2, 3 through an empty ring of capacity 4 whose
cursors stand at 3, so that the copy wraps around. -/
theorem rbuf_push_pop_round_trip_witness :
    (os_rbuf_push 0 (some ⟨fun _ => 0, 3, 3, 3⟩) (some (tmp_array [1, 2, 3])) 3).ret = 0 ∧
      (os_rbuf_pop (os_rbuf_push 0 (some ⟨fun _ => 0, 3, 3, 3⟩) (some (tmp_array [1, 2, 3]))
        3).os_errno
        (os_rbuf_push 0 (some ⟨fun _ => 0, 3, 3, 3⟩) (some (tmp_array [1, 2, 3])) 3).p
        (some (fun _ => 0)) 3).ret = 0 ∧
      (∃ out, (os_rbuf_pop (os_rbuf_push 0 (some ⟨fun _ => 0, 3, 3, 3⟩)
          (some (tmp_array [1, 2, 3])) 3).os_errno
          (os_rbuf_push 0 (some ⟨fun _ => 0, 3, 3, 3⟩) (some (tmp_array [1, 2, 3])) 3).p
          (some (fun _ => 0)) 3).p_buffer = some out ∧ (List.range 3).map out = [1, 2, 3]) ∧
      (∃ r2, (os_rbuf_pop (os_rbuf_push 0 (some ⟨fun _ => 0, 3, 3, 3⟩)
          (some (tmp_array [1, 2, 3])) 3).os_errno
          (os_rbuf_push 0 (some ⟨fun _ => 0, 3, 3, 3⟩) (some (tmp_array [1, 2, 3])) 3).p
          (some (fun _ => 0)) 3).p = some r2 ∧ r2.head = r2.tail ∧ r2.size = 3 ∧
          os_rbuf_used (some r2) = 0) :=
  rbuf_push_pop_round_trip 0 ⟨fun _ => 0, 3, 3, 3⟩ [1, 2, 3] (fun _ => 0)
    ⟨⟨2, by decide, rfl⟩, Nat.le_refl 3, Nat.le_refl 3⟩ rfl (by decide) (by decide)

/-- C4: on a ring of power-of-two capacity with cursors within the mask, a push
of a span `bs` with `1 <= |bs| <= os_rbuf_free` returns 0, leaves head (and
size) unchanged, sets tail to `(tail + |bs|) & size`, makes `os_rbuf_used` grow
by `|bs|`, and the held sequence becomes the former one followed by `bs`. -/
theorem rbuf_push_appends (e : Int) (r : os_rbuf_t) (bs : List Nat) (hwf : rbuf_wf r)
    (h1 : 1 ≤ bs.length) (hn : bs.length ≤ os_rbuf_free (some r)) :
    (os_rbuf_push e (some r) (some (tmp_array bs)) bs.length).ret = 0 ∧
      ∃ r2, (os_rbuf_push e (some r) (some (tmp_array bs)) bs.length).p = some r2 ∧
        r2.head = r.head ∧ r2.size = r.size ∧
        r2.tail = u32_add r.tail bs.length &&& r.size ∧
        os_rbuf_used (some r2) = os_rbuf_used (some r) + bs.length ∧
        held r2 = held r ++ bs := by
  rw [push_ok e r (tmp_array bs) h1 hn]
  exact ⟨rfl, _, rfl, rfl, rfl, rfl, pushed_used hwf _ hn, pushed_held hwf bs hn⟩

/-- Witness of C4: a ring of capacity 8 holding the bytes 5, 6 at cells 6, 7
takes the span 1, 2, 3, which wraps to cells 0, 1, 2. -/
theorem rbuf_push_appends_witness :
    (os_rbuf_push 0 (some ⟨tmp_array [0, 0, 0, 0, 0, 0, 5, 6], 7, 6, 0⟩)
        (some (tmp_array [1, 2, 3])) 3).ret = 0 ∧
      ∃ r2, (os_rbuf_push 0 (some ⟨tmp_array [0, 0, 0, 0, 0, 0, 5, 6], 7, 6, 0⟩)
          (some (tmp_array [1, 2, 3])) 3).p = some r2 ∧
        r2.head = 6 ∧ r2.size = 7 ∧
        r2.tail = u32_add 0 3 &&& 7 ∧
        os_rbuf_used (some r2) =
          os_rbuf_used (some ⟨tmp_array [0, 0, 0, 0, 0, 0, 5, 6], 7, 6, 0⟩) + 3 ∧
        held r2 = held ⟨tmp_array [0, 0, 0, 0, 0, 0, 5, 6], 7, 6, 0⟩ ++ [1, 2, 3] :=
  rbuf_push_appends 0 ⟨tmp_array [0, 0, 0, 0, 0, 0, 5, 6], 7, 6, 0⟩ [1, 2, 3]
    ⟨⟨3, by decide, rfl⟩, by decide, by decide⟩ (by decide) (by decide)

/-- C6: the code at a ring of capacity 8 holding 3 bytes and a `NULL` output
buffer: `os_rbuf_pop` of 1 byte returns -1 with `os_errno = OS_EINVAL`, and
neither head nor `os_rbuf_used` moves, where the header promises a pop without
copy. -/
theorem rbuf_pop_null_buffer_rejected :
    os_rbuf_used (some ⟨tmp_array [1, 2, 3], 7, 0, 3⟩) = 3 ∧
      (os_rbuf_pop 0 (some ⟨tmp_array [1, 2, 3], 7, 0, 3⟩) none 1).ret = -1 ∧
      (os_rbuf_pop 0 (some ⟨tmp_array [1, 2, 3], 7, 0, 3⟩) none 1).os_errno = OS_EINVAL ∧
      (os_rbuf_pop 0 (some ⟨tmp_array [1, 2, 3], 7, 0, 3⟩) none 1).p.map os_rbuf_t.head
        = some 0 ∧
      os_rbuf_used (os_rbuf_pop 0 (some ⟨tmp_array [1, 2, 3], 7, 0, 3⟩) none 1).p = 3 := by
  decide

/-- C7: for every ring pointer, non-null output buffer and count,
`os_rbuf_pop` returns the status, the `os_errno` and the output buffer of
`os_rbuf_peek` at offset 0 on the same state; when it succeeds the ring differs
from the one peek leaves only in head, set to `(head + count) & size`, and when
it fails the ring is the one peek leaves. -/
theorem rbuf_pop_eq_peek_zero (e : Int) (p : Option os_rbuf_t) (buf : Nat → Nat)
    (count : Nat) :
    (os_rbuf_pop e p (some buf) count).ret = (os_rbuf_peek e p 0 (some buf) count).ret ∧
      (os_rbuf_pop e p (some buf) count).os_errno =
        (os_rbuf_peek e p 0 (some buf) count).os_errno ∧
      (os_rbuf_pop e p (some buf) count).p_buffer =
        (os_rbuf_peek e p 0 (some buf) count).p_buffer ∧
      ((os_rbuf_pop e p (some buf) count).ret = 0 →
        ∃ r, (os_rbuf_peek e p 0 (some buf) count).p = some r ∧
          (os_rbuf_pop e p (some buf) count).p =
            some ⟨r.pool, r.size, u32_add r.head count &&& r.size, r.tail⟩) ∧
      ((os_rbuf_pop e p (some buf) count).ret ≠ 0 →
        (os_rbuf_pop e p (some buf) count).p = (os_rbuf_peek e p 0 (some buf) count).p) := by
  cases p with
  | none => simp [os_rbuf_pop, os_rbuf_peek]
  | some r =>
    simp only [os_rbuf_pop, os_rbuf_peek, used_add_zero, pop_loop_eq_peek_loop]
    by_cases h0 : count = 0
    · simp [h0]
    · rw [if_neg h0, if_neg h0]
      by_cases h1 : os_rbuf_used (some r) < count
      · simp [h1]
      · rw [if_neg h1, if_neg h1]
        simp

/-- Witness of C7: a successful pop of two bytes next to the peek of the same
two bytes. -/
theorem rbuf_pop_eq_peek_zero_witness :
    (os_rbuf_pop 0 (some ⟨tmp_array [1, 2, 3], 7, 0, 3⟩) (some (fun _ => 0)) 2).ret = 0 ∧
      ∃ r, (os_rbuf_peek 0 (some ⟨tmp_array [1, 2, 3], 7, 0, 3⟩) 0 (some (fun _ => 0)) 2).p
          = some r ∧
        (os_rbuf_pop 0 (some ⟨tmp_array [1, 2, 3], 7, 0, 3⟩) (some (fun _ => 0)) 2).p =
          some ⟨r.pool, r.size, u32_add r.head 2 &&& r.size, r.tail⟩ :=
  ⟨by decide,
    (rbuf_pop_eq_peek_zero 0 (some ⟨tmp_array [1, 2, 3], 7, 0, 3⟩) (fun _ => 0) 2).2.2.2.1
      (by decide)⟩

theorem peek_word_p (n : Nat) (conv : (Nat → Nat) → Nat) (tmp : Nat → Nat) (e : Int)
    (p : Option os_rbuf_t) (offset : Nat) (p_value : Option Nat) :
    (peek_word n conv tmp e p offset p_value).p = p := by
  cases p_value with
  | none => rfl
  | some v =>
    simp only [peek_word]
    split <;> exact peek_p e p offset (some tmp) n

/-- C8: `os_rbuf_peek` and `os_rbuf_peek_u8/16/32/64` leave the ring (head, tail,
size and every pool byte) as it was, for every ring pointer, offset, count and
output pointer, whether the call succeeds or fails. -/
theorem rbuf_peek_non_destructive (e : Int) (p : Option os_rbuf_t) (offset count : Nat)
    (p_buffer : Option (Nat → Nat)) (p_value : Option Nat) (tmp : Nat → Nat) :
    (os_rbuf_peek e p offset p_buffer count).p = p ∧
      (os_rbuf_peek_u8 e p offset p_value).p = p ∧
      (os_rbuf_peek_u16 tmp e p offset p_value).p = p ∧
      (os_rbuf_peek_u32 tmp e p offset p_value).p = p ∧
      (os_rbuf_peek_u64 tmp e p offset p_value).p = p := by
  refine ⟨peek_p e p offset p_buffer count, ?_, peek_word_p _ _ _ _ _ _ _,
    peek_word_p _ _ _ _ _ _ _, peek_word_p _ _ _ _ _ _ _⟩
  cases p_value with
  | none => rfl
  | some v => exact peek_p e p offset _ 1

/-- A number at or above `2 ^ k` and below `2 ^ (k + 1)` has bit `k` set. -/
theorem testBit_of_range {x k : Nat} (h1 : 2 ^ k ≤ x) (h2 : x < 2 ^ (k + 1)) :
    x.testBit k = true := by
  have h3 : x = 2 ^ k + (x - 2 ^ k) := by omega
  rw [h3, Nat.testBit_two_pow_add_eq, Nat.testBit_lt_two_pow (by rw [Nat.pow_succ] at h2; omega)]
  rfl

/-- The test `n & (n - 1) == 0` on a non-zero `n` holds exactly for the powers
of two. -/
theorem and_pred_eq_zero_iff {n : Nat} (h1 : 1 ≤ n) :
    n &&& (n - 1) = 0 ↔ ∃ k, n = 2 ^ k := by
  constructor
  · intro h
    refine ⟨n.log2, ?_⟩
    by_contra hne
    have hle : 2 ^ n.log2 ≤ n := Nat.log2_self_le (by omega)
    have hlt : n < 2 ^ (n.log2 + 1) := Nat.lt_log2_self
    have hb := Nat.testBit_and n (n - 1) n.log2
    rw [h, Nat.zero_testBit, testBit_of_range hle hlt,
      testBit_of_range (show 2 ^ n.log2 ≤ n - 1 by omega) (by omega)] at hb
    exact absurd hb (by decide)
  · rintro ⟨k, rfl⟩
    rw [Nat.and_pow_two_sub_one_eq_mod, Nat.mod_self]

/-- Away from `pool_size = 0`, `os_rbuf_init` with non-null pointers rejects
exactly the sizes that are no power of two, and stores `pool_size - 1` and zeroed
cursors for the others. -/
theorem rbuf_init_nonzero (e : Int) (r0 : os_rbuf_t) (pool : Nat → Nat) (n : Nat)
    (h1 : 1 ≤ n) (h32 : n < 2 ^ 32) :
    ((¬ ∃ k, n = 2 ^ k) →
        os_rbuf_init e (some r0) (some pool) n = ⟨-1, OS_EINVAL, some r0⟩) ∧
      ((∃ k, n = 2 ^ k) →
        os_rbuf_init e (some r0) (some pool) n = ⟨0, e, some ⟨pool, n - 1, 0, 0⟩⟩) := by
  have hs : u32_sub n 1 = n - 1 := by
    unfold u32_sub
    rw [Nat.mod_eq_of_lt (a := 1) (by omega),
      show n + (2 ^ 32 - 1) = (n - 1) + 2 ^ 32 by omega, Nat.add_mod_right,
      Nat.mod_eq_of_lt (by omega)]
  constructor
  · intro h
    have h2 : ¬ n &&& (n - 1) = 0 := fun hc => h ((and_pred_eq_zero_iff h1).mp hc)
    simp only [os_rbuf_init, hs, ne_eq, h2, not_false_eq_true, if_true]
  · rintro ⟨k, hk⟩
    exact (init_inv e r0 pool hk h32).1

/-- C9: the code at `pool_size = 0` with non-null ring and pool pointers: 0 is
no power of two, yet `os_rbuf_init` returns 0, leaves `os_errno` alone and
stores the mask `size = 0xFFFFFFFF`. -/
theorem rbuf_init_accepts_zero :
    (¬ ∃ k, 0 = 2 ^ k) ∧
      (os_rbuf_init 0 (some ⟨fun _ => 0, 0, 0, 0⟩) (some (fun _ => 0)) 0).ret = 0 ∧
      (os_rbuf_init 0 (some ⟨fun _ => 0, 0, 0, 0⟩) (some (fun _ => 0)) 0).os_errno = 0 ∧
      (os_rbuf_init 0 (some ⟨fun _ => 0, 0, 0, 0⟩) (some (fun _ => 0)) 0).p.map os_rbuf_t.size
        = some 4294967295 := by
  refine ⟨?_, by decide, by decide, by decide⟩
  rintro ⟨k, hk⟩
  have := Nat.one_le_two_pow (n := k)
  omega

/-- C10: `os_rbuf_push_u16/u32/u64` return the status and leave the ring state
(and `os_errno`) of `os_rbuf_push` of the 2, 4 or 8 bytes of the value, most
significant byte first; `os_rbuf_push_u8` is the push of the single byte. -/
theorem rbuf_push_word_big_endian (e : Int) (p : Option os_rbuf_t) (v : Nat) :
    os_rbuf_push_u8 e p v = os_rbuf_push e p (some (tmp_array [v])) 1 ∧
      os_rbuf_push_u16 e p v = os_rbuf_push e p (some (tmp_array (big_endian_bytes 2 v))) 2 ∧
      os_rbuf_push_u32 e p v = os_rbuf_push e p (some (tmp_array (big_endian_bytes 4 v))) 4 ∧
      os_rbuf_push_u64 e p v = os_rbuf_push e p (some (tmp_array (big_endian_bytes 8 v))) 8 := by
  refine ⟨rfl, ?_, ?_, ?_⟩
  · simp [os_rbuf_push_u16, big_endian_bytes, List.range_succ, Nat.shiftRight_eq_div_pow]
  · simp [os_rbuf_push_u32, big_endian_bytes, List.range_succ, Nat.shiftRight_eq_div_pow]
  · simp [os_rbuf_push_u64, big_endian_bytes, List.range_succ, Nat.shiftRight_eq_div_pow]

/-! ## Integers through the ring -/

theorem or_eq_add_of_dvd (i : Nat) {x y : Nat} (hx : 2 ^ i ∣ x) (hy : y < 2 ^ i) :
    x ||| y = x + y := by
  obtain ⟨a, rfl⟩ := hx
  exact (Nat.mul_add_lt_is_or hy a).symm

theorem be16_bytes {b0 b1 : Nat} (h0 : b0 < 256) (h1 : b1 < 256) :
    ((b0 <<< 8) ||| b1) % 2 ^ 16 = b0 * 2 ^ 8 + b1 := by
  simp only [Nat.shiftLeft_eq]
  rw [or_eq_add_of_dvd 8 (x := b0 * 2 ^ 8) (by omega) (by omega)]
  omega

theorem be32_bytes {b0 b1 b2 b3 : Nat} (h0 : b0 < 256) (h1 : b1 < 256) (h2 : b2 < 256)
    (h3 : b3 < 256) :
    ((b0 <<< 24) % 2 ^ 32 ||| (b1 <<< 16) % 2 ^ 32 ||| (b2 <<< 8) % 2 ^ 32 ||| b3) % 2 ^ 32 =
      b0 * 2 ^ 24 + b1 * 2 ^ 16 + b2 * 2 ^ 8 + b3 := by
  simp only [Nat.shiftLeft_eq]
  rw [Nat.mod_eq_of_lt (a := b0 * 2 ^ 24) (by omega),
    Nat.mod_eq_of_lt (a := b1 * 2 ^ 16) (by omega),
    Nat.mod_eq_of_lt (a := b2 * 2 ^ 8) (by omega),
    or_eq_add_of_dvd 24 (x := b0 * 2 ^ 24) (by omega) (by omega),
    or_eq_add_of_dvd 16 (x := b0 * 2 ^ 24 + b1 * 2 ^ 16) (by omega) (by omega),
    or_eq_add_of_dvd 8 (x := b0 * 2 ^ 24 + b1 * 2 ^ 16 + b2 * 2 ^ 8) (by omega) (by omega)]
  omega

theorem be64_bytes {b0 b1 b2 b3 b4 b5 b6 b7 : Nat} (h0 : b0 < 256) (h1 : b1 < 256)
    (h2 : b2 < 256) (h3 : b3 < 256) (h4 : b4 < 256) (h5 : b5 < 256) (h6 : b6 < 256)
    (h7 : b7 < 256) :
    ((b0 <<< 56) % 2 ^ 64 ||| (b1 <<< 48) % 2 ^ 64 ||| (b2 <<< 40) % 2 ^ 64 |||
      (b3 <<< 32) % 2 ^ 64 ||| (b4 <<< 24) % 2 ^ 64 ||| (b5 <<< 16) % 2 ^ 64 |||
      (b6 <<< 8) % 2 ^ 64 ||| b7) % 2 ^ 64 =
      b0 * 2 ^ 56 + b1 * 2 ^ 48 + b2 * 2 ^ 40 + b3 * 2 ^ 32 + b4 * 2 ^ 24 + b5 * 2 ^ 16 +
        b6 * 2 ^ 8 + b7 := by
  simp only [Nat.shiftLeft_eq]
  rw [Nat.mod_eq_of_lt (a := b0 * 2 ^ 56) (by omega),
    Nat.mod_eq_of_lt (a := b1 * 2 ^ 48) (by omega),
    Nat.mod_eq_of_lt (a := b2 * 2 ^ 40) (by omega),
    Nat.mod_eq_of_lt (a := b3 * 2 ^ 32) (by omega),
    Nat.mod_eq_of_lt (a := b4 * 2 ^ 24) (by omega),
    Nat.mod_eq_of_lt (a := b5 * 2 ^ 16) (by omega),
    Nat.mod_eq_of_lt (a := b6 * 2 ^ 8) (by omega),
    or_eq_add_of_dvd 56 (x := b0 * 2 ^ 56) (by omega) (by omega),
    or_eq_add_of_dvd 48 (x := b0 * 2 ^ 56 + b1 * 2 ^ 48) (by omega) (by omega),
    or_eq_add_of_dvd 40 (x := b0 * 2 ^ 56 + b1 * 2 ^ 48 + b2 * 2 ^ 40) (by omega) (by omega),
    or_eq_add_of_dvd 32 (x := b0 * 2 ^ 56 + b1 * 2 ^ 48 + b2 * 2 ^ 40 + b3 * 2 ^ 32)
      (by omega) (by omega),
    or_eq_add_of_dvd 24
      (x := b0 * 2 ^ 56 + b1 * 2 ^ 48 + b2 * 2 ^ 40 + b3 * 2 ^ 32 + b4 * 2 ^ 24)
      (by omega) (by omega),
    or_eq_add_of_dvd 16
      (x := b0 * 2 ^ 56 + b1 * 2 ^ 48 + b2 * 2 ^ 40 + b3 * 2 ^ 32 + b4 * 2 ^ 24 + b5 * 2 ^ 16)
      (by omega) (by omega),
    or_eq_add_of_dvd 8
      (x := b0 * 2 ^ 56 + b1 * 2 ^ 48 + b2 * 2 ^ 40 + b3 * 2 ^ 32 + b4 * 2 ^ 24 + b5 * 2 ^ 16 +
        b6 * 2 ^ 8) (by omega) (by omega)]
  omega

theorem be16_digits {v : Nat} (hv : v < 2 ^ 16) :
    (v >>> 8) % 256 * 2 ^ 8 + v % 256 = v := by
  simp only [Nat.shiftRight_eq_div_pow]; omega

theorem be32_digits {v : Nat} (hv : v < 2 ^ 32) :
    (v >>> 24) % 256 * 2 ^ 24 + (v >>> 16) % 256 * 2 ^ 16 + (v >>> 8) % 256 * 2 ^ 8 + v % 256
      = v := by
  simp only [Nat.shiftRight_eq_div_pow]; omega

theorem be64_digits {v : Nat} (hv : v < 2 ^ 64) :
    (v >>> 56) % 256 * 2 ^ 56 + (v >>> 48) % 256 * 2 ^ 48 + (v >>> 40) % 256 * 2 ^ 40 +
      (v >>> 32) % 256 * 2 ^ 32 + (v >>> 24) % 256 * 2 ^ 24 + (v >>> 16) % 256 * 2 ^ 16 +
      (v >>> 8) % 256 * 2 ^ 8 + v % 256 = v := by
  simp only [Nat.shiftRight_eq_div_pow]; omega

theorem peek_ok (e : Int) (r : os_rbuf_t) (buf : Nat → Nat) {count : Nat}
    (h1 : 1 ≤ count) (hn : count ≤ os_rbuf_used (some r)) :
    os_rbuf_peek e (some r) 0 (some buf) count =
      ⟨0, e, some r, some (peek_loop r 0 buf count)⟩ := by
  simp only [os_rbuf_peek, used_add_zero]
  rw [if_neg (by omega), if_neg (by omega)]

/-- What a push of the span `bs` into an empty well-formed ring leaves: `|bs|`
bytes held, read back in order by the copy loop of peek and pop, and a ring that
is empty once head has advanced by `|bs|`. -/
theorem pushed_empty {r : os_rbuf_t} (hwf : rbuf_wf r) (hempty : r.head = r.tail)
    (bs : List Nat) (h1 : 1 ≤ bs.length) (hlen : bs.length ≤ r.size) (e : Int) :
    os_rbuf_push e (some r) (some (tmp_array bs)) bs.length =
        ⟨0, e, some (pushed r (tmp_array bs) bs.length)⟩ ∧
      os_rbuf_used (some (pushed r (tmp_array bs) bs.length)) = bs.length ∧
      (∀ tmp j, j < bs.length →
        peek_loop (pushed r (tmp_array bs) bs.length) 0 tmp bs.length j = tmp_array bs j) ∧
      (u32_add (pushed r (tmp_array bs) bs.length).head bs.length &&&
          (pushed r (tmp_array bs) bs.length).size =
        (pushed r (tmp_array bs) bs.length).tail) := by
  have hf : os_rbuf_free (some r) = r.size := by
    rw [free_eq hwf, if_pos (by omega)]; omega
  have hu : os_rbuf_used (some r) = 0 := by
    rw [used_eq hwf, if_pos (by omega)]; omega
  have hn : bs.length ≤ os_rbuf_free (some r) := by omega
  have hu2 := pushed_used hwf (tmp_array bs) hn
  rw [hu, Nat.zero_add] at hu2
  refine ⟨push_ok e r (tmp_array bs) h1 hn, hu2, ?_, ?_⟩
  · intro tmp j hj
    have hj2 := pushed_pool_new hwf (tmp_array bs) hn hj
    rw [hu, Nat.zero_add] at hj2
    rw [peek_loop_apply, if_pos hj, u32_add_zero]
    exact hj2
  · simp only [pushed, hempty]

theorem used_of_head_eq_tail (r : os_rbuf_t) (h : r.head = r.tail) (h32 : r.head < 2 ^ 32) :
    os_rbuf_used (some r) = 0 := by
  simp only [os_rbuf_used, u32_sub, ← h]
  rw [Nat.mod_eq_of_lt h32, show r.head + (2 ^ 32 - r.head) = 2 ^ 32 by omega, Nat.mod_self,
    Nat.zero_and]

theorem word_round_trip_generic {r : os_rbuf_t} (hwf : rbuf_wf r) (hempty : r.head = r.tail)
    (bs : List Nat) (h1 : 1 ≤ bs.length) (hlen : bs.length ≤ r.size)
    (conv : (Nat → Nat) → Nat) (v : Nat)
    (hconv : ∀ b : Nat → Nat, (∀ j, j < bs.length → b j = tmp_array bs j) → conv b = v)
    (tmp : Nat → Nat) (e : Int) (v0 : Nat)
    (push : Int → Option os_rbuf_t → Nat → rbuf_ret)
    (peek : Int → Option os_rbuf_t → Nat → Option Nat → rbuf_value)
    (pop : Int → Option os_rbuf_t → Option Nat → rbuf_value)
    (hpush : push e (some r) v = os_rbuf_push e (some r) (some (tmp_array bs)) bs.length)
    (hpeek : ∀ p, peek e p 0 (some v0) = peek_word bs.length conv tmp e p 0 (some v0))
    (hpop : ∀ p, pop e p (some v0) = pop_word bs.length conv tmp e p (some v0)) :
    word_round_trip push peek pop e r v v0 := by
  obtain ⟨hpush2, hused, hread, hhead⟩ := pushed_empty hwf hempty bs h1 hlen e
  have hwf2 : rbuf_wf ⟨(pushed r (tmp_array bs) bs.length).pool,
      (pushed r (tmp_array bs) bs.length).size,
      u32_add (pushed r (tmp_array bs) bs.length).head bs.length &&&
        (pushed r (tmp_array bs) bs.length).size,
      (pushed r (tmp_array bs) bs.length).tail⟩ :=
    ⟨hwf.1, Nat.and_le_right, (pushed_wf hwf (tmp_array bs) bs.length).2.2⟩
  have hv := hconv _ (hread tmp)
  have h01 : ¬ ((0 : Int) = -1) := by decide
  simp only [word_round_trip, hpush, hpeek, hpop, hpush2, peek_word, pop_word,
    peek_ok e _ tmp h1 (Nat.le_of_eq hused.symm), pop_ok e _ tmp h1 (Nat.le_of_eq hused.symm),
    pop_loop_eq_peek_loop, Option.map_some', hv, h01, if_false, true_and]
  refine ⟨_, rfl, hhead, ?_⟩
  rw [used_eq hwf2, if_pos (Nat.le_of_eq hhead), hhead, Nat.sub_self]

/-- C11: on an empty ring of power-of-two capacity with at least `w / 8` usable
bytes, for each width `w` of 8, 16, 32, 64 and each `w`-bit value `v`:
`os_rbuf_push_uw(v)` succeeds, then `os_rbuf_peek_uw` at offset 0 stores `v` and
leaves the ring as it is, and `os_rbuf_pop_uw` stores `v` and leaves the ring
empty. -/
theorem rbuf_word_round_trip (e : Int) (r : os_rbuf_t) (v v0 : Nat) (tmp : Nat → Nat)
    (hwf : rbuf_wf r) (hempty : r.head = r.tail) :
    (v < 2 ^ 8 → 1 ≤ r.size →
        word_round_trip os_rbuf_push_u8 os_rbuf_peek_u8 os_rbuf_pop_u8 e r v v0) ∧
      (v < 2 ^ 16 → 2 ≤ r.size →
        word_round_trip os_rbuf_push_u16 (os_rbuf_peek_u16 tmp) (os_rbuf_pop_u16 tmp)
          e r v v0) ∧
      (v < 2 ^ 32 → 4 ≤ r.size →
        word_round_trip os_rbuf_push_u32 (os_rbuf_peek_u32 tmp) (os_rbuf_pop_u32 tmp)
          e r v v0) ∧
      (v < 2 ^ 64 → 8 ≤ r.size →
        word_round_trip os_rbuf_push_u64 (os_rbuf_peek_u64 tmp) (os_rbuf_pop_u64 tmp)
          e r v v0) := by
  refine ⟨?_, ?_, ?_, ?_⟩
  · intro _ hs
    obtain ⟨hpush, hused, hread, hhead⟩ := pushed_empty hwf hempty [v] (Nat.le_refl 1) hs e
    have hwf2 : rbuf_wf ⟨(pushed r (tmp_array [v]) 1).pool, (pushed r (tmp_array [v]) 1).size,
        u32_add (pushed r (tmp_array [v]) 1).head 1 &&& (pushed r (tmp_array [v]) 1).size,
        (pushed r (tmp_array [v]) 1).tail⟩ :=
      ⟨hwf.1, Nat.and_le_right, (pushed_wf hwf (tmp_array [v]) 1).2.2⟩
    have hb := hread (tmp_array [v0]) 0 (Nat.lt_succ_self 0)
    simp only [List.length_singleton] at hpush hused hb hhead
    simp only [word_round_trip, os_rbuf_push_u8, os_rbuf_peek_u8, os_rbuf_pop_u8, hpush,
      peek_ok e _ (tmp_array [v0]) (Nat.le_refl 1) (Nat.le_of_eq hused.symm),
      pop_ok e _ (tmp_array [v0]) (Nat.le_refl 1) (Nat.le_of_eq hused.symm),
      pop_loop_eq_peek_loop, Option.map_some', hb, true_and]
    refine ⟨rfl, rfl, _, rfl, hhead, ?_⟩
    rw [used_eq hwf2, if_pos (Nat.le_of_eq hhead), hhead, Nat.sub_self]
  · intro hv hs
    exact word_round_trip_generic hwf hempty [(v >>> 8) % 256, v % 256] (by simp) hs
      WORD_BE16 v (fun b hb => by
        have h0 := hb 0 (by simp)
        have h1 := hb 1 (by simp)
        simp only [tmp_array, List.getD_cons_zero, List.getD_cons_succ] at h0 h1
        rw [WORD_BE16, h0, h1, be16_bytes (Nat.mod_lt _ (by decide)) (Nat.mod_lt _ (by decide)),
          be16_digits hv]) tmp e v0 _ _ _ rfl (fun _ => rfl) (fun _ => rfl)
  · intro hv hs
    exact word_round_trip_generic hwf hempty
      [(v >>> 24) % 256, (v >>> 16) % 256, (v >>> 8) % 256, v % 256] (by simp) hs
      WORD_BE32 v (fun b hb => by
        have h0 := hb 0 (by simp)
        have h1 := hb 1 (by simp)
        have h2 := hb 2 (by simp)
        have h3 := hb 3 (by simp)
        simp only [tmp_array, List.getD_cons_zero, List.getD_cons_succ] at h0 h1 h2 h3
        rw [WORD_BE32, h0, h1, h2, h3,
          be32_bytes (Nat.mod_lt _ (by decide)) (Nat.mod_lt _ (by decide))
            (Nat.mod_lt _ (by decide)) (Nat.mod_lt _ (by decide)),
          be32_digits hv]) tmp e v0 _ _ _ rfl (fun _ => rfl) (fun _ => rfl)
  · intro hv hs
    exact word_round_trip_generic hwf hempty
      [(v >>> 56) % 256, (v >>> 48) % 256, (v >>> 40) % 256, (v >>> 32) % 256,
        (v >>> 24) % 256, (v >>> 16) % 256, (v >>> 8) % 256, v % 256] (by simp) hs
      WORD_BE64 v (fun b hb => by
        have h0 := hb 0 (by simp)
        have h1 := hb 1 (by simp)
        have h2 := hb 2 (by simp)
        have h3 := hb 3 (by simp)
        have h4 := hb 4 (by simp)
        have h5 := hb 5 (by simp)
        have h6 := hb 6 (by simp)
        have h7 := hb 7 (by simp)
        simp only [tmp_array, List.getD_cons_zero, List.getD_cons_succ]
          at h0 h1 h2 h3 h4 h5 h6 h7
        rw [WORD_BE64, h0, h1, h2, h3, h4, h5, h6, h7,
          be64_bytes (Nat.mod_lt _ (by decide)) (Nat.mod_lt _ (by decide))
            (Nat.mod_lt _ (by decide)) (Nat.mod_lt _ (by decide)) (Nat.mod_lt _ (by decide))
            (Nat.mod_lt _ (by decide)) (Nat.mod_lt _ (by decide)) (Nat.mod_lt _ (by decide)),
          be64_digits hv]) tmp e v0 _ _ _ rfl (fun _ => rfl) (fun _ => rfl)

/-- Witness of C11: the values 0xAB, 0xABCD, 0x89ABCDEF and 0x0123456789ABCDEF
through an empty ring of capacity 16 whose cursors stand at 13, so that the
wider ones wrap around. -/
theorem rbuf_word_round_trip_witness :
    word_round_trip os_rbuf_push_u8 os_rbuf_peek_u8 os_rbuf_pop_u8 0
        ⟨fun _ => 0, 15, 13, 13⟩ 0xAB 0 ∧
      word_round_trip os_rbuf_push_u16 (os_rbuf_peek_u16 (fun _ => 0))
        (os_rbuf_pop_u16 (fun _ => 0)) 0 ⟨fun _ => 0, 15, 13, 13⟩ 0xABCD 0 ∧
      word_round_trip os_rbuf_push_u32 (os_rbuf_peek_u32 (fun _ => 0))
        (os_rbuf_pop_u32 (fun _ => 0)) 0 ⟨fun _ => 0, 15, 13, 13⟩ 0x89ABCDEF 0 ∧
      word_round_trip os_rbuf_push_u64 (os_rbuf_peek_u64 (fun _ => 0))
        (os_rbuf_pop_u64 (fun _ => 0)) 0 ⟨fun _ => 0, 15, 13, 13⟩ 0x0123456789ABCDEF 0 :=
  ⟨(rbuf_word_round_trip 0 ⟨fun _ => 0, 15, 13, 13⟩ 0xAB 0 (fun _ => 0)
      ⟨⟨4, by decide, rfl⟩, by decide, by decide⟩ rfl).1 (by decide) (by decide),
    (rbuf_word_round_trip 0 ⟨fun _ => 0, 15, 13, 13⟩ 0xABCD 0 (fun _ => 0)
      ⟨⟨4, by decide, rfl⟩, by decide, by decide⟩ rfl).2.1 (by decide) (by decide),
    (rbuf_word_round_trip 0 ⟨fun _ => 0, 15, 13, 13⟩ 0x89ABCDEF 0 (fun _ => 0)
      ⟨⟨4, by decide, rfl⟩, by decide, by decide⟩ rfl).2.2.1 (by decide) (by decide),
    (rbuf_word_round_trip 0 ⟨fun _ => 0, 15, 13, 13⟩ 0x0123456789ABCDEF 0 (fun _ => 0)
      ⟨⟨4, by decide, rfl⟩, by decide, by decide⟩ rfl).2.2.2 (by decide) (by decide)⟩

theorem rbuf_pop_not_enough_aux (e : Int) (r : os_rbuf_t) (buf : Nat → Nat) (count : Nat)
    (h1 : 1 ≤ count) (hused : os_rbuf_used (some r) < count) :
    os_rbuf_pop e (some r) (some buf) count = ⟨-1, OS_ENOENT, some r, some buf⟩ := by
  simp only [os_rbuf_pop]
  rw [if_neg (by omega), if_pos hused]

/-- What `os_rbuf_flush` does on a non-null ring: it returns 0, leaves `os_errno`,
pool and size alone and zeroes both cursors; afterwards the ring holds 0 bytes,
has `size` bytes free, every pop of `n >= 1` bytes fails with `OS_ENOENT`, and so
does every peek of `n >= 1` bytes whose offset is below `n`. -/
theorem rbuf_flush_spec (e : Int) (r : os_rbuf_t) (h32 : r.size < 2 ^ 32) :
    os_rbuf_flush e (some r) = ⟨0, e, some ⟨r.pool, r.size, 0, 0⟩⟩ ∧
      os_rbuf_used (os_rbuf_flush e (some r)).p = 0 ∧
      os_rbuf_free (os_rbuf_flush e (some r)).p = r.size ∧
      (∀ buf n, 1 ≤ n →
        os_rbuf_pop e (os_rbuf_flush e (some r)).p (some buf) n =
          ⟨-1, OS_ENOENT, (os_rbuf_flush e (some r)).p, some buf⟩) ∧
      (∀ buf offset n, 1 ≤ n → offset < n →
        os_rbuf_peek e (os_rbuf_flush e (some r)).p offset (some buf) n =
          ⟨-1, OS_ENOENT, (os_rbuf_flush e (some r)).p, some buf⟩) := by
  have hu : os_rbuf_used (some ⟨r.pool, r.size, 0, 0⟩) = 0 := by
    simp [os_rbuf_used, u32_sub]
  have hf : os_rbuf_free (some ⟨r.pool, r.size, 0, 0⟩) = r.size := by
    simp only [os_rbuf_free, u32_sub]
    rw [show (((0 + (2 ^ 32 - 0 % 2 ^ 32)) % 2 ^ 32 + (2 ^ 32 - 1 % 2 ^ 32)) % 2 ^ 32) =
      2 ^ 32 - 1 by decide, Nat.and_comm, Nat.and_pow_two_sub_one_eq_mod,
      Nat.mod_eq_of_lt h32]
  refine ⟨rfl, hu, hf, ?_, ?_⟩
  · intro buf n hn
    exact rbuf_pop_not_enough_aux e _ buf n hn (by rw [hu]; omega)
  · intro buf offset n hn hoff
    simp only [os_rbuf_flush, os_rbuf_peek, hu, u32_add, Nat.zero_add]
    rw [if_neg (by omega), if_pos (Nat.lt_of_le_of_lt (Nat.mod_le _ _) hoff)]

/-- C12: the code on a ring of capacity 8 after `os_rbuf_flush`: the flush
returns 0 with head = tail = 0 and `os_rbuf_used` = 0, yet `os_rbuf_peek` of 1
byte at offset 1 returns 0 and hands out the stale pool byte at index 1, where
the claim has every peek fail with `OS_ENOENT`. -/
theorem rbuf_flush_then_peek_offset :
    (os_rbuf_flush 0 (some ⟨tmp_array [1, 2, 3, 4, 5, 6, 7, 8], 7, 2, 5⟩)).ret = 0 ∧
      os_rbuf_used (os_rbuf_flush 0 (some ⟨tmp_array [1, 2, 3, 4, 5, 6, 7, 8], 7, 2, 5⟩)).p
        = 0 ∧
      (os_rbuf_peek 0 (os_rbuf_flush 0 (some ⟨tmp_array [1, 2, 3, 4, 5, 6, 7, 8], 7, 2, 5⟩)).p
        1 (some (fun _ => 0)) 1).ret = 0 ∧
      (os_rbuf_peek 0 (os_rbuf_flush 0 (some ⟨tmp_array [1, 2, 3, 4, 5, 6, 7, 8], 7, 2, 5⟩)).p
        1 (some (fun _ => 0)) 1).p_buffer.map (fun b => b 0) = some 2 := by
  decide

/-! ## The registry list -/

/-- Writing a mailbox that is not on the chain leaves the chain as it is. -/
theorem is_chain_update {mem : Nat → os_queue_t} {a : Nat} (q : os_queue_t) :
    ∀ (l : List Nat) (o : Option Nat), a ∉ l →
      (is_chain (Function.update mem a q) o l ↔ is_chain mem o l) := by
  intro l
  induction l with
  | nil => intro o _; cases o <;> simp [is_chain]
  | cons b l ih =>
    intro o ha
    have hba : b ≠ a := fun h => ha (h ▸ List.mem_cons_self _ _)
    have hal : a ∉ l := fun h => ha (List.mem_cons_of_mem _ h)
    cases o with
    | none => simp [is_chain]
    | some c =>
      simp only [is_chain, Function.update_noteq hba]
      rw [ih _ hal]

/-! ## Claims on mailbox creation and subscription -/

/-- Away from `pool_size = 0`, `os_queue_init` with non-null pointers rejects
exactly the sizes that are no power of two and then changes nothing but
`os_errno`; for a power of two it returns 0. -/
theorem queue_init_nonzero (s : queue_state) (a : Nat) (pool : Nat → os_msg_t) (n : Nat)
    (h1 : 1 ≤ n) (h32 : n < 2 ^ 32) :
    ((¬ ∃ k, n = 2 ^ k) →
        os_queue_init s (some a) (some pool) n = ⟨-1, ⟨OS_EINVAL, s.g_queue_list, s.mem⟩⟩) ∧
      ((∃ k, n = 2 ^ k) → (os_queue_init s (some a) (some pool) n).ret = 0) := by
  constructor
  · intro h
    have h2 : ¬ n &&& (n - 1) = 0 := fun hc => h ((and_pred_eq_zero_iff h1).mp hc)
    have hs : u32_sub n 1 = n - 1 := by
      unfold u32_sub
      rw [Nat.mod_eq_of_lt (a := 1) (by omega),
        show n + (2 ^ 32 - 1) = (n - 1) + 2 ^ 32 by omega, Nat.add_mod_right,
        Nat.mod_eq_of_lt (by omega)]
    simp only [os_queue_init, hs, ne_eq, h2, not_false_eq_true, if_true]
  · rintro ⟨k, hk⟩
    obtain ⟨h3, h4⟩ := pow2_check hk h32
    rw [h3] at h4
    simp [os_queue_init, h3, h4]

/-- C13: the code at `pool_size = 0` with non-null mailbox and storage pointers:
0 is no power of two, yet `os_queue_init` returns 0, leaves `os_errno` alone,
stores the mask `size = 0xFFFFFFFF` and puts the mailbox on the registry list. -/
theorem queue_init_accepts_zero :
    (¬ ∃ k, 0 = 2 ^ k) ∧
      (os_queue_init ⟨0, none, fun _ => queue_zero⟩ (some 1)
        (some (fun _ => ⟨none, none, 0, 0, []⟩)) 0).ret = 0 ∧
      (os_queue_init ⟨0, none, fun _ => queue_zero⟩ (some 1)
        (some (fun _ => ⟨none, none, 0, 0, []⟩)) 0).st.os_errno = 0 ∧
      ((os_queue_init ⟨0, none, fun _ => queue_zero⟩ (some 1)
        (some (fun _ => ⟨none, none, 0, 0, []⟩)) 0).st.mem 1).size = 4294967295 ∧
      (os_queue_init ⟨0, none, fun _ => queue_zero⟩ (some 1)
        (some (fun _ => ⟨none, none, 0, 0, []⟩)) 0).st.g_queue_list = some 1 := by
  refine ⟨?_, by decide, by decide, by decide, by decide⟩
  rintro ⟨k, hk⟩
  have := Nat.one_le_two_pow (n := k)
  omega

/-- C14: with registry list `l` and a mailbox `a` not in `l`, `os_queue_init` with
non-null storage and a power-of-two `pool_size` `C` returns 0 and leaves `a` with
head = 0, tail = 0, size = `C - 1`, buffer = the storage and every subscription
word zero; the registry list becomes `a` followed by `l`, and no other mailbox
and not `os_errno` is written. -/
theorem queue_init_registers (s : queue_state) (l : List Nat) (a : Nat)
    (pool : Nat → os_msg_t) (C : Nat) (hreg : registry s l) (ha : a ∉ l)
    (hC : ∃ k, C = 2 ^ k) (h32 : C < 2 ^ 32) :
    (os_queue_init s (some a) (some pool) C).ret = 0 ∧
      (os_queue_init s (some a) (some pool) C).st.os_errno = s.os_errno ∧
      ((os_queue_init s (some a) (some pool) C).st.mem a).head = 0 ∧
      ((os_queue_init s (some a) (some pool) C).st.mem a).tail = 0 ∧
      ((os_queue_init s (some a) (some pool) C).st.mem a).size = C - 1 ∧
      ((os_queue_init s (some a) (some pool) C).st.mem a).buffer = some pool ∧
      (∀ i, ((os_queue_init s (some a) (some pool) C).st.mem a).subscriptions i = 0) ∧
      registry (os_queue_init s (some a) (some pool) C).st (a :: l) ∧
      (∀ b, b ≠ a → (os_queue_init s (some a) (some pool) C).st.mem b = s.mem b) := by
  obtain ⟨k, hk⟩ := hC
  obtain ⟨h3, h4⟩ := pow2_check hk h32
  rw [h3] at h4
  have hres : os_queue_init s (some a) (some pool) C =
      ⟨0, ⟨s.os_errno, some a, Function.update s.mem a
        ⟨s.g_queue_list, some pool, 0, 0, C - 1, fun _ => 0⟩⟩⟩ := by
    simp [os_queue_init, h3, h4, queue_zero]
  rw [hres]
  refine ⟨rfl, rfl, ?_, ?_, ?_, ?_, ?_, ?_, ?_⟩
  · simp
  · simp
  · simp
  · simp
  · intro i; simp
  · simp only [registry, is_chain, Function.update_same, true_and]
    exact (is_chain_update _ l _ ha).mpr hreg
  · intro b hb
    simp [Function.update_noteq hb]

/-- Witness of C14: a third mailbox at address 3 joins the registry 2, 1. -/
theorem queue_init_registers_witness :
    registry (os_queue_init
        ⟨0, some 2, fun x => if x = 2 then ⟨some 1, none, 0, 0, 3, fun _ => 0⟩ else queue_zero⟩
        (some 3) (some (fun _ => ⟨none, none, 0, 0, []⟩)) 4).st [3, 2, 1] :=
  (queue_init_registers
    ⟨0, some 2, fun x => if x = 2 then ⟨some 1, none, 0, 0, 3, fun _ => 0⟩ else queue_zero⟩
    [2, 1] 3 (fun _ => ⟨none, none, 0, 0, []⟩) 4 ⟨rfl, rfl, trivial⟩ (by decide) ⟨2, rfl⟩
    (by decide)).2.2.2.2.2.2.2.1

theorem set_subscription_high (q : os_queue_t) (id word i : Nat) (hid : id ≤ 8191)
    (hi : 256 ≤ i) :
    (set_subscription q (id / 32) word).subscriptions i = q.subscriptions i := by
  simp only [set_subscription]
  exact Function.update_noteq (by omega) _ _

/-- C17: for every non-null mailbox and every id, `os_queue_sub` and
`os_queue_unsub` return -1 with `os_errno = OS_EINVAL` if and only if
`id > 8191`, in which case no mailbox is written; for `id <= 8191` they return
0; and no subscription word at index 256 or above is ever written. -/
theorem queue_sub_unsub_range (s : queue_state) (a id : Nat) :
    sub_range_ok os_queue_sub s a id ∧ sub_range_ok os_queue_unsub s a id := by
  by_cases h : 8191 < id
  · have h1 : id > OS_QUEUE_MSGID_MAX - 1 := h
    simp [sub_range_ok, os_queue_sub, os_queue_unsub, h1, h]
  · have h1 : ¬ id > OS_QUEUE_MSGID_MAX - 1 := h
    have h2 : id ≤ 8191 := by omega
    simp only [sub_range_ok, os_queue_sub, os_queue_unsub, h1, if_false, h, iff_false,
      not_and, false_implies, true_and, h2, true_implies]
    refine ⟨⟨fun hc => absurd hc (by decide), ?_⟩, ⟨fun hc => absurd hc (by decide), ?_⟩⟩
    · intro b i hi
      by_cases hb : b = a
      · subst hb
        rw [Function.update_same, set_subscription_high _ _ _ _ h2 hi]
      · rw [Function.update_noteq hb]
    · intro b i hi
      by_cases hb : b = a
      · subst hb
        rw [Function.update_same, set_subscription_high _ _ _ _ h2 hi]
      · rw [Function.update_noteq hb]

/-- Witness of C17: id 9000 is refused by both calls and id 5 is accepted. -/
theorem queue_sub_unsub_range_witness :
    ((os_queue_sub ⟨0, none, fun _ => queue_zero⟩ (some 1) 9000).st.mem =
        (fun _ => queue_zero) ∧
      (os_queue_sub ⟨0, none, fun _ => queue_zero⟩ (some 1) 9000).st.g_queue_list = none) ∧
    (os_queue_unsub ⟨0, none, fun _ => queue_zero⟩ (some 1) 5).ret = 0 :=
  ⟨(queue_sub_unsub_range ⟨0, none, fun _ => queue_zero⟩ 1 9000).1.2.1 (by decide),
    (queue_sub_unsub_range ⟨0, none, fun _ => queue_zero⟩ 1 5).2.2.2.1 (by decide)⟩

/-- The chain only depends on the `next` pointers. -/
theorem is_chain_congr {mem1 mem2 : Nat → os_queue_t}
    (h : ∀ b, (mem1 b).next = (mem2 b).next) :
    ∀ (l : List Nat) (o : Option Nat), is_chain mem1 o l ↔ is_chain mem2 o l := by
  intro l
  induction l with
  | nil => intro o; cases o <;> simp [is_chain]
  | cons b l ih =>
    intro o
    cases o with
    | none => simp [is_chain]
    | some c => simp only [is_chain, h b, ih]

/-! ## Broadcast -/

theorem sub_bit_set_eq_testBit (q : os_queue_t) (off bit : Nat) :
    sub_bit_set q off bit = (q.subscriptions off).testBit bit := by
  simp only [sub_bit_set, Nat.testBit, Nat.and_comm]

/-- The loop of `os_queue_post` over a duplicate-free chain: with enough fuel it
ends, and it delivers one copy to each mailbox of the chain whose tested bit is
set and writes nothing else. -/
theorem post_loop_spec (msg : os_msg_t) (off bit : Nat) :
    ∀ (l : List Nat) (fuel : Nat) (s : queue_state) (o : Option Nat),
      is_chain s.mem o l → l.Nodup → l.length ≤ fuel →
      ∃ s1, post_loop msg off bit fuel s o = some s1 ∧ s1.os_errno = s.os_errno ∧
        s1.g_queue_list = s.g_queue_list ∧
        ∀ b, s1.mem b =
          if b ∈ l ∧ sub_bit_set (s.mem b) off bit = true then deliver (s.mem b) msg
          else s.mem b := by
  intro l
  induction l with
  | nil =>
    intro fuel s o hc _ _
    cases o with
    | none => exact ⟨s, by cases fuel <;> rfl, rfl, rfl, fun b => by simp⟩
    | some c => simp [is_chain] at hc
  | cons t l ih =>
    intro fuel s o hc hnd hfuel
    cases o with
    | none => simp [is_chain] at hc
    | some c =>
      obtain ⟨rfl, hc2⟩ := hc
      have htl : c ∉ l := (List.nodup_cons.mp hnd).1
      have hnd2 : l.Nodup := (List.nodup_cons.mp hnd).2
      cases fuel with
      | zero => simp at hfuel
      | succ fuel =>
        have hfuel2 : l.length ≤ fuel := by simpa using hfuel
        by_cases hbit : sub_bit_set (s.mem c) off bit = true
        · have hc3 : is_chain (Function.update s.mem c (deliver (s.mem c) msg))
              (deliver (s.mem c) msg).next l :=
            (is_chain_update _ l _ htl).mpr hc2
          obtain ⟨s1, h1, h2, h3, h4⟩ := ih fuel
            ⟨s.os_errno, s.g_queue_list, Function.update s.mem c (deliver (s.mem c) msg)⟩
            _ hc3 hnd2 hfuel2
          refine ⟨s1, ?_, h2, h3, ?_⟩
          · simp only [post_loop, hbit, if_true]
            exact h1
          · intro b
            rw [h4 b]
            by_cases hb : b = c
            · subst hb
              simp [htl, hbit]
            · simp [Function.update_noteq hb, hb]
        · obtain ⟨s1, h1, h2, h3, h4⟩ := ih fuel s _ hc2 hnd2 hfuel2
          refine ⟨s1, ?_, h2, h3, ?_⟩
          · simp only [post_loop, hbit]
            exact h1
          · intro b
            rw [h4 b]
            by_cases hb : b = c
            · subst hb
              simp [htl, hbit]
            · simp [hb]

/-- What `os_queue_post` does with non-null sender `a`, a message `m` with
`id <= 8191`, a duplicate-free registry list `l` and enough fuel: it returns 0,
stores `a` in the source field of the message, and puts one copy into each
registered mailbox whose bit `id & 7` of word `id / 32` is set; nothing else is
written. -/
theorem queue_post_spec (fuel : Nat) (s : queue_state) (l : List Nat) (a : Nat) (m : os_msg_t)
    (hreg : registry s l) (hnd : l.Nodup) (hfuel : l.length ≤ fuel) (hid : m.id ≤ 8191) :
    ∃ s1, os_queue_post fuel s (some a) (some m) =
        some ⟨0, s1, some ⟨some a, m.target, m.userdata, m.id, m.params⟩⟩ ∧
      s1.os_errno = s.os_errno ∧ s1.g_queue_list = s.g_queue_list ∧
      ∀ b, s1.mem b =
        if b ∈ l ∧ sub_bit_set (s.mem b) (m.id / 32) (m.id &&& 7) = true then
          deliver (s.mem b) ⟨some a, m.target, m.userdata, m.id, m.params⟩
        else s.mem b := by
  obtain ⟨s1, h1, h2, h3, h4⟩ := post_loop_spec ⟨some a, m.target, m.userdata, m.id, m.params⟩
    (m.id / 32) (m.id &&& 7) l fuel s s.g_queue_list hreg hnd hfuel
  refine ⟨s1, ?_, h2, h3, h4⟩
  have hid2 : ¬ m.id > OS_QUEUE_MSGID_MAX - 1 := by
    simp only [OS_QUEUE_MSGID_MAX]; omega
  simp only [os_queue_post, hid2, if_false, h1, Option.map_some']

theorem sub_sets_bit (q : os_queue_t) (off bit : Nat) :
    sub_bit_set (set_subscription q off (q.subscriptions off ||| (1 <<< bit))) off bit
      = true := by
  rw [sub_bit_set_eq_testBit]
  simp only [set_subscription, Function.update_same, Nat.testBit_or, Nat.one_shiftLeft,
    Nat.testBit_two_pow_self, Bool.or_true]

theorem unsub_clears_bit (q : os_queue_t) (off bit : Nat) (hbit : bit < 32) :
    sub_bit_set (set_subscription q off (q.subscriptions off &&& u32_not (1 <<< bit))) off bit
      = false := by
  have h1 : 2 ^ bit < 2 ^ 32 := Nat.pow_lt_pow_right (by decide) hbit
  have h2 : u32_not (1 <<< bit) = 2 ^ 32 - (2 ^ bit + 1) := by
    rw [Nat.one_shiftLeft, u32_not, Nat.mod_eq_of_lt h1]
    omega
  rw [sub_bit_set_eq_testBit]
  simp only [set_subscription, Function.update_same, Nat.testBit_and, h2,
    Nat.testBit_two_pow_sub_succ h1, Nat.testBit_two_pow_self, Bool.not_true, Bool.and_false]

theorem id_and_seven_lt (id : Nat) : id &&& 7 < 32 :=
  Nat.lt_of_le_of_lt Nat.and_le_right (by decide)

/-- A write to one mailbox that keeps its `next` pointer keeps the registry. -/
theorem registry_update {s : queue_state} {l : List Nat} (hreg : registry s l) (e : Int)
    (a : Nat) (q : os_queue_t) (hq : q.next = (s.mem a).next) :
    registry ⟨e, s.g_queue_list, Function.update s.mem a q⟩ l := by
  refine (is_chain_congr (fun b => ?_) l _).mpr hreg
  by_cases hb : b = a
  · subst hb; simp [hq]
  · simp [Function.update_noteq hb]

/-- C18: for a mailbox `q` on a duplicate-free registry list and an id
`k <= 8191` (the id of the message `m`), with enough fuel for the list: right
after `os_queue_sub(q, k)` returns 0, `os_queue_post` of `m` returns 0 and
copies `m` (with its source set to the sender) into the tail slot of `q` and
advances the tail of `q`; right after `os_queue_unsub(q, k)` returns 0,
`os_queue_post` of `m` returns 0 and leaves buffer, head and tail of `q` as they
were. -/
theorem queue_sub_unsub_then_post (fuel : Nat) (s : queue_state) (l : List Nat) (q p : Nat)
    (m : os_msg_t) (hreg : registry s l) (hnd : l.Nodup) (hq : q ∈ l)
    (hfuel : l.length ≤ fuel) (hid : m.id ≤ 8191) :
    ((os_queue_sub s (some q) m.id).ret = 0 ∧
      ∃ res, os_queue_post fuel (os_queue_sub s (some q) m.id).st (some p) (some m) = some res ∧
        res.ret = 0 ∧
        (res.st.mem q).buffer = (s.mem q).buffer.map (fun b => Function.update b (s.mem q).tail
          ⟨some p, m.target, m.userdata, m.id, m.params⟩) ∧
        (res.st.mem q).tail = u32_add (s.mem q).tail 1 &&& (s.mem q).size ∧
        (res.st.mem q).head = (s.mem q).head) ∧
    ((os_queue_unsub s (some q) m.id).ret = 0 ∧
      ∃ res, os_queue_post fuel (os_queue_unsub s (some q) m.id).st (some p) (some m)
          = some res ∧
        res.ret = 0 ∧ (res.st.mem q).buffer = (s.mem q).buffer ∧
        (res.st.mem q).tail = (s.mem q).tail ∧ (res.st.mem q).head = (s.mem q).head) := by
  have hid2 : ¬ m.id > OS_QUEUE_MSGID_MAX - 1 := by
    simp only [OS_QUEUE_MSGID_MAX]; omega
  constructor
  · have hs : os_queue_sub s (some q) m.id = ⟨0, ⟨s.os_errno, s.g_queue_list,
        Function.update s.mem q (set_subscription (s.mem q) (m.id / 32)
          ((s.mem q).subscriptions (m.id / 32) ||| (1 <<< (m.id &&& 7))))⟩⟩ := by
      simp only [os_queue_sub, hid2, if_false]
    rw [hs]
    obtain ⟨s1, h1, -, -, h4⟩ := queue_post_spec fuel _ l p m
      (registry_update hreg s.os_errno q (set_subscription (s.mem q) (m.id / 32)
        ((s.mem q).subscriptions (m.id / 32) ||| (1 <<< (m.id &&& 7)))) rfl) hnd hfuel hid
    refine ⟨rfl, _, h1, rfl, ?_⟩
    have h5 := h4 q
    simp only [Function.update_same, hq, sub_sets_bit, and_self, if_true] at h5
    simp only [h5, deliver, set_subscription, and_self]
  · have hs : os_queue_unsub s (some q) m.id = ⟨0, ⟨s.os_errno, s.g_queue_list,
        Function.update s.mem q (set_subscription (s.mem q) (m.id / 32)
          ((s.mem q).subscriptions (m.id / 32) &&& u32_not (1 <<< (m.id &&& 7))))⟩⟩ := by
      simp only [os_queue_unsub, hid2, if_false]
    rw [hs]
    obtain ⟨s1, h1, -, -, h4⟩ := queue_post_spec fuel _ l p m
      (registry_update hreg s.os_errno q (set_subscription (s.mem q) (m.id / 32)
        ((s.mem q).subscriptions (m.id / 32) &&& u32_not (1 <<< (m.id &&& 7)))) rfl)
      hnd hfuel hid
    refine ⟨rfl, _, h1, rfl, ?_⟩
    have h5 := h4 q
    simp only [Function.update_same, hq, unsub_clears_bit _ _ _ (id_and_seven_lt m.id),
      Bool.false_eq_true, and_false, if_false] at h5
    simp only [h5, set_subscription, and_self]

/-- Witness of C18: mailbox 1 alone on the registry, capacity 4, and a message
with id 5 posted by mailbox 2 after `os_queue_sub(1, 5)`. -/
theorem queue_sub_unsub_then_post_witness :
    (os_queue_sub
        ⟨0, some 1, fun x => if x = 1 then
          ⟨none, some (fun _ => ⟨none, none, 0, 0, []⟩), 0, 0, 3, fun _ => 0⟩ else queue_zero⟩
        (some 1) 5).ret = 0 ∧
      ∃ res, os_queue_post 1 (os_queue_sub
          ⟨0, some 1, fun x => if x = 1 then
            ⟨none, some (fun _ => ⟨none, none, 0, 0, []⟩), 0, 0, 3, fun _ => 0⟩ else queue_zero⟩
          (some 1) 5).st (some 2) (some ⟨none, none, 42, 5, []⟩) = some res ∧
        res.ret = 0 ∧
        (res.st.mem 1).buffer = (some (fun _ => ⟨none, none, 0, 0, []⟩)).map
          (fun b => Function.update b 0 ⟨some 2, none, 42, 5, []⟩) ∧
        (res.st.mem 1).tail = u32_add 0 1 &&& 3 ∧
        (res.st.mem 1).head = 0 :=
  (queue_sub_unsub_then_post 1
    ⟨0, some 1, fun x => if x = 1 then
      ⟨none, some (fun _ => ⟨none, none, 0, 0, []⟩), 0, 0, 3, fun _ => 0⟩ else queue_zero⟩
    [1] 1 2 ⟨none, none, 42, 5, []⟩ ⟨rfl, trivial⟩ (by decide) (by decide) (by decide)
    (by decide)).1

/-- C19: the code on a registered mailbox with an empty subscription table, for
the distinct ids 0 and 8: before `os_queue_sub(1, 0)` a posted message with id 8
is not copied into the mailbox (its tail stays 0); after `os_queue_sub(1, 0)`
has returned 0 the same post is copied (its tail becomes 1). The call for id 0
changed the subscription status of id 8. -/
theorem queue_sub_aliases_ids :
    (os_queue_post 1
        ⟨0, some 1, fun x => if x = 1 then
          ⟨none, some (fun _ => ⟨none, none, 0, 0, []⟩), 0, 0, 3, fun _ => 0⟩ else queue_zero⟩
        (some 2) (some ⟨none, none, 42, 8, []⟩)).map (fun res => (res.st.mem 1).tail)
      = some 0 ∧
    (os_queue_sub
        ⟨0, some 1, fun x => if x = 1 then
          ⟨none, some (fun _ => ⟨none, none, 0, 0, []⟩), 0, 0, 3, fun _ => 0⟩ else queue_zero⟩
        (some 1) 0).ret = 0 ∧
    (os_queue_post 1 (os_queue_sub
        ⟨0, some 1, fun x => if x = 1 then
          ⟨none, some (fun _ => ⟨none, none, 0, 0, []⟩), 0, 0, 3, fun _ => 0⟩ else queue_zero⟩
        (some 1) 0).st
        (some 2) (some ⟨none, none, 42, 8, []⟩)).map (fun res => (res.st.mem 1).tail)
      = some 1 := by
  decide

/-- C20: the code on a registered mailbox whose only subscription is id 0 (made
by `os_queue_sub(1, 0)`), with a message of id 8 posted by mailbox 2: in the
one-bit-per-id table of the specification the mailbox is not subscribed to id 8,
yet `os_queue_post` returns 0, writes the message into slot 0 of the mailbox
and moves its tail from 0 to 1. -/
theorem queue_post_delivers_aliased_id :
    subscribed_spec ((os_queue_sub
        ⟨0, some 1, fun x => if x = 1 then
          ⟨none, some (fun _ => ⟨none, none, 0, 0, []⟩), 0, 0, 3, fun _ => 0⟩ else queue_zero⟩
        (some 1) 0).st.mem 1) 0 = true ∧
    subscribed_spec ((os_queue_sub
        ⟨0, some 1, fun x => if x = 1 then
          ⟨none, some (fun _ => ⟨none, none, 0, 0, []⟩), 0, 0, 3, fun _ => 0⟩ else queue_zero⟩
        (some 1) 0).st.mem 1) 8 = false ∧
    (os_queue_post 1 (os_queue_sub
        ⟨0, some 1, fun x => if x = 1 then
          ⟨none, some (fun _ => ⟨none, none, 0, 0, []⟩), 0, 0, 3, fun _ => 0⟩ else queue_zero⟩
        (some 1) 0).st
        (some 2) (some ⟨none, none, 42, 8, []⟩)).map
        (fun res => (res.ret, (res.st.mem 1).tail, (res.st.mem 1).buffer.map (fun b => b 0)))
      = some (0, 1, some ⟨some 2, none, 42, 8, []⟩) := by
  decide

/-! ## Removal from the registry list -/

theorem pred_in_some_mem (a : Nat) :
    ∀ (l : List Nat) (c : Nat), a ∈ l →
      ∃ v, pred_in a l (some c) = some v ∧ (v = c ∨ v ∈ l) := by
  intro l
  induction l with
  | nil => intro c h; simp at h
  | cons d l ih =>
    intro c h
    by_cases hd : d = a
    · exact ⟨c, by simp [pred_in, hd], Or.inl rfl⟩
    · have hal : a ∈ l := by
        rcases List.mem_cons.mp h with h1 | h1
        · exact absurd h1.symm hd
        · exact h1
      obtain ⟨v, hv, hv2⟩ := ih d hal
      refine ⟨v, by simp [pred_in, hd, hv], Or.inr ?_⟩
      rcases hv2 with rfl | hv2
      · exact List.mem_cons_self _ _
      · exact List.mem_cons_of_mem _ hv2

theorem link_prev_chain {mem : Nat → os_queue_t} {l : List Nat} {o : Option Nat}
    (prv nx : Option Nat) (hp : ∀ v, prv = some v → v ∉ l) (h : is_chain mem o l) :
    is_chain (link_prev mem prv nx) o l := by
  cases prv with
  | none => exact h
  | some v => exact (is_chain_update _ l o (hp v rfl)).mpr h

/-- Unlinking `a` from a duplicate-free chain `l` the way `os_queue_destroy` does
(with `prv` the node the loop holds when it finds `a`) leaves the chain
`l.erase a`. -/
theorem unlink_chain (mem : Nat → os_queue_t) (a : Nat) :
    ∀ (l : List Nat) (o prv : Option Nat), is_chain mem o l → l.Nodup → a ∈ l →
      (∀ v, prv = some v → v ∉ l) →
      is_chain (Function.update (link_prev mem (pred_in a l prv) (mem a).next) a queue_zero)
        (if some a = o then (mem a).next else o) (l.erase a) := by
  intro l
  induction l with
  | nil => intro o prv _ _ h; simp at h
  | cons b l ih =>
    intro o prv hc hnd ha hprv
    cases o with
    | none => simp [is_chain] at hc
    | some c =>
      obtain ⟨rfl, hc2⟩ := hc
      have hcl : c ∉ l := (List.nodup_cons.mp hnd).1
      have hnd2 : l.Nodup := (List.nodup_cons.mp hnd).2
      by_cases hca : c = a
      · subst hca
        simp only [pred_in, if_true, List.erase_cons_head]
        refine (is_chain_update _ l _ hcl).mpr (link_prev_chain prv _ ?_ hc2)
        intro v hv hvl
        exact hprv v hv (List.mem_cons_of_mem _ hvl)
      · have hal : a ∈ l := by
          rcases List.mem_cons.mp ha with h1 | h1
          · exact absurd h1.symm hca
          · exact h1
        have hne : ¬ some a = some c := fun h => hca (Option.some.inj h).symm
        have herase : (c :: l).erase a = c :: l.erase a :=
          List.erase_cons_tail (by simpa using hca)
        have hih := ih (mem c).next (some c) hc2 hnd2 hal
          (fun v hv => by cases hv; exact hcl)
        simp only [pred_in, if_neg hca, if_neg hne, herase, is_chain, true_and,
          Function.update_noteq hca]
        have hnext : (link_prev mem (pred_in a l (some c)) (mem a).next c).next =
            if some a = (mem c).next then (mem a).next else (mem c).next := by
          cases l with
          | nil => simp at hal
          | cons d l2 =>
            cases hcn : (mem c).next with
            | none => rw [hcn] at hc2; simp [is_chain] at hc2
            | some d2 =>
              rw [hcn] at hc2
              obtain ⟨rfl, -⟩ := hc2
              by_cases hd : d2 = a
              · subst hd
                simp [pred_in, link_prev, set_next]
              · have hal2 : a ∈ l2 := by
                  rcases List.mem_cons.mp hal with h1 | h1
                  · exact absurd h1.symm hd
                  · exact h1
                obtain ⟨v, hv, hv2⟩ := pred_in_some_mem a l2 d2 hal2
                have hvc : c ≠ v := by
                  rintro rfl
                  apply hcl
                  rcases hv2 with rfl | hv2
                  · exact List.mem_cons_self _ _
                  · exact List.mem_cons_of_mem _ hv2
                have hne2 : ¬ some a = some d2 := fun h => hd (Option.some.inj h).symm
                simp only [pred_in, if_neg hd, hv, link_prev, Function.update_noteq hvc, hcn,
                  if_neg hne2]
        rw [hnext]
        exact hih

/-- The loop of `os_queue_destroy` over a chain `l`: with enough fuel it ends,
in the found branch if `p` is on the chain and without a write otherwise. -/
theorem destroy_loop_spec (s : queue_state) (p : Nat) :
    ∀ (l : List Nat) (fuel : Nat) (prv o : Option Nat), is_chain s.mem o l →
      l.length ≤ fuel →
      destroy_loop p fuel s prv o =
        some (if p ∈ l then destroy_found s p (pred_in p l prv) else s) := by
  intro l
  induction l with
  | nil =>
    intro fuel prv o hc _
    cases o with
    | none => cases fuel <;> simp [destroy_loop]
    | some c => simp [is_chain] at hc
  | cons b l ih =>
    intro fuel prv o hc hfuel
    cases o with
    | none => simp [is_chain] at hc
    | some c =>
      obtain ⟨rfl, hc2⟩ := hc
      cases fuel with
      | zero => simp at hfuel
      | succ fuel =>
        have hfuel2 : l.length ≤ fuel := by simpa using hfuel
        by_cases hpc : p = c
        · subst hpc
          simp [destroy_loop, pred_in]
        · have hcp : ¬ c = p := fun h => hpc h.symm
          simp only [destroy_loop, if_neg hpc, ih fuel (some c) _ hc2 hfuel2, pred_in,
            if_neg hcp, List.mem_cons, hpc, false_or, if_false]

theorem link_prev_fields (mem : Nat → os_queue_t) (prv nx : Option Nat) (b : Nat) :
    (link_prev mem prv nx b).buffer = (mem b).buffer ∧
      (link_prev mem prv nx b).head = (mem b).head ∧
      (link_prev mem prv nx b).tail = (mem b).tail ∧
      (link_prev mem prv nx b).size = (mem b).size ∧
      (link_prev mem prv nx b).subscriptions = (mem b).subscriptions := by
  cases prv with
  | none => simp [link_prev]
  | some v =>
    by_cases hb : b = v
    · subst hb; simp [link_prev, set_next]
    · simp [link_prev, Function.update_noteq hb]

/-- C15: with a duplicate-free registry list `l`, a non-null mailbox `a` and
enough fuel for the list, `os_queue_destroy(a)` returns 0 and the registry list
afterwards is `l` with `a` removed; every other mailbox keeps its buffer,
cursors, size and subscriptions; if `a` is not in `l` nothing at all changes. -/
theorem queue_destroy_unregisters (fuel : Nat) (s : queue_state) (l : List Nat) (a : Nat)
    (hreg : registry s l) (hnd : l.Nodup) (hfuel : l.length ≤ fuel) :
    ∃ s1, os_queue_destroy fuel s (some a) = some ⟨0, s1⟩ ∧
      s1.os_errno = s.os_errno ∧
      registry s1 (l.erase a) ∧
      (∀ b, b ∈ l → b ≠ a → b ∈ l.erase a) ∧
      (∀ b, b ≠ a → (s1.mem b).buffer = (s.mem b).buffer ∧ (s1.mem b).head = (s.mem b).head ∧
        (s1.mem b).tail = (s.mem b).tail ∧ (s1.mem b).size = (s.mem b).size ∧
        (s1.mem b).subscriptions = (s.mem b).subscriptions) ∧
      (a ∉ l → s1 = s) := by
  have hloop := destroy_loop_spec s a l fuel none s.g_queue_list hreg hfuel
  refine ⟨if a ∈ l then destroy_found s a (pred_in a l none) else s,
    by simp only [os_queue_destroy, hloop, Option.map_some'], ?_, ?_, ?_, ?_, ?_⟩
  · split <;> rfl
  · by_cases ha : a ∈ l
    · rw [if_pos ha]
      exact unlink_chain s.mem a l s.g_queue_list none hreg hnd ha (fun v hv => by cases hv)
    · rw [if_neg ha, List.erase_of_not_mem ha]
      exact hreg
  · intro b hb hba
    exact (List.mem_erase_of_ne hba).mpr hb
  · intro b hba
    by_cases ha : a ∈ l
    · rw [if_pos ha]
      simp only [destroy_found, Function.update_noteq hba]
      exact link_prev_fields _ _ _ _
    · rw [if_neg ha]
      exact ⟨rfl, rfl, rfl, rfl, rfl⟩
  · intro ha
    rw [if_neg ha]

/-- Witness of C15: the middle mailbox 2 of the registry 3, 2, 1 is destroyed. -/
theorem queue_destroy_unregisters_witness :
    ∃ s1, os_queue_destroy 3
        ⟨0, some 3, fun x => if x = 3 then ⟨some 2, none, 0, 0, 3, fun _ => 0⟩
          else if x = 2 then ⟨some 1, none, 0, 0, 3, fun _ => 0⟩ else queue_zero⟩
        (some 2) = some ⟨0, s1⟩ ∧
      s1.os_errno = 0 ∧
      registry s1 ([3, 2, 1].erase 2) :=
  (queue_destroy_unregisters 3
    ⟨0, some 3, fun x => if x = 3 then ⟨some 2, none, 0, 0, 3, fun _ => 0⟩
      else if x = 2 then ⟨some 1, none, 0, 0, 3, fun _ => 0⟩ else queue_zero⟩
    [3, 2, 1] 2 ⟨rfl, rfl, rfl, trivial⟩ (by decide) (by decide)).imp
    (fun _ h => ⟨h.1, h.2.1, h.2.2.1⟩)

/-- C16, as the code has it: with registry list `l` and enough fuel for it,
`os_queue_destroy(a)` on a mailbox `a` of the list zeroes `a` (next, buffer,
head, tail, size and every subscription word), and on a mailbox that is not in
the list it leaves the memory of `a` as it was. -/
theorem queue_destroy_wipes_registered (fuel : Nat) (s : queue_state) (l : List Nat) (a : Nat)
    (hreg : registry s l) (hfuel : l.length ≤ fuel) :
    ∃ s1, os_queue_destroy fuel s (some a) = some ⟨0, s1⟩ ∧
      (a ∈ l → (s1.mem a).next = none ∧ (s1.mem a).buffer = none ∧ (s1.mem a).head = 0 ∧
        (s1.mem a).tail = 0 ∧ (s1.mem a).size = 0 ∧ ∀ i, (s1.mem a).subscriptions i = 0) ∧
      (a ∉ l → s1.mem a = s.mem a) := by
  have hloop := destroy_loop_spec s a l fuel none s.g_queue_list hreg hfuel
  refine ⟨if a ∈ l then destroy_found s a (pred_in a l none) else s,
    by simp only [os_queue_destroy, hloop, Option.map_some'], ?_, ?_⟩
  · intro ha
    rw [if_pos ha]
    simp [destroy_found, queue_zero]
  · intro ha
    rw [if_neg ha]

/-- Witness of C16 as amended: the registered mailbox 2 of the registry 2, 1 is
wiped by its destruction. -/
theorem queue_destroy_wipes_registered_witness :
    ∃ s1, os_queue_destroy 2
        ⟨0, some 2, fun x => if x = 2 then
          ⟨some 1, some (fun _ => ⟨none, none, 0, 0, []⟩), 3, 1, 7, fun _ => 5⟩
          else queue_zero⟩
        (some 2) = some ⟨0, s1⟩ ∧
      (s1.mem 2).next = none ∧ (s1.mem 2).buffer = none ∧ (s1.mem 2).head = 0 ∧
        (s1.mem 2).tail = 0 ∧ (s1.mem 2).size = 0 ∧ ∀ i, (s1.mem 2).subscriptions i = 0 :=
  (queue_destroy_wipes_registered 2
    ⟨0, some 2, fun x => if x = 2 then
      ⟨some 1, some (fun _ => ⟨none, none, 0, 0, []⟩), 3, 1, 7, fun _ => 5⟩
      else queue_zero⟩
    [2, 1] 2 ⟨rfl, rfl, trivial⟩ (by decide)).imp
    (fun _ h => ⟨h.1, h.2.1 (by decide)⟩)

/-- C16 as stated fails: a mailbox at address 1 that is not in the (empty)
registry, with head 3, tail 1, size 7 and subscription words 5, is handed to
`os_queue_destroy`; the call returns 0 and the mailbox keeps all of these. -/
theorem queue_destroy_unregistered_not_wiped :
    (os_queue_destroy 1
        ⟨0, none, fun x => if x = 1 then
          ⟨none, some (fun _ => ⟨none, none, 0, 0, []⟩), 3, 1, 7, fun _ => 5⟩
          else queue_zero⟩
        (some 1)).map
        (fun res => (res.ret, (res.st.mem 1).head, (res.st.mem 1).tail, (res.st.mem 1).size,
          (res.st.mem 1).subscriptions 0))
      = some (0, 3, 1, 7, 5) := by
  decide

/-! ## More on the registry list -/

theorem is_chain_unique {mem : Nat → os_queue_t} :
    ∀ (l1 l2 : List Nat) (o : Option Nat), is_chain mem o l1 → is_chain mem o l2 → l1 = l2 := by
  intro l1
  induction l1 with
  | nil =>
    intro l2 o h1 h2
    cases o with
    | none => cases l2 with
      | nil => rfl
      | cons c l2 => simp [is_chain] at h2
    | some a => simp [is_chain] at h1
  | cons b l1 ih =>
    intro l2 o h1 h2
    cases o with
    | none => simp [is_chain] at h1
    | some a =>
      cases l2 with
      | nil => simp [is_chain] at h2
      | cons c l2 =>
        obtain ⟨rfl, h1b⟩ := h1
        obtain ⟨rfl, h2b⟩ := h2
        rw [ih l2 _ h1b h2b]

theorem is_chain_suffix {mem : Nat → os_queue_t} :
    ∀ (l1 l2 : List Nat) (o : Option Nat), is_chain mem o (l1 ++ l2) →
      ∃ o2, is_chain mem o2 l2 := by
  intro l1
  induction l1 with
  | nil => intro l2 o h; exact ⟨o, h⟩
  | cons b l1 ih =>
    intro l2 o h
    cases o with
    | none => simp [is_chain] at h
    | some a => exact ih l2 _ h.2

/-- A list reached by following `next` pointers up to `NULL` has no address
twice. -/
theorem is_chain_nodup {mem : Nat → os_queue_t} :
    ∀ (l : List Nat) (o : Option Nat), is_chain mem o l → l.Nodup := by
  intro l
  induction l with
  | nil => intro _ _; exact List.nodup_nil
  | cons b l ih =>
    intro o h
    cases o with
    | none => simp [is_chain] at h
    | some a =>
      obtain ⟨rfl, h2⟩ := h
      refine List.nodup_cons.mpr ⟨?_, ih _ h2⟩
      intro hmem
      obtain ⟨l1, l2, hl⟩ := List.append_of_mem hmem
      rw [hl] at h2
      obtain ⟨o2, h3⟩ := is_chain_suffix l1 (a :: l2) _ h2
      cases o2 with
      | none => simp [is_chain] at h3
      | some c =>
        obtain ⟨rfl, h4⟩ := h3
        have h5 := is_chain_unique _ _ _ h2 h4
        have h6 := congrArg List.length h5
        simp at h6
        omega

theorem registry_nodup {s : queue_state} {l : List Nat} (h : registry s l) : l.Nodup :=
  is_chain_nodup l _ h

/-! ## Directed send and receive -/

theorem send_loop_found (m : os_msg_t) (t : Nat) (ht : m.target = some t) :
    ∀ (l : List Nat) (fuel : Nat) (s : queue_state) (o : Option Nat), is_chain s.mem o l →
      l.length ≤ fuel → t ∈ l →
      send_loop m fuel s o =
        some (0, ⟨s.os_errno, s.g_queue_list, Function.update s.mem t (deliver (s.mem t) m)⟩) := by
  intro l
  induction l with
  | nil => intro fuel s o _ _ h; simp at h
  | cons b l ih =>
    intro fuel s o hc hfuel hmem
    cases o with
    | none => simp [is_chain] at hc
    | some c =>
      obtain ⟨rfl, hc2⟩ := hc
      cases fuel with
      | zero => simp at hfuel
      | succ fuel =>
        have hfuel2 : l.length ≤ fuel := by simpa using hfuel
        by_cases htc : t = c
        · subst htc
          simp only [send_loop, ht, if_true]
        · have hne : ¬ m.target = some c := by
            rw [ht]; exact fun h => htc (Option.some.inj h)
          have hmem2 : t ∈ l := by
            rcases List.mem_cons.mp hmem with h1 | h1
            · exact absurd h1 htc
            · exact h1
          simp only [send_loop, if_neg hne]
          exact ih fuel s _ hc2 hfuel2 hmem2

theorem send_loop_not_found (m : os_msg_t) :
    ∀ (l : List Nat) (fuel : Nat) (s : queue_state) (o : Option Nat), is_chain s.mem o l →
      l.length ≤ fuel → (∀ t, m.target = some t → t ∉ l) →
      send_loop m fuel s o = some (-2, s) := by
  intro l
  induction l with
  | nil =>
    intro fuel s o hc _ _
    cases o with
    | none => cases fuel <;> rfl
    | some c => simp [is_chain] at hc
  | cons b l ih =>
    intro fuel s o hc hfuel hnot
    cases o with
    | none => simp [is_chain] at hc
    | some c =>
      obtain ⟨rfl, hc2⟩ := hc
      cases fuel with
      | zero => simp at hfuel
      | succ fuel =>
        have hfuel2 : l.length ≤ fuel := by simpa using hfuel
        have hne : ¬ m.target = some c := fun h => hnot c h (List.mem_cons_self _ _)
        simp only [send_loop, if_neg hne]
        exact ih fuel s _ hc2 hfuel2 (fun t ht h => hnot t ht (List.mem_cons_of_mem _ h))

/-- What `os_queue_send` does with a registered target `t`: it returns 0, leaves
`os_errno` and the list alone, puts the message with source = sender into `t`
and writes no other mailbox. -/
theorem queue_send_found (fuel : Nat) (s : queue_state) (l : List Nat) (a t : Nat)
    (m : os_msg_t) (hreg : registry s l) (hfuel : l.length ≤ fuel) (ht : m.target = some t)
    (hmem : t ∈ l) :
    os_queue_send fuel s (some a) (some m) =
      some ⟨0, ⟨s.os_errno, s.g_queue_list, Function.update s.mem t
          (deliver (s.mem t) ⟨some a, m.target, m.userdata, m.id, m.params⟩)⟩,
        some ⟨some a, m.target, m.userdata, m.id, m.params⟩⟩ := by
  have h := send_loop_found ⟨some a, m.target, m.userdata, m.id, m.params⟩ t ht l fuel s
    s.g_queue_list hreg hfuel hmem
  simp only [os_queue_send, h, Option.map_some']
  rfl

theorem queue_send_absent (fuel : Nat) (s : queue_state) (l : List Nat) (a : Nat)
    (m : os_msg_t) (hreg : registry s l) (hfuel : l.length ≤ fuel)
    (hnot : ∀ t, m.target = some t → t ∉ l) :
    os_queue_send fuel s (some a) (some m) =
      some ⟨-1, ⟨OS_ENOENT, s.g_queue_list, s.mem⟩,
        some ⟨some a, m.target, m.userdata, m.id, m.params⟩⟩ := by
  have h := send_loop_not_found ⟨some a, m.target, m.userdata, m.id, m.params⟩ l fuel s
    s.g_queue_list hreg hfuel hnot
  simp only [os_queue_send, h, Option.map_some']
  rfl

/-- C23: with non-null sender and message, a registry list `l` and enough fuel
for it, `os_queue_send` returns -1 with `os_errno = OS_ENOENT` if and only if the
target of the message is not on the registry list (a `NULL` target included),
and then no mailbox and not the list is written. -/
theorem queue_send_enoent (fuel : Nat) (s : queue_state) (l : List Nat) (a : Nat)
    (m : os_msg_t) (hreg : registry s l) (hfuel : l.length ≤ fuel) :
    ∃ res, os_queue_send fuel s (some a) (some m) = some res ∧
      ((res.ret = -1 ∧ res.st.os_errno = OS_ENOENT) ↔ ∀ t, m.target = some t → t ∉ l) ∧
      ((∀ t, m.target = some t → t ∉ l) →
        res.st.mem = s.mem ∧ res.st.g_queue_list = s.g_queue_list) := by
  by_cases h : ∀ t, m.target = some t → t ∉ l
  · exact ⟨_, queue_send_absent fuel s l a m hreg hfuel h,
      ⟨fun _ => h, fun _ => ⟨rfl, rfl⟩⟩, fun _ => ⟨rfl, rfl⟩⟩
  · have h2 : ∃ t, m.target = some t ∧ t ∈ l := by
      by_contra hc
      exact h (fun t ht hmem => hc ⟨t, ht, hmem⟩)
    obtain ⟨t, ht, hmem⟩ := h2
    have h01 : ¬ ((0 : Int) = -1) := by decide
    exact ⟨_, queue_send_found fuel s l a t m hreg hfuel ht hmem,
      ⟨fun hc => absurd hc.1 h01, fun hc => absurd hc h⟩, fun hc => absurd hc h⟩

/-- Witness of C23: mailbox 3 sends to address 4, which was never created, while
the registry holds 3 alone. -/
theorem queue_send_enoent_witness :
    ∃ res, os_queue_send 1
        ⟨0, some 3, fun x => if x = 3 then
          ⟨none, some (fun _ => ⟨none, none, 0, 0, []⟩), 0, 0, 3, fun _ => 0⟩ else queue_zero⟩
        (some 3) (some ⟨none, some 4, 0, 9, []⟩) = some res ∧
      (res.ret = -1 ∧ res.st.os_errno = OS_ENOENT) :=
  (queue_send_enoent 1
    ⟨0, some 3, fun x => if x = 3 then
      ⟨none, some (fun _ => ⟨none, none, 0, 0, []⟩), 0, 0, 3, fun _ => 0⟩ else queue_zero⟩
    [3] 3 ⟨none, some 4, 0, 9, []⟩ ⟨rfl, trivial⟩ (by decide)).imp
    (fun _ h => ⟨h.1, h.2.1.mpr (fun t ht => by cases ht; decide)⟩)

/-- C26: `os_queue_recv` on a mailbox with head = tail and a non-null output
message returns -1 with `os_errno = OS_EAGAIN` and leaves every mailbox, the
registry list and the output message as they were; and whenever
`os_queue_recv` returns -1 with `os_errno = OS_EAGAIN`, the mailbox pointer is
non-null and its head equals its tail. -/
theorem queue_recv_empty (s : queue_state) (a : Nat) (m : os_msg_t) (p : Option Nat)
    (p_msg : Option os_msg_t) :
    ((s.mem a).head = (s.mem a).tail →
        os_queue_recv s (some a) (some m) =
          ⟨-1, ⟨OS_EAGAIN, s.g_queue_list, s.mem⟩, some m⟩) ∧
      ((os_queue_recv s p p_msg).ret = -1 ∧ (os_queue_recv s p p_msg).st.os_errno = OS_EAGAIN →
        ∃ b, p = some b ∧ (s.mem b).head = (s.mem b).tail) := by
  constructor
  · intro h
    simp only [os_queue_recv, h, if_true]
  · intro h
    cases p with
    | none =>
      simp only [os_queue_recv] at h
      exact absurd h.2 (by decide)
    | some b =>
      cases p_msg with
      | none =>
        simp only [os_queue_recv] at h
        exact absurd h.2 (by decide)
      | some m2 =>
        refine ⟨b, rfl, ?_⟩
        by_contra hne
        simp only [os_queue_recv, if_neg hne] at h
        exact absurd h.1 (by decide)

/-- Witness of C26: a receive on an empty mailbox whose cursors stand at 2. -/
theorem queue_recv_empty_witness :
    os_queue_recv ⟨0, some 1, fun _ => ⟨none, none, 2, 2, 3, fun _ => 0⟩⟩ (some 1)
        (some ⟨none, none, 0, 0, []⟩) =
      ⟨-1, ⟨OS_EAGAIN, some 1, fun _ => ⟨none, none, 2, 2, 3, fun _ => 0⟩⟩,
        some ⟨none, none, 0, 0, []⟩⟩ :=
  (queue_recv_empty ⟨0, some 1, fun _ => ⟨none, none, 2, 2, 3, fun _ => 0⟩⟩ 1
    ⟨none, none, 0, 0, []⟩ none none).1 rfl

/-- What `os_queue_post` returns, for non-null sender and message, a registry
list `l` and enough fuel: -1 with `OS_EINVAL` exactly for an id above 8191, and
then no mailbox, not the list and no field of the message is written; 0 for
every id up to 8191, and then no mailbox is written if no registered mailbox has
bit `id & 7` of word `id / 32` set. -/
theorem queue_post_range (fuel : Nat) (s : queue_state) (l : List Nat) (a : Nat)
    (m : os_msg_t) (hreg : registry s l) (hfuel : l.length ≤ fuel) :
    ∃ res, os_queue_post fuel s (some a) (some m) = some res ∧
      ((res.ret = -1 ∧ res.st.os_errno = OS_EINVAL) ↔ 8191 < m.id) ∧
      (8191 < m.id → res.st.mem = s.mem ∧ res.st.g_queue_list = s.g_queue_list ∧
        res.msg = some m) ∧
      (m.id ≤ 8191 → res.ret = 0 ∧
        ((∀ b, b ∈ l → sub_bit_set (s.mem b) (m.id / 32) (m.id &&& 7) = false) →
          res.st.mem = s.mem)) := by
  by_cases h : 8191 < m.id
  · have h1 : m.id > OS_QUEUE_MSGID_MAX - 1 := h
    refine ⟨⟨-1, ⟨OS_EINVAL, s.g_queue_list, s.mem⟩, some m⟩,
      by simp only [os_queue_post, h1, if_true], ⟨fun _ => h, fun _ => ⟨rfl, rfl⟩⟩,
      fun _ => ⟨rfl, rfl, rfl⟩, fun hc => absurd h (by omega)⟩
  · obtain ⟨s1, h1, -, -, h4⟩ := queue_post_spec fuel s l a m hreg (registry_nodup hreg) hfuel
      (by omega)
    have h01 : ¬ ((0 : Int) = -1) := by decide
    refine ⟨_, h1, ⟨fun hc => absurd hc.1 h01, fun hc => absurd hc h⟩,
      fun hc => absurd hc h, fun _ => ⟨rfl, ?_⟩⟩
    intro hnone
    funext b
    rw [h4 b]
    by_cases hb : b ∈ l
    · simp [hnone b hb]
    · simp [hb]

/-- C21: the code on the registry 3, 1 where mailbox 1 holds a single
subscription, to id 0, and mailbox 3 none, with a message of id 8 posted by
mailbox 3: in the one-bit-per-id table no mailbox is subscribed to id 8, the
call returns 0, and yet the tail of mailbox 1 moves from 0 to 1. -/
theorem queue_post_zero_subscribers_changes :
    subscribed_spec ⟨none, some (fun _ => ⟨none, none, 0, 0, []⟩), 0, 0, 3,
        fun i => if i = 0 then 1 else 0⟩ 8 = false ∧
    subscribed_spec ⟨some 1, some (fun _ => ⟨none, none, 0, 0, []⟩), 0, 0, 3, fun _ => 0⟩ 8
      = false ∧
    (os_queue_post 2
        ⟨0, some 3, fun x =>
          if x = 3 then ⟨some 1, some (fun _ => ⟨none, none, 0, 0, []⟩), 0, 0, 3, fun _ => 0⟩
          else if x = 1 then ⟨none, some (fun _ => ⟨none, none, 0, 0, []⟩), 0, 0, 3,
            fun i => if i = 0 then 1 else 0⟩
          else queue_zero⟩
        (some 3) (some ⟨none, none, 7, 8, []⟩)).map
        (fun res => (res.ret, (res.st.mem 1).tail, (res.st.mem 3).tail))
      = some (0, 1, 0) := by
  decide

/-! ## Variadic send -/

theorem va_params_loop (args : List Nat) :
    ∀ n, n ≤ args.length → n ≤ 128 →
      (List.range n).foldl (fun ps i => ps.set i (args.getD i 0)) (List.replicate 128 0) =
        args.take n ++ List.replicate (128 - n) 0 := by
  intro n
  induction n with
  | zero => intro _ _; simp
  | succ n ih =>
    intro h1 h2
    rw [List.range_succ, List.foldl_append, ih (by omega) (by omega)]
    simp only [List.foldl_cons, List.foldl_nil]
    apply List.ext_getElem?
    intro i
    have hlen : (List.take n args).length = n := by
      rw [List.length_take]; omega
    have hlen2 : (List.take (n + 1) args).length = n + 1 := by
      rw [List.length_take]; omega
    rw [List.getElem?_set]
    by_cases hi : n = i
    · subst hi
      rw [if_pos rfl, if_pos (by simp; omega), List.getElem?_append_left (by omega),
        List.getElem?_take_of_lt (Nat.lt_succ_self n), List.getD_eq_getElem?_getD,
        List.getElem?_eq_getElem (by omega)]
      rfl
    · rw [if_neg hi]
      by_cases hlt : i < n
      · rw [List.getElem?_append_left (by omega), List.getElem?_append_left (by omega),
          List.getElem?_take_of_lt hlt, List.getElem?_take_of_lt (by omega)]
      · rw [List.getElem?_append_right (by omega), List.getElem?_append_right (by omega),
          hlen, hlen2]
        by_cases h128 : i < 128
        · rw [List.getElem?_replicate, List.getElem?_replicate, if_pos (by omega),
            if_pos (by omega)]
        · rw [List.getElem?_replicate, List.getElem?_replicate, if_neg (by omega),
            if_neg (by omega)]

theorem va_params_eq (ps : List Nat) (h : ps.length ≤ 128) :
    va_params ps.length ps = ps ++ List.replicate (128 - ps.length) 0 := by
  have h1 := va_params_loop ps ps.length (Nat.le_refl _) h
  rw [List.take_length] at h1
  exact h1

/-- C28: for non-null sender `a` and target `d` and a parameter list `ps` of
length `n`: if `n <= 128`, `os_queue_sendv` returns what `os_queue_send` returns
and leaves the state that `os_queue_send` leaves for the message with target `d`,
the given userdata and id, `params[0..n) = ps` and zeros after; if `n > 128` it
returns -1 with `os_errno = OS_EINVAL` and writes nothing else. -/
theorem queue_sendv_eq_send (fuel : Nat) (s : queue_state) (a d userdata id : Nat)
    (ps : List Nat) (src : Option Nat) :
    (ps.length ≤ 128 →
        os_queue_sendv fuel s (some a) (some d) userdata id ps.length ps =
          (os_queue_send fuel s (some a)
            (some ⟨src, some d, userdata, id, ps ++ List.replicate (128 - ps.length) 0⟩)).map
            (fun r => ⟨r.ret, r.st⟩)) ∧
      (128 < ps.length →
        os_queue_sendv fuel s (some a) (some d) userdata id ps.length ps =
          some ⟨-1, ⟨OS_EINVAL, s.g_queue_list, s.mem⟩⟩) := by
  constructor
  · intro h
    have h1 : ¬ ps.length > OS_QUEUE_PARAM_COUNT := by
      simp only [OS_QUEUE_PARAM_COUNT]; omega
    simp only [os_queue_sendv, if_neg h1, va_params_eq ps h, os_queue_send]
  · intro h
    have h1 : ps.length > OS_QUEUE_PARAM_COUNT := h
    simp only [os_queue_sendv, if_pos h1]

/-- Witness of C28: three parameters sent to the registered mailbox 1. -/
theorem queue_sendv_eq_send_witness :
    os_queue_sendv 1
        ⟨0, some 1, fun _ => ⟨none, some (fun _ => ⟨none, none, 0, 0, []⟩), 0, 0, 3,
          fun _ => 0⟩⟩
        (some 2) (some 1) 42 9 3 [10, 20, 30] =
      (os_queue_send 1
        ⟨0, some 1, fun _ => ⟨none, some (fun _ => ⟨none, none, 0, 0, []⟩), 0, 0, 3,
          fun _ => 0⟩⟩
        (some 2) (some ⟨none, some 1, 42, 9, [10, 20, 30] ++ List.replicate (128 - 3) 0⟩)).map
        (fun r => ⟨r.ret, r.st⟩) :=
  (queue_sendv_eq_send 1
    ⟨0, some 1, fun _ => ⟨none, some (fun _ => ⟨none, none, 0, 0, []⟩), 0, 0, 3, fun _ => 0⟩⟩
    2 1 42 9 [10, 20, 30] none).1 (by decide)

/-! ## The mailbox as a circular buffer -/

theorem queue_used_eq {q : os_queue_t} (h : queue_wf q) :
    queue_used q =
      if q.head ≤ q.tail then q.tail - q.head else q.tail + (q.size + 1) - q.head :=
  used_eq (r := ⟨fun _ => 0, q.size, q.head, q.tail⟩) h

theorem queue_used_le {q : os_queue_t} (h : queue_wf q) : queue_used q ≤ q.size := by
  rw [queue_used_eq h]
  obtain ⟨-, hh, ht⟩ := h
  split <;> omega

theorem queue_used_zero_iff {q : os_queue_t} (h : queue_wf q) :
    queue_used q = 0 ↔ q.head = q.tail := by
  rw [queue_used_eq h]
  obtain ⟨-, hh, ht⟩ := h
  split <;> omega

theorem deliver_wf {q : os_queue_t} (h : queue_wf q) (m : os_msg_t) :
    queue_wf (deliver q m) :=
  ⟨h.1, h.2.1, Nat.and_le_right⟩

theorem set_head_wf {q : os_queue_t} (h : queue_wf q) (x : Nat) :
    queue_wf (set_head q (x &&& q.size)) :=
  ⟨h.1, Nat.and_le_right, h.2.2⟩

/-- A delivery into a mailbox that is not full appends the message to its unread
messages. -/
theorem deliver_unread {q : os_queue_t} (h : queue_wf q) {b : Nat → os_msg_t}
    (hb : q.buffer = some b) (hroom : queue_used q < q.size) (m : os_msg_t) :
    queue_used (deliver q m) = queue_used q + 1 ∧
      queue_unread (deliver q m) = queue_unread q ++ [m] := by
  have hu := queue_used_eq h
  have hu2 := queue_used_eq (deliver_wf h m)
  obtain ⟨⟨k, hk, hs⟩, hh, ht⟩ := h
  have h1 : 1 ≤ q.size := by omega
  have hidx := index_eq hk hs ht h1
  have hused : queue_used (deliver q m) = queue_used q + 1 := by
    rw [hu2]
    simp only [deliver, hidx]
    split at hu <;> split <;> split <;> omega
  refine ⟨hused, ?_⟩
  simp only [queue_unread, hb, hused]
  simp only [deliver, hb, Option.map_some', List.range_succ, List.map_append, List.map_cons,
    List.map_nil]
  congr 1
  · apply List.map_congr_left
    intro i hi
    have hi2 := List.mem_range.mp hi
    have hne : u32_add q.head i &&& q.size ≠ q.tail := by
      rw [index_eq hk hs hh (show i ≤ q.size by omega)]
      split at hu <;> split <;> omega
    rw [Function.update_noteq hne]
  · have heq : u32_add q.head (queue_used q) &&& q.size = q.tail := by
      rw [index_eq hk hs hh (show queue_used q ≤ q.size by omega)]
      split at hu <;> split <;> omega
    rw [heq, Function.update_same]

/-- A delivery into a full mailbox (`size` unread messages) moves tail onto head,
so that the mailbox counts no unread message. -/
theorem deliver_full {q : os_queue_t} (h : queue_wf q) (hfull : queue_used q = q.size)
    (h1 : 1 ≤ q.size) (m : os_msg_t) :
    (deliver q m).tail = q.head ∧ (deliver q m).head = q.head ∧
      queue_used (deliver q m) = 0 := by
  have hu := queue_used_eq h
  have hwf2 := deliver_wf h m
  obtain ⟨⟨k, hk, hs⟩, hh, ht⟩ := h
  have hidx := index_eq hk hs ht h1
  have ht2 : (deliver q m).tail = q.head := by
    simp only [deliver, hidx]
    split at hu <;> split <;> omega
  refine ⟨ht2, rfl, ?_⟩
  rw [queue_used_zero_iff hwf2, ht2]
  rfl

/-- The oldest unread message is the slot at `head`, and advancing `head` leaves
the rest. -/
theorem set_head_unread {q : os_queue_t} (h : queue_wf q) {b : Nat → os_msg_t}
    (hb : q.buffer = some b) (hne : q.head ≠ q.tail) :
    queue_unread q =
      b q.head :: queue_unread (set_head q (u32_add q.head 1 &&& q.size)) := by
  have hu := queue_used_eq h
  have hu2 := queue_used_eq (set_head_wf h (u32_add q.head 1))
  have hle := queue_used_le h
  obtain ⟨⟨k, hk, hs⟩, hh, ht⟩ := h
  have h1 : 1 ≤ q.size := by omega
  have hidx := index_eq hk hs hh h1
  have hused : queue_used q =
      queue_used (set_head q (u32_add q.head 1 &&& q.size)) + 1 := by
    rw [hu2]
    simp only [set_head, hidx]
    split at hu <;> split <;> split <;> omega
  have hbuf2 : (set_head q (u32_add q.head 1 &&& q.size)).buffer = some b := hb
  have hhead2 : (set_head q (u32_add q.head 1 &&& q.size)).head =
      u32_add q.head 1 &&& q.size := rfl
  have hsize2 : (set_head q (u32_add q.head 1 &&& q.size)).size = q.size := rfl
  rw [hused] at hle
  simp only [queue_unread, hb, hbuf2, hhead2, hsize2]
  rw [hused]
  generalize queue_used (set_head q (u32_add q.head 1 &&& q.size)) = u2 at hle
  rw [List.range_succ_eq_map, List.map_cons, List.map_map]
  congr 1
  · rw [index_eq hk hs hh (Nat.zero_le _)]
    simp [hh]
  · apply List.map_congr_left
    intro i hi
    have hi2 := List.mem_range.mp hi
    simp only [Function.comp]
    congr 1
    rw [index_eq hk hs Nat.and_le_right (show i ≤ q.size by omega), hidx,
      index_eq hk hs hh (show i + 1 ≤ q.size by omega)]
    split <;> split <;> split <;> omega

/-- C24: with registry list `l`, enough fuel, non-null sender `a` and a message
whose target `t` is on the list, has storage, a power-of-two capacity with
cursors within the mask and fewer than `size = capacity - 1` unread messages:
`os_queue_send` returns 0, the unread messages of `t` become the former ones
followed by the message with source = `a` and all other fields as given, the
head of `t` stays, and every other mailbox is unchanged. -/
theorem queue_send_appends (fuel : Nat) (s : queue_state) (l : List Nat) (a t : Nat)
    (m : os_msg_t) (b : Nat → os_msg_t) (hreg : registry s l) (hfuel : l.length ≤ fuel)
    (ht : m.target = some t) (hmem : t ∈ l) (hwf : queue_wf (s.mem t))
    (hb : (s.mem t).buffer = some b) (hroom : queue_used (s.mem t) < (s.mem t).size) :
    ∃ res, os_queue_send fuel s (some a) (some m) = some res ∧ res.ret = 0 ∧
      queue_unread (res.st.mem t) =
        queue_unread (s.mem t) ++ [⟨some a, m.target, m.userdata, m.id, m.params⟩] ∧
      (res.st.mem t).head = (s.mem t).head ∧
      ∀ c, c ≠ t → res.st.mem c = s.mem c := by
  refine ⟨_, queue_send_found fuel s l a t m hreg hfuel ht hmem, rfl, ?_, ?_, ?_⟩
  · simp only [Function.update_same]
    exact (deliver_unread hwf hb hroom _).2
  · simp only [Function.update_same]
    rfl
  · intro c hc
    simp only [Function.update_noteq hc]

/-- Witness of C24: mailbox 1 of capacity 4 holds one unread message at slot 3
and receives a second one, which wraps to slot 0. -/
theorem queue_send_appends_witness :
    ∃ res, os_queue_send 1
        ⟨0, some 1, fun _ => ⟨none, some (fun i => ⟨none, none, 0, i, []⟩), 3, 0, 3,
          fun _ => 0⟩⟩
        (some 2) (some ⟨none, some 1, 42, 9, []⟩) = some res ∧ res.ret = 0 ∧
      queue_unread (res.st.mem 1) =
        queue_unread (⟨none, some (fun i => ⟨none, none, 0, i, []⟩), 3, 0, 3, fun _ => 0⟩ :
          os_queue_t) ++ [⟨some 2, some 1, 42, 9, []⟩] :=
  (queue_send_appends 1
    ⟨0, some 1, fun _ => ⟨none, some (fun i => ⟨none, none, 0, i, []⟩), 3, 0, 3, fun _ => 0⟩⟩
    [1] 2 1 ⟨none, some 1, 42, 9, []⟩ (fun i => ⟨none, none, 0, i, []⟩) ⟨rfl, trivial⟩
    (by decide) rfl (by decide) ⟨⟨2, by decide, rfl⟩, by decide, by decide⟩ rfl
    (by decide)).imp (fun _ h => ⟨h.1, h.2.1, h.2.2.1⟩)

/-- C25, as the code has it: with registry list `l`, enough fuel and a target `t`
on the list that has storage `b`, a power-of-two capacity of at least 2 and
`size = capacity - 1` unread messages, `os_queue_send` returns 0, writes the
message into the one slot that held no unread message and moves tail onto head:
head stays, the mailbox counts no unread message, the next `os_queue_recv` on it
returns -1 with `os_errno = OS_EAGAIN`, and every other mailbox is unchanged. -/
theorem queue_send_full_empties (fuel : Nat) (s : queue_state) (l : List Nat) (a t : Nat)
    (m m0 : os_msg_t) (b : Nat → os_msg_t) (hreg : registry s l) (hfuel : l.length ≤ fuel)
    (ht : m.target = some t) (hmem : t ∈ l) (hwf : queue_wf (s.mem t))
    (hb : (s.mem t).buffer = some b) (hfull : queue_used (s.mem t) = (s.mem t).size)
    (h1 : 1 ≤ (s.mem t).size) :
    ∃ res, os_queue_send fuel s (some a) (some m) = some res ∧ res.ret = 0 ∧
      (res.st.mem t).buffer = some (Function.update b (s.mem t).tail
        ⟨some a, m.target, m.userdata, m.id, m.params⟩) ∧
      (res.st.mem t).head = (s.mem t).head ∧ (res.st.mem t).tail = (s.mem t).head ∧
      queue_unread (res.st.mem t) = [] ∧
      (os_queue_recv res.st (some t) (some m0)).ret = -1 ∧
      (os_queue_recv res.st (some t) (some m0)).st.os_errno = OS_EAGAIN ∧
      (os_queue_recv res.st (some t) (some m0)).msg = some m0 ∧
      ∀ c, c ≠ t → res.st.mem c = s.mem c := by
  obtain ⟨h2, h3, h4⟩ := deliver_full hwf hfull h1 ⟨some a, m.target, m.userdata, m.id, m.params⟩
  have h5 : (deliver (s.mem t) ⟨some a, m.target, m.userdata, m.id, m.params⟩).head =
      (deliver (s.mem t) ⟨some a, m.target, m.userdata, m.id, m.params⟩).tail := by
    rw [h2, h3]
  refine ⟨_, queue_send_found fuel s l a t m hreg hfuel ht hmem, rfl, ?_, ?_, ?_, ?_, ?_, ?_, ?_,
    ?_⟩
  · simp only [Function.update_same, deliver, hb, Option.map_some']
  · simp only [Function.update_same]; exact h3
  · simp only [Function.update_same]; exact h2
  · simp only [Function.update_same, queue_unread, h4, List.range_zero, List.map_nil]
    split <;> rfl
  · simp only [os_queue_recv, Function.update_same, h5, if_true]
  · simp only [os_queue_recv, Function.update_same, h5, if_true]
  · simp only [os_queue_recv, Function.update_same, h5, if_true]
  · intro c hc
    simp only [Function.update_noteq hc]

/-- Witness of C25 as amended: mailbox 1 of capacity 4 with the three unread
messages of ids 1, 2, 3 in slots 0, 1, 2 takes a fourth one. -/
theorem queue_send_full_empties_witness :
    ∃ res, os_queue_send 1
        ⟨0, some 1, fun _ => ⟨none, some (fun i => ⟨none, none, 0, i + 1, []⟩), 0, 3, 3,
          fun _ => 0⟩⟩
        (some 2) (some ⟨none, some 1, 42, 9, []⟩) = some res ∧ res.ret = 0 ∧
      (res.st.mem 1).buffer = some (Function.update (fun i => ⟨none, none, 0, i + 1, []⟩) 3
        ⟨some 2, some 1, 42, 9, []⟩) ∧
      (res.st.mem 1).head = 0 ∧ (res.st.mem 1).tail = 0 ∧
      queue_unread (res.st.mem 1) = [] :=
  (queue_send_full_empties 1
    ⟨0, some 1, fun _ => ⟨none, some (fun i => ⟨none, none, 0, i + 1, []⟩), 0, 3, 3,
      fun _ => 0⟩⟩
    [1] 2 1 ⟨none, some 1, 42, 9, []⟩ ⟨none, none, 0, 0, []⟩
    (fun i => ⟨none, none, 0, i + 1, []⟩) ⟨rfl, trivial⟩
    (by decide) rfl (by decide) ⟨⟨2, by decide, rfl⟩, by decide, by decide⟩ rfl
    (by decide) (by decide)).imp
    (fun _ h => ⟨h.1, h.2.1, h.2.2.1, h.2.2.2.1, h.2.2.2.2.1, h.2.2.2.2.2.1⟩)

/-- C25 as stated fails: mailbox 1 of capacity 4 holds the three unread messages
of ids 1, 2, 3; after `os_queue_send` of a message with id 9 has returned 0, the
first `os_queue_recv` on the mailbox returns -1 with `os_errno = OS_EAGAIN` and
not the message with id 2. -/
theorem queue_send_full_then_recv :
    (queue_unread (⟨none, some (fun i => ⟨none, none, 0, i + 1, []⟩), 0, 3, 3, fun _ => 0⟩ :
        os_queue_t)).map (fun x => x.id) = [1, 2, 3] ∧
    (os_queue_send 1
        ⟨0, some 1, fun _ => ⟨none, some (fun i => ⟨none, none, 0, i + 1, []⟩), 0, 3, 3,
          fun _ => 0⟩⟩
        (some 2) (some ⟨none, some 1, 42, 9, []⟩)).map
        (fun res => (res.ret,
          (os_queue_recv res.st (some 1) (some ⟨none, none, 0, 0, []⟩)).ret,
          (os_queue_recv res.st (some 1) (some ⟨none, none, 0, 0, []⟩)).st.os_errno))
      = some (0, -1, OS_EAGAIN) := by
  decide

/-! ## FIFO order -/

theorem sub_bit_set_congr {q1 q2 : os_queue_t} (h : q1.subscriptions = q2.subscriptions)
    (off bit : Nat) : sub_bit_set q1 off bit = sub_bit_set q2 off bit := by
  simp only [sub_bit_set, h]

/-- A call that delivers into the registered mailbox `t` ends, keeps the registry
list and leaves `t` as the delivery statements leave it. -/
theorem call_delivers (fuel : Nat) (s : queue_state) (l : List Nat) (t : Nat)
    (q0 : os_queue_t) (c : queue_call) (m1 : os_msg_t) (hreg : registry s l)
    (hfuel : l.length ≤ fuel) (ht : t ∈ l)
    (hsubs : (s.mem t).subscriptions = q0.subscriptions)
    (hdel : delivered_message t q0 c = some m1) :
    ∃ s1, c.run fuel s = some s1 ∧ registry s1 l ∧ s1.mem t = deliver (s.mem t) m1 := by
  cases c with
  | sub p id => simp [delivered_message] at hdel
  | unsub p id => simp [delivered_message] at hdel
  | recv p p_msg => simp [delivered_message] at hdel
  | send p msg =>
    cases p with
    | none => simp [delivered_message] at hdel
    | some a =>
      cases msg with
      | none => simp [delivered_message] at hdel
      | some m =>
        simp only [delivered_message] at hdel
        by_cases htgt : m.target = some t
        · rw [if_pos htgt] at hdel
          cases hdel
          refine ⟨⟨s.os_errno, s.g_queue_list, Function.update s.mem t
              (deliver (s.mem t) ⟨some a, m.target, m.userdata, m.id, m.params⟩)⟩,
            by simp only [queue_call.run,
              queue_send_found fuel s l a t m hreg hfuel htgt ht, Option.map_some'], ?_, ?_⟩
          · exact registry_update hreg _ t _ rfl
          · simp only [Function.update_same]
        · rw [if_neg htgt] at hdel
          cases hdel
  | post p msg =>
    cases p with
    | none => simp [delivered_message] at hdel
    | some a =>
      cases msg with
      | none => simp [delivered_message] at hdel
      | some m =>
        simp only [delivered_message] at hdel
        by_cases hc : m.id ≤ OS_QUEUE_MSGID_MAX - 1 ∧
            sub_bit_set q0 (m.id / 32) (m.id &&& 7) = true
        · rw [if_pos hc] at hdel
          cases hdel
          have hid : m.id ≤ 8191 := hc.1
          obtain ⟨s1, h1, -, h3, h4⟩ := queue_post_spec fuel s l a m hreg (registry_nodup hreg)
            hfuel hid
          refine ⟨s1, by simp only [queue_call.run, h1, Option.map_some'], ?_, ?_⟩
          · have hnext : ∀ x, (s1.mem x).next = (s.mem x).next := by
              intro x
              rw [h4 x]
              split <;> rfl
            have hreg2 : is_chain s1.mem s.g_queue_list l :=
              (is_chain_congr hnext l _).mpr hreg
            simp only [registry, h3]
            exact hreg2
          · rw [h4 t, if_pos ⟨ht, by rw [sub_bit_set_congr hsubs]; exact hc.2⟩]
        · rw [if_neg hc] at hdel
          cases hdel

/-- A sequence of at most `size - used` deliveries into the registered mailbox
`t` ends and appends the delivered messages, in order, to the unread messages of
`t`. -/
theorem deliveries_unread (fuel : Nat) (l : List Nat) (t : Nat) (q0 : os_queue_t) :
    ∀ (calls : List queue_call) (s : queue_state), registry s l → l.length ≤ fuel → t ∈ l →
      (s.mem t).subscriptions = q0.subscriptions → queue_wf (s.mem t) →
      (∃ b, (s.mem t).buffer = some b) →
      queue_used (s.mem t) + calls.length ≤ (s.mem t).size →
      (∀ c, c ∈ calls → (delivered_message t q0 c).isSome = true) →
      ∃ s1, run_queue_calls fuel s calls = some s1 ∧ registry s1 l ∧ queue_wf (s1.mem t) ∧
        (∃ b1, (s1.mem t).buffer = some b1) ∧
        queue_unread (s1.mem t) =
          queue_unread (s.mem t) ++ calls.filterMap (delivered_message t q0) := by
  intro calls
  induction calls with
  | nil =>
    intro s hreg _ _ _ hwf hb _ _
    exact ⟨s, rfl, hreg, hwf, hb, by simp⟩
  | cons c cs ih =>
    intro s hreg hfuel ht hsubs hwf hb hroom hdel
    obtain ⟨m1, hm1⟩ := Option.isSome_iff_exists.mp (hdel c (List.mem_cons_self _ _))
    obtain ⟨s1, hrun, hreg1, hmem1⟩ := call_delivers fuel s l t q0 c m1 hreg hfuel ht hsubs hm1
    obtain ⟨b, hb1⟩ := hb
    have hlen : (c :: cs).length = cs.length + 1 := rfl
    obtain ⟨hu, hun⟩ := deliver_unread hwf hb1 (by omega) m1
    obtain ⟨s2, hrun2, hreg2, hwf2, hb2, hun2⟩ := ih s1 hreg1 hfuel ht
      (by rw [hmem1]; exact hsubs) (by rw [hmem1]; exact deliver_wf hwf m1)
      ⟨Function.update b (s.mem t).tail m1, by rw [hmem1]; simp [deliver, hb1]⟩
      (by rw [hmem1, hu]; simp only [deliver]; omega)
      (fun c2 hc2 => hdel c2 (List.mem_cons_of_mem _ hc2))
    refine ⟨s2, by simp only [run_queue_calls, hrun, hrun2], hreg2, hwf2, hb2, ?_⟩
    rw [hun2, hmem1, hun, List.filterMap_cons, hm1, List.append_assoc]
    rfl

/-- Successive receives on a mailbox hand out its unread messages oldest first,
each with return value 0 and `os_errno` untouched, and then fail with
`OS_EAGAIN`; the tail never moves. -/
theorem recv_many_spec (t : Nat) (m0 : os_msg_t) :
    ∀ (msgs : List os_msg_t) (s : queue_state), queue_wf (s.mem t) →
      (∃ b, (s.mem t).buffer = some b) → queue_unread (s.mem t) = msgs →
      (recv_many t m0 (msgs.length + 1) s).2 =
          msgs.map (fun m => ((0 : Int), s.os_errno, some m)) ++ [(-1, OS_EAGAIN, some m0)] ∧
        ((recv_many t m0 (msgs.length + 1) s).1.mem t).tail = (s.mem t).tail := by
  intro msgs
  induction msgs with
  | nil =>
    intro s hwf hb hun
    obtain ⟨b, hb⟩ := hb
    have hused : queue_used (s.mem t) = 0 := by
      simp only [queue_unread, hb, List.map_eq_nil_iff, List.range_eq_nil] at hun
      exact hun
    have hht := (queue_used_zero_iff hwf).mp hused
    simp only [recv_many, os_queue_recv, hht, if_true, List.length_nil, List.map_nil,
      List.nil_append, and_self]
  | cons m rest ih =>
    intro s hwf hb hun
    obtain ⟨b, hb⟩ := hb
    have hne : (s.mem t).head ≠ (s.mem t).tail := by
      intro hht
      have hused := (queue_used_zero_iff hwf).mpr hht
      simp [queue_unread, hb, hused] at hun
    rw [set_head_unread hwf hb hne] at hun
    obtain ⟨hm, hrest⟩ := List.cons.inj hun
    have hrecv : os_queue_recv s (some t) (some m0) =
        ⟨0, ⟨s.os_errno, s.g_queue_list, Function.update s.mem t
          (set_head (s.mem t) (u32_add (s.mem t).head 1 &&& (s.mem t).size))⟩, some m⟩ := by
      simp only [os_queue_recv, if_neg hne, read_slot, hb, hm]
    obtain ⟨h1, h2⟩ := ih
      ⟨s.os_errno, s.g_queue_list, Function.update s.mem t
        (set_head (s.mem t) (u32_add (s.mem t).head 1 &&& (s.mem t).size))⟩
      (by simp only [Function.update_same]; exact set_head_wf hwf _)
      ⟨b, by simp only [Function.update_same]; exact hb⟩
      (by simp only [Function.update_same]; exact hrest)
    constructor
    · simp only [List.length_cons, List.map_cons, List.cons_append]
      rw [recv_many]
      simp only [hrecv, h1]
    · simp only [List.length_cons]
      rw [recv_many]
      simp only [hrecv, h2, Function.update_same]
      rfl

theorem filterMap_length_of_isSome {α β : Type} (f : α → Option β) :
    ∀ (xs : List α), (∀ x, x ∈ xs → (f x).isSome = true) →
      (xs.filterMap f).length = xs.length := by
  intro xs
  induction xs with
  | nil => intro _; rfl
  | cons x xs ih =>
    intro h
    obtain ⟨y, hy⟩ := Option.isSome_iff_exists.mp (h x (List.mem_cons_self _ _))
    rw [List.filterMap_cons, hy]
    simp only [List.length_cons]
    rw [ih (fun z hz => h z (List.mem_cons_of_mem _ hz))]

/-- C27: for a registered mailbox `t` with storage and power-of-two capacity that
is empty (head = tail at any slot), and `k <= size = capacity - 1` calls of
`os_queue_send`/`os_queue_post` that each deliver into `t`, run with enough
fuel: the calls end, and `k + 1` calls of `os_queue_recv` on `t` then return 0
with the `k` delivered messages in delivery order (source = the sender) and at
last -1 with `os_errno = OS_EAGAIN` and the output message untouched; the tail
of `t` is the same after the receives as before them. -/
theorem queue_fifo (fuel : Nat) (s : queue_state) (l : List Nat) (t : Nat) (m0 : os_msg_t)
    (b : Nat → os_msg_t) (calls : List queue_call) (hreg : registry s l)
    (hfuel : l.length ≤ fuel) (ht : t ∈ l) (hwf : queue_wf (s.mem t))
    (hb : (s.mem t).buffer = some b) (hempty : (s.mem t).head = (s.mem t).tail)
    (hk : calls.length ≤ (s.mem t).size)
    (hdel : ∀ c, c ∈ calls → (delivered_message t (s.mem t) c).isSome = true) :
    ∃ s1, run_queue_calls fuel s calls = some s1 ∧
      (recv_many t m0 (calls.length + 1) s1).2 =
        (calls.filterMap (delivered_message t (s.mem t))).map
          (fun m => ((0 : Int), s1.os_errno, some m)) ++ [(-1, OS_EAGAIN, some m0)] ∧
      ((recv_many t m0 (calls.length + 1) s1).1.mem t).tail = (s1.mem t).tail := by
  have hused : queue_used (s.mem t) = 0 := (queue_used_zero_iff hwf).mpr hempty
  obtain ⟨s1, hrun, -, hwf1, hb1, hun1⟩ := deliveries_unread fuel l t (s.mem t) calls s hreg
    hfuel ht rfl hwf ⟨b, hb⟩ (by omega) hdel
  have hun0 : queue_unread (s.mem t) = [] := by
    simp only [queue_unread, hb, hused, List.range_zero, List.map_nil]
  rw [hun0, List.nil_append] at hun1
  have hspec := recv_many_spec t m0 _ s1 hwf1 hb1 hun1
  rw [filterMap_length_of_isSome _ calls hdel] at hspec
  exact ⟨s1, hrun, hspec.1, hspec.2⟩

/-- Witness of C27: mailbox 1 of capacity 4, empty with both cursors at 3 and
subscribed to id 5, gets a send from mailbox 2 and then a post of id 5 from
mailbox 3. -/
theorem queue_fifo_witness :
    ∃ s1, run_queue_calls 1
        ⟨0, some 1, fun _ => ⟨none, some (fun _ => ⟨none, none, 0, 0, []⟩), 3, 3, 3,
          fun i => if i = 0 then 32 else 0⟩⟩
        [queue_call.send (some 2) (some ⟨none, some 1, 10, 77, []⟩),
          queue_call.post (some 3) (some ⟨none, none, 20, 5, []⟩)] = some s1 ∧
      (recv_many 1 ⟨none, none, 0, 0, []⟩ (2 + 1) s1).2 =
        ([queue_call.send (some 2) (some ⟨none, some 1, 10, 77, []⟩),
          queue_call.post (some 3) (some ⟨none, none, 20, 5, []⟩)].filterMap
          (delivered_message 1 ⟨none, some (fun _ => ⟨none, none, 0, 0, []⟩), 3, 3, 3,
            fun i => if i = 0 then 32 else 0⟩)).map
          (fun m => ((0 : Int), s1.os_errno, some m)) ++
          [(-1, OS_EAGAIN, some ⟨none, none, 0, 0, []⟩)] ∧
      ((recv_many 1 ⟨none, none, 0, 0, []⟩ (2 + 1) s1).1.mem 1).tail = (s1.mem 1).tail :=
  queue_fifo 1
    ⟨0, some 1, fun _ => ⟨none, some (fun _ => ⟨none, none, 0, 0, []⟩), 3, 3, 3,
      fun i => if i = 0 then 32 else 0⟩⟩
    [1] 1 ⟨none, none, 0, 0, []⟩ (fun _ => ⟨none, none, 0, 0, []⟩)
    [queue_call.send (some 2) (some ⟨none, some 1, 10, 77, []⟩),
      queue_call.post (some 3) (some ⟨none, none, 20, 5, []⟩)]
    ⟨rfl, trivial⟩ (by decide) (by decide) ⟨⟨2, by decide, rfl⟩, by decide, by decide⟩ rfl rfl
    (by decide) (by
      intro c hc
      simp only [List.mem_cons, List.mem_singleton, List.mem_nil_iff, or_false] at hc
      rcases hc with rfl | rfl <;> decide)

/-! ## The subscription scenario -/

theorem queue_init_eq (s : queue_state) (a : Nat) (pool : Nat → os_msg_t) {C k : Nat}
    (hC : C = 2 ^ k) (h32 : C < 2 ^ 32) :
    os_queue_init s (some a) (some pool) C =
      ⟨0, ⟨s.os_errno, some a, Function.update s.mem a
        ⟨s.g_queue_list, some pool, 0, 0, C - 1, fun _ => 0⟩⟩⟩ := by
  obtain ⟨h3, h4⟩ := pow2_check hC h32
  rw [h3] at h4
  simp [os_queue_init, h3, h4, queue_zero]

theorem registry_cons {s : queue_state} {l : List Nat} (hreg : registry s l) (e : Int)
    (a : Nat) (ha : a ∉ l) (q : os_queue_t) (hq : q.next = s.g_queue_list) :
    registry ⟨e, some a, Function.update s.mem a q⟩ (a :: l) := by
  simp only [registry, is_chain, Function.update_same, true_and, hq]
  exact (is_chain_update _ l _ ha).mpr hreg

theorem one_and_mask {C k : Nat} (hC : C = 2 ^ k) (h32 : C < 2 ^ 32) (h2 : 2 ≤ C) :
    u32_add 0 1 &&& (C - 1) = 1 := by
  have hk := pow2_exponent_le hC h32
  rw [index_eq hk (show C - 1 + 1 = 2 ^ k by omega) (Nat.zero_le _) (show 1 ≤ C - 1 by omega),
    if_pos (by omega)]

theorem sub_bit_set_zero (q : os_queue_t) (off bit : Nat) (h : q.subscriptions off = 0) :
    sub_bit_set q off bit = false := by
  simp [sub_bit_set, h]

/-- C22: on any registry list `l` that holds neither `a` nor `b`, for every
power-of-two capacity `C >= 2`, every message `m` with id `K <= 8191` and any
user_data, with enough fuel: after `a` and `b` are created (both creations
return 0), `b` subscribes to `K` (returns 0) and `a` posts `m`, the first
receive on `b` returns 0 with the message `m` and source `a`, the second receive
on `b` returns -1 with `OS_EAGAIN`, and the receive on `a` returns -1 with
`OS_EAGAIN`. -/
theorem queue_subscription_scenario (fuel : Nat) (s0 : queue_state) (l : List Nat)
    (a b : Nat) (poolA poolB : Nat → os_msg_t) (C : Nat) (m m0 : os_msg_t)
    (hreg : registry s0 l) (ha : a ∉ l) (hb : b ∉ l) (hab : a ≠ b) (hC : ∃ k, C = 2 ^ k)
    (h2 : 2 ≤ C) (h32 : C < 2 ^ 32) (hid : m.id ≤ 8191) (hfuel : l.length + 2 ≤ fuel) :
    ∃ r1 r2 r3, subscription_scenario fuel s0 a b poolA poolB C m m0 =
        some (0, 0, 0, r1, r2, r3) ∧
      r1.ret = 0 ∧ r1.msg = some ⟨some a, m.target, m.userdata, m.id, m.params⟩ ∧
      r2.ret = -1 ∧ r2.st.os_errno = OS_EAGAIN ∧ r2.msg = some m0 ∧
      r3.ret = -1 ∧ r3.st.os_errno = OS_EAGAIN ∧ r3.msg = some m0 := by
  obtain ⟨k, hk⟩ := hC
  have hone := one_and_mask hk h32 h2
  have hA := queue_init_eq s0 a poolA hk h32
  have hregA : registry (os_queue_init s0 (some a) (some poolA) C).st (a :: l) := by
    rw [hA]; exact registry_cons hreg _ a ha _ rfl
  have hB := queue_init_eq (os_queue_init s0 (some a) (some poolA) C).st b poolB hk h32
  have hbl : b ∉ a :: l := by
    intro h
    rcases List.mem_cons.mp h with h1 | h1
    · exact hab h1.symm
    · exact hb h1
  have hregB : registry
      (os_queue_init (os_queue_init s0 (some a) (some poolA) C).st (some b) (some poolB) C).st
      (b :: a :: l) := by
    rw [hB]; exact registry_cons hregA _ b hbl _ rfl
  have hid2 : ¬ m.id > OS_QUEUE_MSGID_MAX - 1 := by
    simp only [OS_QUEUE_MSGID_MAX]; omega
  generalize hsB : (os_queue_init (os_queue_init s0 (some a) (some poolA) C).st (some b)
    (some poolB) C).st = sB at hregB
  have hmemB : sB.mem b = ⟨some a, some poolB, 0, 0, C - 1, fun _ => 0⟩ := by
    rw [← hsB, hB, hA]; simp
  have hmemA : sB.mem a = ⟨s0.g_queue_list, some poolA, 0, 0, C - 1, fun _ => 0⟩ := by
    rw [← hsB, hB, hA]; simp [Function.update_noteq hab]
  have hS : os_queue_sub sB (some b) m.id = ⟨0, ⟨sB.os_errno, sB.g_queue_list,
      Function.update sB.mem b (set_subscription (sB.mem b) (m.id / 32)
        ((sB.mem b).subscriptions (m.id / 32) ||| (1 <<< (m.id &&& 7))))⟩⟩ := by
    simp only [os_queue_sub, hid2, if_false]
  have hregS : registry (os_queue_sub sB (some b) m.id).st (b :: a :: l) := by
    rw [hS]; exact registry_update hregB _ b _ rfl
  obtain ⟨s1, hP, -, -, h4⟩ := queue_post_spec fuel (os_queue_sub sB (some b) m.id).st
    (b :: a :: l) a m hregS (registry_nodup hregS) (by simpa using hfuel) hid
  have hbit : sub_bit_set ((os_queue_sub sB (some b) m.id).st.mem b) (m.id / 32) (m.id &&& 7)
      = true := by
    rw [hS]
    simp only [Function.update_same]
    exact sub_sets_bit _ _ _
  have h1b : s1.mem b = ⟨some a,
      some (Function.update poolB 0 ⟨some a, m.target, m.userdata, m.id, m.params⟩), 0, 1,
      C - 1, Function.update (fun _ => 0) (m.id / 32) (0 ||| (1 <<< (m.id &&& 7)))⟩ := by
    rw [h4 b, if_pos ⟨List.mem_cons_self _ _, hbit⟩, hS]
    simp only [Function.update_same, hmemB, deliver, set_subscription, Option.map_some', hone]
  have h1a : s1.mem a = ⟨s0.g_queue_list, some poolA, 0, 0, C - 1, fun _ => 0⟩ := by
    have hnbit : ¬ (a ∈ b :: a :: l ∧
        sub_bit_set ((os_queue_sub sB (some b) m.id).st.mem a) (m.id / 32) (m.id &&& 7)
          = true) := by
      rw [hS]
      simp only [Function.update_noteq hab, hmemA]
      rw [sub_bit_set_zero _ _ _ rfl]
      simp
    rw [h4 a, if_neg hnbit, hS]
    simp only [Function.update_noteq hab, hmemA]
  have hne : ¬ (s1.mem b).head = (s1.mem b).tail := by
    rw [h1b]; exact (by decide : ¬ ((0 : Nat) = 1))
  have hhead1 : u32_add (s1.mem b).head 1 &&& (s1.mem b).size = 1 := by
    rw [h1b]; exact hone
  have htail1 : (s1.mem b).tail = 1 := by rw [h1b]
  have hslot : read_slot (s1.mem b) m0 = ⟨some a, m.target, m.userdata, m.id, m.params⟩ := by
    rw [h1b]; simp [read_slot]
  have hr1 : os_queue_recv s1 (some b) (some m0) =
      ⟨0, ⟨s1.os_errno, s1.g_queue_list, Function.update s1.mem b (set_head (s1.mem b) 1)⟩,
        some ⟨some a, m.target, m.userdata, m.id, m.params⟩⟩ := by
    simp only [os_queue_recv, if_neg hne, hhead1, hslot]
  have hr2 : os_queue_recv (os_queue_recv s1 (some b) (some m0)).st (some b) (some m0) =
      ⟨-1, ⟨OS_EAGAIN, s1.g_queue_list, Function.update s1.mem b (set_head (s1.mem b) 1)⟩,
        some m0⟩ := by
    rw [hr1]
    have heq : (Function.update s1.mem b (set_head (s1.mem b) 1) b).head =
        (Function.update s1.mem b (set_head (s1.mem b) 1) b).tail := by
      simp only [Function.update_same, set_head, htail1]
    simp only [os_queue_recv, heq, if_true]
  have hr3 : os_queue_recv
      (os_queue_recv (os_queue_recv s1 (some b) (some m0)).st (some b) (some m0)).st (some a)
      (some m0) =
      ⟨-1, ⟨OS_EAGAIN, s1.g_queue_list, Function.update s1.mem b (set_head (s1.mem b) 1)⟩,
        some m0⟩ := by
    rw [hr2]
    have heq : (Function.update s1.mem b (set_head (s1.mem b) 1) a).head =
        (Function.update s1.mem b (set_head (s1.mem b) 1) a).tail := by
      simp only [Function.update_noteq hab, h1a]
    simp only [os_queue_recv, heq, if_true]
  have hretA : (os_queue_init s0 (some a) (some poolA) C).ret = 0 := by rw [hA]
  have hretB : (os_queue_init (os_queue_init s0 (some a) (some poolA) C).st (some b)
      (some poolB) C).ret = 0 := by rw [hB]
  have hretS : (os_queue_sub sB (some b) m.id).ret = 0 := by rw [hS]
  refine ⟨os_queue_recv s1 (some b) (some m0),
    os_queue_recv (os_queue_recv s1 (some b) (some m0)).st (some b) (some m0),
    os_queue_recv (os_queue_recv (os_queue_recv s1 (some b) (some m0)).st (some b)
      (some m0)).st (some a) (some m0), ?_, ?_⟩
  · simp only [subscription_scenario, hsB, hP, Option.map_some', hretA, hretB, hretS]
  · rw [hr3, hr2, hr1]
    exact ⟨rfl, rfl, rfl, rfl, rfl, rfl, rfl, rfl⟩

/-- Witness of C22: the scenario of the specification, capacity 4, id 5 and
user_data 42, with mailboxes at addresses 1 and 2 on an empty registry. -/
theorem queue_subscription_scenario_witness :
    ∃ r1 r2 r3, subscription_scenario 2 ⟨0, none, fun _ => queue_zero⟩ 1 2
        (fun _ => ⟨none, none, 0, 0, []⟩) (fun _ => ⟨none, none, 0, 0, []⟩) 4
        ⟨none, none, 42, 5, []⟩ ⟨none, none, 0, 0, []⟩ = some (0, 0, 0, r1, r2, r3) ∧
      r1.ret = 0 ∧ r1.msg = some ⟨some 1, none, 42, 5, []⟩ ∧
      r2.ret = -1 ∧ r2.st.os_errno = OS_EAGAIN ∧ r2.msg = some ⟨none, none, 0, 0, []⟩ ∧
      r3.ret = -1 ∧ r3.st.os_errno = OS_EAGAIN ∧ r3.msg = some ⟨none, none, 0, 0, []⟩ :=
  queue_subscription_scenario 2 ⟨0, none, fun _ => queue_zero⟩ [] 1 2
    (fun _ => ⟨none, none, 0, 0, []⟩) (fun _ => ⟨none, none, 0, 0, []⟩) 4
    ⟨none, none, 42, 5, []⟩ ⟨none, none, 0, 0, []⟩ trivial (by decide) (by decide) (by decide)
    ⟨2, rfl⟩ (by decide) (by decide) (by decide) (by decide)

/-! ## Cursors stay within the mask -/

theorem cursors_kept_refl (q : os_queue_t) : cursors_kept q q :=
  ⟨rfl, rfl, id, id⟩

theorem cursors_kept_trans {q q1 q2 : os_queue_t} (h1 : cursors_kept q q1)
    (h2 : cursors_kept q1 q2) : cursors_kept q q2 := by
  obtain ⟨a1, a2, a3, a4⟩ := h1
  obtain ⟨b1, b2, b3, b4⟩ := h2
  refine ⟨b1.trans a1, b2.trans a2, fun h => b3 ?_, fun h => b4 ?_⟩
  · rw [a2]; exact Nat.le_trans (a3 h) (Nat.le_of_eq a2)
  · rw [a2]; exact Nat.le_trans (a4 h) (Nat.le_of_eq a2)

theorem cursors_kept_deliver (q : os_queue_t) (m : os_msg_t) : cursors_kept q (deliver q m) :=
  ⟨rfl, rfl, id, fun _ => Nat.and_le_right⟩

theorem cursors_kept_set_subscription (q : os_queue_t) (off word : Nat) :
    cursors_kept q (set_subscription q off word) :=
  ⟨rfl, rfl, fun h => h, fun h => h⟩

theorem cursors_kept_set_head (q : os_queue_t) (x : Nat) :
    cursors_kept q (set_head q (x &&& q.size)) :=
  ⟨rfl, rfl, fun _ => Nat.and_le_right, fun h => h⟩

theorem cursors_kept_update (mem : Nat → os_queue_t) (a : Nat) (q : os_queue_t)
    (h : cursors_kept (mem a) q) (x : Nat) : cursors_kept (mem x) (Function.update mem a q x) := by
  by_cases hx : x = a
  · subst hx; rw [Function.update_same]; exact h
  · rw [Function.update_noteq hx]; exact cursors_kept_refl _

/-- Every call ends (with enough fuel for the registry list), keeps
`g_queue_list` and keeps the cursors of every mailbox within its mask. -/
theorem call_cursors (fuel : Nat) (s : queue_state) (l : List Nat) (c : queue_call)
    (hreg : registry s l) (hfuel : l.length ≤ fuel) :
    ∃ s1, c.run fuel s = some s1 ∧ s1.g_queue_list = s.g_queue_list ∧
      ∀ x, cursors_kept (s.mem x) (s1.mem x) := by
  cases c with
  | sub p id =>
    refine ⟨_, rfl, ?_, ?_⟩
    · cases p with
      | none => rfl
      | some a => simp only [os_queue_sub]; split <;> rfl
    · intro x
      cases p with
      | none => exact cursors_kept_refl _
      | some a =>
        simp only [os_queue_sub]
        split
        · exact cursors_kept_refl _
        · exact cursors_kept_update s.mem a _ (cursors_kept_set_subscription _ _ _) x
  | unsub p id =>
    refine ⟨_, rfl, ?_, ?_⟩
    · cases p with
      | none => rfl
      | some a => simp only [os_queue_unsub]; split <;> rfl
    · intro x
      cases p with
      | none => exact cursors_kept_refl _
      | some a =>
        simp only [os_queue_unsub]
        split
        · exact cursors_kept_refl _
        · exact cursors_kept_update s.mem a _ (cursors_kept_set_subscription _ _ _) x
  | recv p p_msg =>
    refine ⟨_, rfl, ?_, ?_⟩
    · cases p with
      | none => rfl
      | some a =>
        cases p_msg with
        | none => rfl
        | some m => simp only [os_queue_recv]; split <;> rfl
    · intro x
      cases p with
      | none => exact cursors_kept_refl _
      | some a =>
        cases p_msg with
        | none => exact cursors_kept_refl _
        | some m =>
          simp only [os_queue_recv]
          split
          · exact cursors_kept_refl _
          · exact cursors_kept_update s.mem a _ (cursors_kept_set_head _ _) x
  | send p msg =>
    cases p with
    | none => exact ⟨_, rfl, rfl, fun x => cursors_kept_refl _⟩
    | some a =>
      cases msg with
      | none => exact ⟨_, rfl, rfl, fun x => cursors_kept_refl _⟩
      | some m =>
        by_cases h : ∃ t, m.target = some t ∧ t ∈ l
        · obtain ⟨t, ht, hmem⟩ := h
          refine ⟨⟨s.os_errno, s.g_queue_list, Function.update s.mem t
              (deliver (s.mem t) ⟨some a, m.target, m.userdata, m.id, m.params⟩)⟩,
            by simp only [queue_call.run, queue_send_found fuel s l a t m hreg hfuel ht hmem,
              Option.map_some'], rfl, ?_⟩
          exact cursors_kept_update s.mem t _ (cursors_kept_deliver _ _)
        · refine ⟨⟨OS_ENOENT, s.g_queue_list, s.mem⟩,
            by simp only [queue_call.run, queue_send_absent fuel s l a m hreg hfuel
              (fun t ht hmem => h ⟨t, ht, hmem⟩), Option.map_some'], rfl,
            fun x => cursors_kept_refl _⟩
  | post p msg =>
    cases p with
    | none => exact ⟨_, rfl, rfl, fun x => cursors_kept_refl _⟩
    | some a =>
      cases msg with
      | none => exact ⟨_, rfl, rfl, fun x => cursors_kept_refl _⟩
      | some m =>
        by_cases h : 8191 < m.id
        · have h1 : m.id > OS_QUEUE_MSGID_MAX - 1 := h
          exact ⟨⟨OS_EINVAL, s.g_queue_list, s.mem⟩,
            by simp only [queue_call.run, os_queue_post, h1, if_true, Option.map_some'], rfl,
            fun x => cursors_kept_refl _⟩
        · obtain ⟨s1, h1, -, h3, h4⟩ := queue_post_spec fuel s l a m hreg (registry_nodup hreg)
            hfuel (by omega)
          refine ⟨s1, by simp only [queue_call.run, h1, Option.map_some'], h3, ?_⟩
          intro x
          rw [h4 x]
          split
          · exact cursors_kept_deliver _ _
          · exact cursors_kept_refl _

/-- A sequence of calls ends (with enough fuel), keeps the registry list and
keeps the cursors of every mailbox within its mask. -/
theorem calls_cursors (fuel : Nat) (l : List Nat) :
    ∀ (calls : List queue_call) (s : queue_state), registry s l → l.length ≤ fuel →
      ∃ s1, run_queue_calls fuel s calls = some s1 ∧ registry s1 l ∧
        ∀ x, cursors_kept (s.mem x) (s1.mem x) := by
  intro calls
  induction calls with
  | nil => intro s hreg _; exact ⟨s, rfl, hreg, fun x => cursors_kept_refl _⟩
  | cons c cs ih =>
    intro s hreg hfuel
    obtain ⟨s1, h1, h2, h3⟩ := call_cursors fuel s l c hreg hfuel
    have hreg1 : registry s1 l := by
      have := (is_chain_congr (fun x => (h3 x).1) l s.g_queue_list).mpr hreg
      simp only [registry, h2]
      exact this
    obtain ⟨s2, h4, h5, h6⟩ := ih s1 hreg1 hfuel
    exact ⟨s2, by simp only [run_queue_calls, h1, h4], h5,
      fun x => cursors_kept_trans (h3 x) (h6 x)⟩

/-- The mailbox invariant for a power-of-two capacity: after `os_queue_init` of
a mailbox `t` that is not on the registry list `l`, with a power-of-two `C`
below `2 ^ 32`, and any sequence of sub, unsub, send, post and recv calls (with
any arguments, and enough fuel for the list), the calls end and `t` has
`size = C - 1`, head and tail at most `C - 1` and hence below `C`, and at most
`C - 1` unread messages. -/
theorem queue_cursor_invariant (fuel : Nat) (s0 : queue_state) (l : List Nat) (t : Nat)
    (pool : Nat → os_msg_t) (C : Nat) (calls : List queue_call) (hreg : registry s0 l)
    (ht : t ∉ l) (hC : ∃ k, C = 2 ^ k) (h32 : C < 2 ^ 32) (hfuel : l.length + 1 ≤ fuel) :
    (os_queue_init s0 (some t) (some pool) C).ret = 0 ∧
      ∃ s1, run_queue_calls fuel (os_queue_init s0 (some t) (some pool) C).st calls = some s1 ∧
        (s1.mem t).size = C - 1 ∧ (s1.mem t).head ≤ C - 1 ∧ (s1.mem t).tail ≤ C - 1 ∧
        (s1.mem t).head < C ∧ (s1.mem t).tail < C ∧ queue_used (s1.mem t) ≤ C - 1 := by
  obtain ⟨k, hk⟩ := hC
  have h1 : 1 ≤ C := hk ▸ Nat.one_le_two_pow
  have hI := queue_init_eq s0 t pool hk h32
  have hregI : registry (os_queue_init s0 (some t) (some pool) C).st (t :: l) := by
    rw [hI]; exact registry_cons hreg _ t ht _ rfl
  obtain ⟨s1, h2, -, h4⟩ := calls_cursors fuel (t :: l) calls _ hregI (by simpa using hfuel)
  obtain ⟨-, hsize, hhead, htail⟩ := h4 t
  rw [hI] at hsize hhead htail
  simp only [Function.update_same] at hsize hhead htail
  have hh := hhead (Nat.zero_le _)
  have htl := htail (Nat.zero_le _)
  rw [hsize] at hh htl
  refine ⟨by rw [hI], s1, h2, hsize, hh, htl, by omega, by omega, ?_⟩
  simp only [queue_used]
  rw [hsize]
  exact Nat.and_le_right

/-- C29: the code on a mailbox created with capacity `C = 0` and storage of 0
messages: `os_queue_init` returns 0 although 0 is no power of two, the mask is
`size = 0xFFFFFFFF`, and the next `os_queue_send` to the mailbox returns 0,
writes buffer slot 0 (an index that is not below `C`) and moves tail to 1. -/
theorem queue_init_zero_then_send :
    (¬ ∃ k, 0 = 2 ^ k) ∧
    (os_queue_init ⟨0, none, fun _ => queue_zero⟩ (some 1)
      (some (fun _ => ⟨none, none, 0, 0, []⟩)) 0).ret = 0 ∧
    ((os_queue_init ⟨0, none, fun _ => queue_zero⟩ (some 1)
      (some (fun _ => ⟨none, none, 0, 0, []⟩)) 0).st.mem 1).size = 4294967295 ∧
    (os_queue_send 1 (os_queue_init ⟨0, none, fun _ => queue_zero⟩ (some 1)
        (some (fun _ => ⟨none, none, 0, 0, []⟩)) 0).st (some 2)
        (some ⟨none, some 1, 42, 9, []⟩)).map
        (fun res => (res.ret, (res.st.mem 1).tail,
          (res.st.mem 1).buffer.map (fun b => b 0)))
      = some (0, 1, some ⟨some 2, some 1, 42, 9, []⟩) := by
  refine ⟨?_, by decide, by decide, by decide⟩
  rintro ⟨k, hk⟩
  have := Nat.one_le_two_pow (n := k)
  omega

/-! ## Variable-length packing -/

/-- C30: the code at `v = 0x010203040506`, a value of six bytes, with a buffer of
nine bytes `0xEE`: `os_bytes_unpack` returns 7 and writes the length byte 6, but
then 02 03 04 05 06 and leaves the seventh byte as it was, instead of
01 02 03 04 05 06; `os_bytes_pack` of these six bytes gives `0x0203040506EE`,
not `v`. -/
theorem bytes_unpack_six_bytes :
    byte_count 0x010203040506 = 6 ∧
    (os_bytes_unpack 0x010203040506 (some (fun _ => 0xEE)) 9).1 = 7 ∧
    (os_bytes_unpack 0x010203040506 (some (fun _ => 0xEE)) 9).2.map
        (fun b => (List.range 7).map b) = some [6, 2, 3, 4, 5, 6, 0xEE] ∧
    big_endian_bytes 6 0x010203040506 = [1, 2, 3, 4, 5, 6] ∧
    os_bytes_pack 6 ((os_bytes_unpack 0x010203040506 (some (fun _ => 0xEE)) 9).2.map
        (fun b i => b (i + 1))) = 0x0203040506EE := by
  refine ⟨?_, by decide, by decide, by decide, by decide⟩
  simp only [byte_count]
  rw [if_neg (by decide)]
  have h : Nat.log 256 0x010203040506 = 5 :=
    (Nat.log_eq_iff (Or.inl (by decide))).mpr ⟨by decide, by decide⟩
  rw [h]

theorem byte_count_eq {v n : Nat} (h1 : 1 ≤ n) (hlo : n = 1 ∨ 256 ^ (n - 1) ≤ v)
    (hhi : v < 256 ^ n) : byte_count v = n := by
  unfold byte_count
  by_cases h0 : v = 0
  · rw [if_pos h0]
    rcases hlo with h | h
    · exact h.symm
    · subst h0
      have : 0 < 256 ^ (n - 1) := Nat.pow_pos (by decide)
      omega
  · rw [if_neg h0]
    have hlog : Nat.log 256 v = n - 1 := by
      refine (Nat.log_eq_iff (Or.inr ⟨by decide, h0⟩)).mpr ⟨?_, ?_⟩
      · rcases hlo with h | h
        · subst h; simp; omega
        · exact h
      · rw [Nat.sub_add_cancel h1]; exact hhi
    omega

/-- The loop of `os_bytes_pack` after `k` rounds over big-endian bytes of `v`
holds the lowest `k` bytes of `v`. -/
theorem pack_loop (n v : Nat) (b : Nat → Nat) (hn8 : n ≤ 8)
    (hbytes : ∀ j, j < n → b j = v / 256 ^ (n - 1 - j) % 256) :
    ∀ k, k ≤ n →
      (List.range k).foldl
        (fun retval i => (retval + (b (n - 1 - i) <<< (i * 8)) % 2 ^ 64) % 2 ^ 64) 0
        = v % 256 ^ k := by
  intro k
  induction k with
  | zero => intro _; simp [Nat.mod_one]
  | succ k ih =>
    intro hk
    rw [List.range_succ, List.foldl_append, ih (by omega)]
    simp only [List.foldl_cons, List.foldl_nil]
    rw [hbytes (n - 1 - k) (by omega), show n - 1 - (n - 1 - k) = k by omega,
      Nat.shiftLeft_eq, show 2 ^ (k * 8) = 256 ^ k by rw [Nat.mul_comm, Nat.pow_mul]]
    have h256 : 256 ^ (k + 1) ≤ 2 ^ 64 := by
      rw [show (2 : Nat) ^ 64 = 256 ^ 8 by norm_num]
      exact Nat.pow_le_pow_right (by decide) (by omega)
    have hstep : v % 256 ^ k + v / 256 ^ k % 256 * 256 ^ k = v % 256 ^ (k + 1) := by
      rw [Nat.mod_pow_succ, Nat.mul_comm]
    have hlt : v % 256 ^ (k + 1) < 256 ^ (k + 1) := Nat.mod_lt _ (Nat.pow_pos (by decide))
    have hlt2 : v / 256 ^ k % 256 * 256 ^ k < 2 ^ 64 := by omega
    rw [Nat.mod_eq_of_lt hlt2, hstep, Nat.mod_eq_of_lt (by omega)]

theorem pack_big_endian (n v : Nat) (b : Nat → Nat) (hn1 : 1 ≤ n) (hn8 : n ≤ 8)
    (hv : v < 256 ^ n) (hbytes : ∀ j, j < n → b j = v / 256 ^ (n - 1 - j) % 256) :
    os_bytes_pack n (some b) = v := by
  simp only [os_bytes_pack]
  rw [if_neg (by omega), pack_loop n v b hn8 hbytes n (Nat.le_refl n), Nat.mod_eq_of_lt hv]

/-- What one branch of `os_bytes_unpack` has to write for the round trip of
C30. -/
theorem unpack_branch_ok (n v : Nat) (b1 : Nat → Nat) (hn1 : 1 ≤ n) (hn8 : n ≤ 8)
    (hlo : n = 1 ∨ 256 ^ (n - 1) ≤ v) (hv : v < 256 ^ n) (h0 : b1 0 = n)
    (hbytes : ∀ j, j < n → b1 (j + 1) = v / 256 ^ (n - 1 - j) % 256) :
    b1 0 = byte_count v ∧
      (List.range (byte_count v)).map (fun j => b1 (j + 1)) = big_endian_bytes (byte_count v) v ∧
      os_bytes_pack (b1 0) (some (fun i => b1 (i + 1))) = v := by
  rw [byte_count_eq hn1 hlo hv, h0]
  refine ⟨rfl, ?_, pack_big_endian n v _ hn1 hn8 hv hbytes⟩
  simp only [big_endian_bytes]
  apply List.map_congr_left
  intro j hj
  exact hbytes j (List.mem_range.mp hj)


/-- Outside the six-byte range `2^40 <= v < 2^48`, and with room for nine
bytes, `os_bytes_unpack` writes the byte count and then the big-endian bytes
of `v`, and `os_bytes_pack` over those bytes gives `v` back. -/
theorem bytes_unpack_pack_other (v : Nat) (buf : Nat → Nat) (bufsize : Nat)
    (hv : v < 2 ^ 64) (hb : 9 ≤ bufsize) (hne : v < 2 ^ 40 ∨ 2 ^ 48 ≤ v) :
    ∃ b1, os_bytes_unpack v (some buf) bufsize = (byte_count v + 1, some b1) ∧
      b1 0 = byte_count v ∧
      (List.range (byte_count v)).map (fun j => b1 (j + 1)) = big_endian_bytes (byte_count v) v ∧
      os_bytes_pack (b1 0) (some (fun i => b1 (i + 1))) = v := by
  simp only [os_bytes_unpack]
  by_cases h1 : v ≤ 0xFF
  · rw [if_pos h1, if_neg (by omega)]
    have hc : byte_count v = 1 := byte_count_eq (Nat.le_refl 1) (Or.inl rfl) (by norm_num; omega)
    refine ⟨_, by rw [hc], unpack_branch_ok 1 v _ (by decide) (by decide) (Or.inl rfl)
      (by norm_num; omega) (by simp [store_all, Function.update]) ?_⟩
    intro j hj
    interval_cases j; simp [store_all, Function.update, Nat.shiftRight_eq_div_pow]
  rw [if_neg h1]
  by_cases h2 : v ≤ 0xFFFF
  · rw [if_pos h2, if_neg (by omega)]
    have hc : byte_count v = 2 :=
      byte_count_eq (by decide) (Or.inr (by norm_num; omega)) (by norm_num; omega)
    refine ⟨_, by rw [hc], unpack_branch_ok 2 v _ (by decide) (by decide)
      (Or.inr (by norm_num; omega))
      (by norm_num; omega) (by simp [store_all, Function.update]) ?_⟩
    intro j hj
    interval_cases j <;> simp [store_all, Function.update, Nat.shiftRight_eq_div_pow]
  rw [if_neg h2]
  by_cases h3 : v ≤ 0xFFFFFF
  · rw [if_pos h3, if_neg (by omega)]
    have hc : byte_count v = 3 :=
      byte_count_eq (by decide) (Or.inr (by norm_num; omega)) (by norm_num; omega)
    refine ⟨_, by rw [hc], unpack_branch_ok 3 v _ (by decide) (by decide)
      (Or.inr (by norm_num; omega))
      (by norm_num; omega) (by simp [store_all, Function.update]) ?_⟩
    intro j hj
    interval_cases j <;> simp [store_all, Function.update, Nat.shiftRight_eq_div_pow]
  rw [if_neg h3]
  by_cases h4 : v ≤ 0xFFFFFFFF
  · rw [if_pos h4, if_neg (by omega)]
    have hc : byte_count v = 4 :=
      byte_count_eq (by decide) (Or.inr (by norm_num; omega)) (by norm_num; omega)
    refine ⟨_, by rw [hc], unpack_branch_ok 4 v _ (by decide) (by decide)
      (Or.inr (by norm_num; omega))
      (by norm_num; omega) (by simp [store_all, Function.update]) ?_⟩
    intro j hj
    interval_cases j <;> simp [store_all, Function.update, Nat.shiftRight_eq_div_pow]
  rw [if_neg h4]
  by_cases h5 : v ≤ 0xFFFFFFFFFF
  · rw [if_pos h5, if_neg (by omega)]
    have hc : byte_count v = 5 :=
      byte_count_eq (by decide) (Or.inr (by norm_num; omega)) (by norm_num; omega)
    refine ⟨_, by rw [hc], unpack_branch_ok 5 v _ (by decide) (by decide)
      (Or.inr (by norm_num; omega))
      (by norm_num; omega) (by simp [store_all, Function.update]) ?_⟩
    intro j hj
    interval_cases j <;> simp [store_all, Function.update, Nat.shiftRight_eq_div_pow]
  rw [if_neg h5]
  have h6 : ¬ v ≤ 0xFFFFFFFFFFFF := by
    rcases hne with h | h
    · norm_num at h5 h; omega
    · norm_num at h ⊢; omega
  rw [if_neg h6]
  by_cases h7 : v ≤ 0xFFFFFFFFFFFFFF
  · rw [if_pos h7, if_neg (by omega)]
    have hc : byte_count v = 7 :=
      byte_count_eq (by decide) (Or.inr (by norm_num; omega)) (by norm_num; omega)
    refine ⟨_, by rw [hc], unpack_branch_ok 7 v _ (by decide) (by decide)
      (Or.inr (by norm_num; omega))
      (by norm_num; omega) (by simp [store_all, Function.update]) ?_⟩
    intro j hj
    interval_cases j <;> simp [store_all, Function.update, Nat.shiftRight_eq_div_pow]
  rw [if_neg h7, if_neg (by omega)]
  have hc : byte_count v = 8 :=
    byte_count_eq (by decide) (Or.inr (by norm_num; omega)) (by norm_num at hv ⊢; omega)
  refine ⟨_, by rw [hc], unpack_branch_ok 8 v _ (by decide) (by decide)
    (Or.inr (by norm_num; omega))
    (by norm_num at hv ⊢; omega) (by simp [store_all, Function.update]) ?_⟩
  intro j hj
  interval_cases j <;> simp [store_all, Function.update, Nat.shiftRight_eq_div_pow]


/-! ## Endianness-selectable packing -/

/-- C31: the code at `v = 0x0504030201`, a value of five bytes, without the
`big_endian` flag and with a buffer of nine bytes `0xEE`: `os_bytes_unpack_ex`
returns 6 and writes the length byte 5 and the bytes 01 02 03 04 at indices 1
to 4, but the fifth byte 05 at index 6 and nothing at index 5;
`os_bytes_pack_ex` of the five bytes after the length byte, with the same flag,
gives `0xEE04030201`, not `v`. -/
theorem bytes_unpack_ex_little_endian_five :
    byte_count 0x0504030201 = 5 ∧
    (os_bytes_unpack_ex 0x0504030201 false (some (fun _ => 0xEE)) 9).1 = 6 ∧
    (os_bytes_unpack_ex 0x0504030201 false (some (fun _ => 0xEE)) 9).2.map
        (fun b => (List.range 8).map b) = some [5, 1, 2, 3, 4, 0xEE, 5, 0xEE] ∧
    little_endian_bytes 5 0x0504030201 = [1, 2, 3, 4, 5] ∧
    os_bytes_pack_ex 5 ((os_bytes_unpack_ex 0x0504030201 false (some (fun _ => 0xEE)) 9).2.map
        (fun b i => b (i + 1))) false = 0xEE04030201 := by
  refine ⟨byte_count_eq (by decide) (Or.inr (by decide)) (by decide), by decide, by decide,
    by decide, by decide⟩

/-- C38: the code at `v = 0x0100000000` without the `big_endian` flag and with
`bufsize = 6`: `os_bytes_unpack_ex` returns 6 and stores at the indices
0, 1, 2, 3, 4 and 6, so it writes index 6, which is not below the returned
length (and not below `bufsize`), and leaves index 5 unwritten. -/
theorem bytes_unpack_ex_writes_past_length :
    (unpack_ex_stores 0x0100000000 false 6).1 = 6 ∧
    (unpack_ex_stores 0x0100000000 false 6).2.map Prod.fst = [0, 1, 2, 3, 4, 6] ∧
    (os_bytes_unpack_ex 0x0100000000 false (some (fun _ => 0xEE)) 6).1 = 6 ∧
    (os_bytes_unpack_ex 0x0100000000 false (some (fun _ => 0xEE)) 6).2.map
        (fun b => (List.range 8).map b) = some [5, 0, 0, 0, 0, 0xEE, 1, 0xEE] := by
  refine ⟨by decide, by decide, by decide, by decide⟩


theorem pack_ex_big_eq (n : Nat) (b : Option (Nat → Nat)) :
    os_bytes_pack_ex n b true = os_bytes_pack n b := by
  cases b with
  | none => rfl
  | some f => simp only [os_bytes_pack_ex, os_bytes_pack, if_true]

/-- The little-endian loop of `os_bytes_pack_ex` after `k` rounds over
little-endian bytes of `v` holds the lowest `k` bytes of `v`. -/
theorem pack_loop_little (n v : Nat) (b : Nat → Nat) (hn8 : n ≤ 8)
    (hbytes : ∀ j, j < n → b j = v / 256 ^ j % 256) :
    ∀ k, k ≤ n →
      (List.range k).foldl
        (fun retval i => (retval + (b i <<< (i * 8)) % 2 ^ 64) % 2 ^ 64) 0
        = v % 256 ^ k := by
  intro k
  induction k with
  | zero => intro _; simp [Nat.mod_one]
  | succ k ih =>
    intro hk
    rw [List.range_succ, List.foldl_append, ih (by omega)]
    simp only [List.foldl_cons, List.foldl_nil]
    rw [hbytes k (by omega), Nat.shiftLeft_eq,
      show 2 ^ (k * 8) = 256 ^ k by rw [Nat.mul_comm, Nat.pow_mul]]
    have h256 : 256 ^ (k + 1) ≤ 2 ^ 64 := by
      rw [show (2 : Nat) ^ 64 = 256 ^ 8 by norm_num]
      exact Nat.pow_le_pow_right (by decide) (by omega)
    have hstep : v % 256 ^ k + v / 256 ^ k % 256 * 256 ^ k = v % 256 ^ (k + 1) := by
      rw [Nat.mod_pow_succ, Nat.mul_comm]
    have hlt : v % 256 ^ (k + 1) < 256 ^ (k + 1) := Nat.mod_lt _ (Nat.pow_pos (by decide))
    have hlt2 : v / 256 ^ k % 256 * 256 ^ k < 2 ^ 64 := by omega
    rw [Nat.mod_eq_of_lt hlt2, hstep, Nat.mod_eq_of_lt (by omega)]

theorem pack_little_endian (n v : Nat) (b : Nat → Nat) (hn1 : 1 ≤ n) (hn8 : n ≤ 8)
    (hv : v < 256 ^ n) (hbytes : ∀ j, j < n → b j = v / 256 ^ j % 256) :
    os_bytes_pack_ex n (some b) false = v := by
  simp only [os_bytes_pack_ex]
  rw [if_neg (by omega), if_neg (by decide), pack_loop_little n v b hn8 hbytes n (Nat.le_refl n),
    Nat.mod_eq_of_lt hv]

/-- What one little-endian branch of `os_bytes_unpack_ex` has to write for the
round trip of C31. -/
theorem unpack_branch_ok_little (n v : Nat) (b1 : Nat → Nat) (hn1 : 1 ≤ n) (hn8 : n ≤ 8)
    (hlo : n = 1 ∨ 256 ^ (n - 1) ≤ v) (hv : v < 256 ^ n) (h0 : b1 0 = n)
    (hbytes : ∀ j, j < n → b1 (j + 1) = v / 256 ^ j % 256) :
    b1 0 = byte_count v ∧
      (List.range (byte_count v)).map (fun j => b1 (j + 1)) =
        little_endian_bytes (byte_count v) v ∧
      os_bytes_pack_ex (b1 0) (some (fun i => b1 (i + 1))) false = v := by
  rw [byte_count_eq hn1 hlo hv, h0]
  refine ⟨rfl, ?_, pack_little_endian n v _ hn1 hn8 hv hbytes⟩
  simp only [little_endian_bytes]
  apply List.map_congr_left
  intro j hj
  exact hbytes j (List.mem_range.mp hj)

/-- Buffer safety of `os_bytes_unpack_ex` where it holds: with the `big_endian`
flag, or for a value of at most four bytes, the returned length is at most
`bufsize`, every store goes to an index below the returned length, every index
below the returned length is stored to, and a returned length of 0 comes with no
store. -/
theorem unpack_ex_stores_safe (value bufsize : Nat) (big_endian : Bool)
    (h : big_endian = true ∨ value ≤ 0xFFFFFFFF) :
    (unpack_ex_stores value big_endian bufsize).1 ≤ bufsize ∧
      (∀ w, w ∈ (unpack_ex_stores value big_endian bufsize).2 →
        w.1 < (unpack_ex_stores value big_endian bufsize).1) ∧
      (∀ i, i < (unpack_ex_stores value big_endian bufsize).1 →
        ∃ w, w ∈ (unpack_ex_stores value big_endian bufsize).2 ∧ w.1 = i) ∧
      ((unpack_ex_stores value big_endian bufsize).1 = 0 →
        (unpack_ex_stores value big_endian bufsize).2 = []) := by
  generalize hr : unpack_ex_stores value big_endian bufsize = r
  unfold unpack_ex_stores at hr
  have hle : big_endian = false → value ≤ 0xFFFFFFFF := by
    intro hf
    rcases h with h | h
    · rw [hf] at h; exact absurd h (by decide)
    · exact h
  by_cases h1 : value ≤ 0xFF
  · rw [if_pos h1] at hr
    by_cases hb : bufsize < 2
    · rw [if_pos hb] at hr; subst hr
      exact ⟨Nat.zero_le _, by simp, by simp, by simp⟩
    · rw [if_neg hb] at hr
      subst hr
      refine ⟨by simp only; omega, by simp, ?_, by simp⟩
      intro i hi
      simp only at hi
      interval_cases i <;> simp
  rw [if_neg h1] at hr
  by_cases h2 : value ≤ 0xFFFF
  · rw [if_pos h2] at hr
    by_cases hb : bufsize < 3
    · rw [if_pos hb] at hr; subst hr
      exact ⟨Nat.zero_le _, by simp, by simp, by simp⟩
    · rw [if_neg hb] at hr
      cases big_endian
      · simp only [Bool.false_eq_true, if_false] at hr
        subst hr
        refine ⟨by simp only; omega, by simp, ?_, by simp⟩
        intro i hi
        simp only at hi
        interval_cases i <;> simp
      · simp only [if_true] at hr
        subst hr
        refine ⟨by simp only; omega, by simp, ?_, by simp⟩
        intro i hi
        simp only at hi
        interval_cases i <;> simp
  rw [if_neg h2] at hr
  by_cases h3 : value ≤ 0xFFFFFF
  · rw [if_pos h3] at hr
    by_cases hb : bufsize < 4
    · rw [if_pos hb] at hr; subst hr
      exact ⟨Nat.zero_le _, by simp, by simp, by simp⟩
    · rw [if_neg hb] at hr
      cases big_endian
      · simp only [Bool.false_eq_true, if_false] at hr
        subst hr
        refine ⟨by simp only; omega, by simp, ?_, by simp⟩
        intro i hi
        simp only at hi
        interval_cases i <;> simp
      · simp only [if_true] at hr
        subst hr
        refine ⟨by simp only; omega, by simp, ?_, by simp⟩
        intro i hi
        simp only at hi
        interval_cases i <;> simp
  rw [if_neg h3] at hr
  by_cases h4 : value ≤ 0xFFFFFFFF
  · rw [if_pos h4] at hr
    by_cases hb : bufsize < 5
    · rw [if_pos hb] at hr; subst hr
      exact ⟨Nat.zero_le _, by simp, by simp, by simp⟩
    · rw [if_neg hb] at hr
      cases big_endian
      · simp only [Bool.false_eq_true, if_false] at hr
        subst hr
        refine ⟨by simp only; omega, by simp, ?_, by simp⟩
        intro i hi
        simp only at hi
        interval_cases i <;> simp
      · simp only [if_true] at hr
        subst hr
        refine ⟨by simp only; omega, by simp, ?_, by simp⟩
        intro i hi
        simp only at hi
        interval_cases i <;> simp
  rw [if_neg h4] at hr
  by_cases h5 : value ≤ 0xFFFFFFFFFF
  · rw [if_pos h5] at hr
    by_cases hb : bufsize < 6
    · rw [if_pos hb] at hr; subst hr
      exact ⟨Nat.zero_le _, by simp, by simp, by simp⟩
    · rw [if_neg hb] at hr
      cases big_endian
      · have := hle rfl
        omega
      · simp only [if_true] at hr
        subst hr
        refine ⟨by simp only; omega, by simp, ?_, by simp⟩
        intro i hi
        simp only at hi
        interval_cases i <;> simp
  rw [if_neg h5] at hr
  by_cases h6 : value ≤ 0xFFFFFFFFFFFF
  · rw [if_pos h6] at hr
    by_cases hb : bufsize < 7
    · rw [if_pos hb] at hr; subst hr
      exact ⟨Nat.zero_le _, by simp, by simp, by simp⟩
    · rw [if_neg hb] at hr
      cases big_endian
      · have := hle rfl
        omega
      · simp only [if_true] at hr
        subst hr
        refine ⟨by simp only; omega, by simp, ?_, by simp⟩
        intro i hi
        simp only at hi
        interval_cases i <;> simp
  rw [if_neg h6] at hr
  by_cases h7 : value ≤ 0xFFFFFFFFFFFFFF
  · rw [if_pos h7] at hr
    by_cases hb : bufsize < 8
    · rw [if_pos hb] at hr; subst hr
      exact ⟨Nat.zero_le _, by simp, by simp, by simp⟩
    · rw [if_neg hb] at hr
      cases big_endian
      · have := hle rfl
        omega
      · simp only [if_true] at hr
        subst hr
        refine ⟨by simp only; omega, by simp, ?_, by simp⟩
        intro i hi
        simp only at hi
        interval_cases i <;> simp
  rw [if_neg h7] at hr
  by_cases hb : bufsize < 9
  · rw [if_pos hb] at hr; subst hr
    exact ⟨Nat.zero_le _, by simp, by simp, by simp⟩
  · rw [if_neg hb] at hr
    cases big_endian
    · have := hle rfl
      omega
    · simp only [if_true] at hr
      subst hr
      refine ⟨by simp only; omega, by simp, ?_, by simp⟩
      intro i hi
      simp only at hi
      interval_cases i <;> simp


/-- With the `big_endian` flag and room for nine bytes, `os_bytes_unpack_ex`
writes the byte count and then the big-endian bytes of `v`, and
`os_bytes_pack_ex` with the flag gives `v` back. -/
theorem bytes_unpack_pack_ex_big (v : Nat) (buf : Nat → Nat) (bufsize : Nat)
    (hv : v < 2 ^ 64) (hb : 9 ≤ bufsize) :
    ∃ b1, os_bytes_unpack_ex v true (some buf) bufsize = (byte_count v + 1, some b1) ∧
      b1 0 = byte_count v ∧
      (List.range (byte_count v)).map (fun j => b1 (j + 1)) = big_endian_bytes (byte_count v) v ∧
      os_bytes_pack_ex (b1 0) (some (fun i => b1 (i + 1))) true = v := by
  by_cases h1 : v ≤ 0xFF
  · have hst : unpack_ex_stores v true bufsize = (2, [(0, 1), (1, v)]) := by
      unfold unpack_ex_stores
      rw [if_pos h1, if_neg (by omega)]
    simp only [os_bytes_unpack_ex, hst, pack_ex_big_eq]
    have hc : byte_count v = 1 := byte_count_eq (by decide) (Or.inl rfl) (by norm_num; omega)
    refine ⟨_, by rw [hc], unpack_branch_ok 1 v _ (by decide) (by decide) (Or.inl rfl)
      (by norm_num; omega) (by simp [store_all, Function.update]) ?_⟩
    intro j hj
    interval_cases j; simp [store_all, Function.update, Nat.shiftRight_eq_div_pow]
  by_cases h2 : v ≤ 0xFFFF
  · have hst : unpack_ex_stores v true bufsize = (3, [(0, 2), (1, v >>> 8), (2, v)]) := by
      unfold unpack_ex_stores
      rw [if_neg h1, if_pos h2, if_neg (by omega)]
      rfl
    simp only [os_bytes_unpack_ex, hst, pack_ex_big_eq]
    have hc : byte_count v = 2 := byte_count_eq (by decide) (Or.inr (by norm_num; omega)) (by norm_num; omega)
    refine ⟨_, by rw [hc], unpack_branch_ok 2 v _ (by decide) (by decide) (Or.inr (by norm_num; omega))
      (by norm_num; omega) (by simp [store_all, Function.update]) ?_⟩
    intro j hj
    interval_cases j <;> simp [store_all, Function.update, Nat.shiftRight_eq_div_pow]
  by_cases h3 : v ≤ 0xFFFFFF
  · have hst : unpack_ex_stores v true bufsize = (4, [(0, 3), (1, v >>> 16), (2, v >>> 8), (3, v)]) := by
      unfold unpack_ex_stores
      rw [if_neg h1, if_neg h2, if_pos h3, if_neg (by omega)]
      rfl
    simp only [os_bytes_unpack_ex, hst, pack_ex_big_eq]
    have hc : byte_count v = 3 := byte_count_eq (by decide) (Or.inr (by norm_num; omega)) (by norm_num; omega)
    refine ⟨_, by rw [hc], unpack_branch_ok 3 v _ (by decide) (by decide) (Or.inr (by norm_num; omega))
      (by norm_num; omega) (by simp [store_all, Function.update]) ?_⟩
    intro j hj
    interval_cases j <;> simp [store_all, Function.update, Nat.shiftRight_eq_div_pow]
  by_cases h4 : v ≤ 0xFFFFFFFF
  · have hst : unpack_ex_stores v true bufsize = (5, [(0, 4), (1, v >>> 24), (2, v >>> 16), (3, v >>> 8), (4, v)]) := by
      unfold unpack_ex_stores
      rw [if_neg h1, if_neg h2, if_neg h3, if_pos h4, if_neg (by omega)]
      rfl
    simp only [os_bytes_unpack_ex, hst, pack_ex_big_eq]
    have hc : byte_count v = 4 := byte_count_eq (by decide) (Or.inr (by norm_num; omega)) (by norm_num; omega)
    refine ⟨_, by rw [hc], unpack_branch_ok 4 v _ (by decide) (by decide) (Or.inr (by norm_num; omega))
      (by norm_num; omega) (by simp [store_all, Function.update]) ?_⟩
    intro j hj
    interval_cases j <;> simp [store_all, Function.update, Nat.shiftRight_eq_div_pow]
  by_cases h5 : v ≤ 0xFFFFFFFFFF
  · have hst : unpack_ex_stores v true bufsize = (6, [(0, 5), (1, v >>> 32), (2, v >>> 24), (3, v >>> 16), (4, v >>> 8), (5, v)]) := by
      unfold unpack_ex_stores
      rw [if_neg h1, if_neg h2, if_neg h3, if_neg h4, if_pos h5, if_neg (by omega)]
      rfl
    simp only [os_bytes_unpack_ex, hst, pack_ex_big_eq]
    have hc : byte_count v = 5 := byte_count_eq (by decide) (Or.inr (by norm_num; omega)) (by norm_num; omega)
    refine ⟨_, by rw [hc], unpack_branch_ok 5 v _ (by decide) (by decide) (Or.inr (by norm_num; omega))
      (by norm_num; omega) (by simp [store_all, Function.update]) ?_⟩
    intro j hj
    interval_cases j <;> simp [store_all, Function.update, Nat.shiftRight_eq_div_pow]
  by_cases h6 : v ≤ 0xFFFFFFFFFFFF
  · have hst : unpack_ex_stores v true bufsize = (7, [(0, 6), (1, v >>> 40), (2, v >>> 32), (3, v >>> 24), (4, v >>> 16), (5, v >>> 8), (6, v)]) := by
      unfold unpack_ex_stores
      rw [if_neg h1, if_neg h2, if_neg h3, if_neg h4, if_neg h5, if_pos h6, if_neg (by omega)]
      rfl
    simp only [os_bytes_unpack_ex, hst, pack_ex_big_eq]
    have hc : byte_count v = 6 := byte_count_eq (by decide) (Or.inr (by norm_num; omega)) (by norm_num; omega)
    refine ⟨_, by rw [hc], unpack_branch_ok 6 v _ (by decide) (by decide) (Or.inr (by norm_num; omega))
      (by norm_num; omega) (by simp [store_all, Function.update]) ?_⟩
    intro j hj
    interval_cases j <;> simp [store_all, Function.update, Nat.shiftRight_eq_div_pow]
  by_cases h7 : v ≤ 0xFFFFFFFFFFFFFF
  · have hst : unpack_ex_stores v true bufsize = (8, [(0, 7), (1, v >>> 48), (2, v >>> 40), (3, v >>> 32), (4, v >>> 24), (5, v >>> 16), (6, v >>> 8), (7, v)]) := by
      unfold unpack_ex_stores
      rw [if_neg h1, if_neg h2, if_neg h3, if_neg h4, if_neg h5, if_neg h6, if_pos h7, if_neg (by omega)]
      rfl
    simp only [os_bytes_unpack_ex, hst, pack_ex_big_eq]
    have hc : byte_count v = 7 := byte_count_eq (by decide) (Or.inr (by norm_num; omega)) (by norm_num; omega)
    refine ⟨_, by rw [hc], unpack_branch_ok 7 v _ (by decide) (by decide) (Or.inr (by norm_num; omega))
      (by norm_num; omega) (by simp [store_all, Function.update]) ?_⟩
    intro j hj
    interval_cases j <;> simp [store_all, Function.update, Nat.shiftRight_eq_div_pow]
  have hst : unpack_ex_stores v true bufsize = (9, [(0, 8), (1, v >>> 56), (2, v >>> 48), (3, v >>> 40), (4, v >>> 32), (5, v >>> 24), (6, v >>> 16), (7, v >>> 8), (8, v)]) := by
    unfold unpack_ex_stores
    rw [if_neg h1, if_neg h2, if_neg h3, if_neg h4, if_neg h5, if_neg h6, if_neg h7, if_neg (by omega)]
    rfl
  simp only [os_bytes_unpack_ex, hst, pack_ex_big_eq]
  have hc : byte_count v = 8 := byte_count_eq (by decide) (Or.inr (by norm_num; omega)) (by norm_num at hv ⊢; omega)
  refine ⟨_, by rw [hc], unpack_branch_ok 8 v _ (by decide) (by decide) (Or.inr (by norm_num; omega))
    (by norm_num at hv ⊢; omega) (by simp [store_all, Function.update]) ?_⟩
  intro j hj
  interval_cases j <;> simp [store_all, Function.update, Nat.shiftRight_eq_div_pow]

/-- Without the `big_endian` flag, for a value of at most four bytes and room
for nine bytes, `os_bytes_unpack_ex` writes the byte count and then the
little-endian bytes of `v`, and `os_bytes_pack_ex` without the flag gives `v`
back. -/
theorem bytes_unpack_pack_ex_little (v : Nat) (buf : Nat → Nat) (bufsize : Nat)
    (hv32 : v < 2 ^ 32) (hb : 9 ≤ bufsize) :
    ∃ b1, os_bytes_unpack_ex v false (some buf) bufsize = (byte_count v + 1, some b1) ∧
      b1 0 = byte_count v ∧
      (List.range (byte_count v)).map (fun j => b1 (j + 1)) =
        little_endian_bytes (byte_count v) v ∧
      os_bytes_pack_ex (b1 0) (some (fun i => b1 (i + 1))) false = v := by
  by_cases h1 : v ≤ 0xFF
  · have hst : unpack_ex_stores v false bufsize = (2, [(0, 1), (1, v)]) := by
      unfold unpack_ex_stores
      rw [if_pos h1, if_neg (by omega)]
    simp only [os_bytes_unpack_ex, hst]
    have hc : byte_count v = 1 := byte_count_eq (by decide) (Or.inl rfl) (by norm_num; omega)
    refine ⟨_, by rw [hc], unpack_branch_ok_little 1 v _ (by decide) (by decide) (Or.inl rfl)
      (by norm_num; omega) (by simp [store_all, Function.update]) ?_⟩
    intro j hj
    interval_cases j; simp [store_all, Function.update, Nat.shiftRight_eq_div_pow]
  by_cases h2 : v ≤ 0xFFFF
  · have hst : unpack_ex_stores v false bufsize = (3, [(0, 2), (1, v), (2, v >>> 8)]) := by
      unfold unpack_ex_stores
      rw [if_neg h1, if_pos h2, if_neg (by omega)]
      rfl
    simp only [os_bytes_unpack_ex, hst]
    have hc : byte_count v = 2 := byte_count_eq (by decide) (Or.inr (by norm_num; omega)) (by norm_num; omega)
    refine ⟨_, by rw [hc], unpack_branch_ok_little 2 v _ (by decide) (by decide) (Or.inr (by norm_num; omega))
      (by norm_num; omega) (by simp [store_all, Function.update]) ?_⟩
    intro j hj
    interval_cases j <;> simp [store_all, Function.update, Nat.shiftRight_eq_div_pow]
  by_cases h3 : v ≤ 0xFFFFFF
  · have hst : unpack_ex_stores v false bufsize = (4, [(0, 3), (1, v), (2, v >>> 8), (3, v >>> 16)]) := by
      unfold unpack_ex_stores
      rw [if_neg h1, if_neg h2, if_pos h3, if_neg (by omega)]
      rfl
    simp only [os_bytes_unpack_ex, hst]
    have hc : byte_count v = 3 := byte_count_eq (by decide) (Or.inr (by norm_num; omega)) (by norm_num; omega)
    refine ⟨_, by rw [hc], unpack_branch_ok_little 3 v _ (by decide) (by decide) (Or.inr (by norm_num; omega))
      (by norm_num; omega) (by simp [store_all, Function.update]) ?_⟩
    intro j hj
    interval_cases j <;> simp [store_all, Function.update, Nat.shiftRight_eq_div_pow]
  have h4 : v ≤ 0xFFFFFFFF := by norm_num at hv32 ⊢; omega
  have hst : unpack_ex_stores v false bufsize = (5, [(0, 4), (1, v), (2, v >>> 8), (3, v >>> 16), (4, v >>> 24)]) := by
    unfold unpack_ex_stores
    rw [if_neg h1, if_neg h2, if_neg h3, if_pos h4, if_neg (by omega)]
    rfl
  simp only [os_bytes_unpack_ex, hst]
  have hc : byte_count v = 4 := byte_count_eq (by decide) (Or.inr (by norm_num; omega)) (by norm_num; omega)
  refine ⟨_, by rw [hc], unpack_branch_ok_little 4 v _ (by decide) (by decide) (Or.inr (by norm_num; omega))
    (by norm_num; omega) (by simp [store_all, Function.update]) ?_⟩
  intro j hj
  interval_cases j <;> simp [store_all, Function.update, Nat.shiftRight_eq_div_pow]


/-! ## Time values -/

theorem long_wrap_of_range {x : Int} (h1 : -2 ^ 63 ≤ x) (h2 : x < 2 ^ 63) : long_wrap x = x := by
  unfold long_wrap
  omega

/-- C32: the code at `old = new = {0 s, 500000000 ns}`, two normalised time
values: `os_time_add` returns `{0 s, 1000000000 ns}`, whose `tv_nsec` is not
below 1,000,000,000 (the total of one second is kept). -/
theorem time_add_nsec_reaches_billion :
    time_normalised ⟨0, 500000000⟩ ∧
    os_time_add ⟨0, 500000000⟩ ⟨0, 500000000⟩ = ⟨0, 1000000000⟩ ∧
    ¬ (os_time_add ⟨0, 500000000⟩ ⟨0, 500000000⟩).tv_nsec < 1000000000 ∧
    total_ns (os_time_add ⟨0, 500000000⟩ ⟨0, 500000000⟩) = 1000000000 := by
  refine ⟨by unfold time_normalised; decide, by decide, by decide, by decide⟩

/-- The sum `os_time_add` returns for normalised time values whose seconds, with
one second of carry, fit a `long`: the total of nanoseconds is the sum of the
two totals and `tv_nsec` lies between 0 and 1,000,000,000, below 1,000,000,000
unless the two `tv_nsec` add up to exactly 1,000,000,000. -/
theorem time_add_spec (old new : os_time_t) (ho : time_normalised old)
    (hn : time_normalised new) (hfit : old.tv_sec + new.tv_sec + 1 ≤ LONG_MAX) :
    total_ns (os_time_add old new) = total_ns old + total_ns new ∧
      0 ≤ (os_time_add old new).tv_nsec ∧
      (os_time_add old new).tv_nsec ≤ 1000000000 ∧
      (old.tv_nsec + new.tv_nsec ≠ 1000000000 →
        (os_time_add old new).tv_nsec < 1000000000) := by
  obtain ⟨ho1, ho2, ho3⟩ := ho
  obtain ⟨hn1, hn2, hn3⟩ := hn
  have hmax : LONG_MAX = 9223372036854775807 := by decide
  rw [hmax] at hfit
  have hw1 : long_add old.tv_sec 1 = old.tv_sec + 1 := by
    unfold long_add; exact long_wrap_of_range (by omega) (by omega)
  have hov1 : OS_OVERFLOW_ADD LONG_MAX LONG_MIN (long_add old.tv_sec 1) new.tv_sec = false := by
    rw [hw1]
    unfold OS_OVERFLOW_ADD long_sub
    have hlt : ¬ new.tv_sec < 0 := by omega
    rw [hmax, long_wrap_of_range (x := 9223372036854775807 - new.tv_sec) (by omega) (by omega)]
    simp only [decide_eq_false hlt, Bool.false_and, Bool.or_false, Bool.and_eq_false_imp,
      decide_eq_true_eq, decide_eq_false_iff_not]
    intro _
    omega
  have hov2 : OS_OVERFLOW_ADD LONG_MAX LONG_MIN old.tv_nsec new.tv_nsec = false := by
    unfold OS_OVERFLOW_ADD long_sub
    have hlt : ¬ new.tv_nsec < 0 := by omega
    rw [hmax, long_wrap_of_range (x := 9223372036854775807 - new.tv_nsec) (by omega) (by omega)]
    simp only [decide_eq_false hlt, Bool.false_and, Bool.or_false, Bool.and_eq_false_imp,
      decide_eq_true_eq, decide_eq_false_iff_not]
    intro _
    omega
  have hss : long_add old.tv_sec new.tv_sec = old.tv_sec + new.tv_sec := by
    unfold long_add; exact long_wrap_of_range (by omega) (by omega)
  have hns : long_add old.tv_nsec new.tv_nsec = old.tv_nsec + new.tv_nsec := by
    unfold long_add; exact long_wrap_of_range (by omega) (by omega)
  have hss1 : long_add (old.tv_sec + new.tv_sec) 1 = old.tv_sec + new.tv_sec + 1 := by
    unfold long_add; exact long_wrap_of_range (by omega) (by omega)
  have hsub : long_sub (old.tv_nsec + new.tv_nsec) 1000000000 =
      old.tv_nsec + new.tv_nsec - 1000000000 := by
    unfold long_sub; exact long_wrap_of_range (by omega) (by omega)
  have hbil : BILLION = 1000000000 := rfl
  unfold os_time_add
  rw [hov1, hov2]
  simp only [Bool.false_eq_true, if_false, hss, hns, hss1, hsub, hbil]
  by_cases hgt : old.tv_nsec + new.tv_nsec > 1000000000
  · rw [if_pos hgt]
    simp only [total_ns]
    refine ⟨by omega, by omega, by omega, fun _ => by omega⟩
  · rw [if_neg hgt]
    simp only [total_ns]
    refine ⟨by omega, by omega, by omega, fun _ => by omega⟩

/-- C33: the code at `n = 1500000000`: `os_time_from_ns` returns
`{0 s, 500000000 ns}` and `os_time_ns` of it returns 500000000, not `n`. -/
theorem time_from_ns_drops_seconds :
    os_time_from_ns 1500000000 = ⟨0, 500000000⟩ ∧
    os_time_ns (os_time_from_ns 1500000000) = 500000000 := by
  refine ⟨by decide, by decide⟩

/-- The nanosecond conversions on every `long` value `n >= 1`: `os_time_from_ns`
keeps `n % 1000000000` in `tv_nsec` with `tv_sec = 0`, and `os_time_ns` of the
result is `n % 1000000000`; this is `n` exactly for `n` below 1,000,000,000. -/
theorem time_ns_from_ns (n : Int) (h1 : 1 ≤ n) (h2 : n ≤ LONG_MAX) :
    os_time_from_ns n = ⟨0, n % 1000000000⟩ ∧
      os_time_ns (os_time_from_ns n) = n % 1000000000 ∧
      (os_time_ns (os_time_from_ns n) = n ↔ n < 1000000000) := by
  have hmax : LONG_MAX = 9223372036854775807 := by decide
  have hfrom : os_time_from_ns n = ⟨0, n % 1000000000⟩ := by
    unfold os_time_from_ns BILLION
    rw [if_neg (by omega), Int.tmod_eq_emod (by omega) (by decide)]
  have hst : stons 0 = 0 := by decide
  have hns : os_time_ns ⟨0, n % 1000000000⟩ = n % 1000000000 := by
    unfold os_time_ns
    simp only [hst]
    have hov : OS_OVERFLOW_ADD LONG_MAX LONG_MIN 0 (n % 1000000000) = false := by
      unfold OS_OVERFLOW_ADD long_sub
      have hlt : ¬ n % 1000000000 < 0 := by omega
      rw [hmax, long_wrap_of_range (x := 9223372036854775807 - n % 1000000000) (by omega)
        (by omega)]
      simp only [decide_eq_false hlt, Bool.false_and, Bool.or_false, Bool.and_eq_false_imp,
        decide_eq_true_eq, decide_eq_false_iff_not]
      intro _
      omega
    rw [hov]
    simp only [Bool.false_eq_true, if_false]
    unfold long_add long_wrap
    omega
  rw [hfrom, hns]
  refine ⟨rfl, rfl, ?_⟩
  constructor <;> intro h <;> omega


/-! ## Timer expiry -/

theorem timer_expired_disables (t : os_timer_t) (now : os_time_t)
    (h : (os_timer_expired (some t) now).ret = true) :
    timer_disabled (os_timer_expired (some t) now).p := by
  intro t1 ht1
  simp only [os_timer_expired] at h ht1
  by_cases hm : TIMER_MAGIC ≠ t.magic
  · rw [if_pos hm] at h
    exact absurd h Bool.false_ne_true
  · rw [if_neg hm] at h ht1
    simp only [Bool.and_eq_true, decide_eq_true_eq] at h
    simp only [Option.some.injEq] at ht1
    rw [← ht1]
    simp only [if_pos h.2]

theorem timer_disabled_expired (p : Option os_timer_t) (now : os_time_t)
    (h : timer_disabled p) :
    (os_timer_expired p now).ret = false ∧ timer_disabled (os_timer_expired p now).p := by
  cases p with
  | none =>
    refine ⟨rfl, ?_⟩
    intro t ht
    exact absurd ht (by simp [os_timer_expired])
  | some t =>
    have h0 : t.enabled = 0 := h t rfl
    simp only [os_timer_expired]
    by_cases hm : TIMER_MAGIC ≠ t.magic
    · rw [if_pos hm]
      exact ⟨rfl, h⟩
    · rw [if_neg hm]
      refine ⟨by simp [h0], ?_⟩
      intro t1 ht1
      simp only [Option.some.injEq] at ht1
      rw [← ht1]
      simp only [h0, ite_self]

theorem timer_call_keeps_disabled (s : Int × Option os_timer_t) (c : timer_call)
    (hc : c.starts = false) (h : timer_disabled s.2) : timer_disabled (c.run s).2 := by
  obtain ⟨e, p⟩ := s
  cases c with
  | init =>
    intro t ht
    cases p with
    | none => exact absurd ht (by simp [timer_call.run, os_timer_init])
    | some t0 =>
      simp only [timer_call.run, os_timer_init, Option.some.injEq] at ht
      rw [← ht]
      rfl
  | destroy =>
    intro t ht
    cases p with
    | none => exact absurd ht (by simp [timer_call.run, os_timer_destroy])
    | some t0 =>
      simp only [timer_call.run, os_timer_destroy] at ht
      by_cases hm : TIMER_MAGIC ≠ t0.magic
      · rw [if_pos hm] at ht
        exact h t ht
      · rw [if_neg hm] at ht
        simp only [Option.some.injEq] at ht
        rw [← ht]
        rfl
  | start interval now => exact Bool.noConfusion hc
  | stop =>
    intro t ht
    cases p with
    | none => exact absurd ht (by simp [timer_call.run, os_timer_stop])
    | some t0 =>
      simp only [timer_call.run, os_timer_stop] at ht
      by_cases hm : TIMER_MAGIC ≠ t0.magic
      · rw [if_pos hm] at ht
        exact h t ht
      · rw [if_neg hm] at ht
        simp only [Option.some.injEq] at ht
        rw [← ht]
  | restart now => exact Bool.noConfusion hc
  | running now =>
    intro t ht
    cases p with
    | none => exact absurd ht (by simp [timer_call.run, os_timer_running])
    | some t0 =>
      have h0 : t0.enabled = 0 := h t0 rfl
      simp only [timer_call.run, os_timer_running] at ht
      by_cases hm : TIMER_MAGIC ≠ t0.magic
      · rw [if_pos hm] at ht
        exact h t ht
      · rw [if_neg hm] at ht
        simp only [Option.some.injEq] at ht
        rw [← ht]
        exact h0
  | expired now => exact (timer_disabled_expired p now h).2

theorem timer_calls_keep_disabled (calls : List timer_call) :
    ∀ (s : Int × Option os_timer_t), (∀ c, c ∈ calls → c.starts = false) →
      timer_disabled s.2 → timer_disabled (run_timer_calls s calls).2 := by
  induction calls with
  | nil => intro s _ h; exact h
  | cons c cs ih =>
    intro s hc h
    simp only [run_timer_calls, List.foldl_cons]
    exact ih (c.run s) (fun c1 h1 => hc c1 (List.mem_cons_of_mem _ h1))
      (timer_call_keeps_disabled s c (hc c (List.mem_cons_self _ _)) h)

/-- C34: with the clock reading as an input and the lock always taken, once
`os_timer_expired` has returned true on a timer, then after any sequence of
timer calls that contains no `os_timer_start` and no `os_timer_restart`
(`os_timer_init`, `os_timer_destroy`, `os_timer_stop`, `os_timer_running` and
`os_timer_expired`, at any clock readings), `os_timer_expired` returns false at
every clock reading. -/
theorem timer_expired_reported_once (e : Int) (t : os_timer_t) (now now2 : os_time_t)
    (calls : List timer_call)
    (hexp : (os_timer_expired (some t) now).ret = true)
    (hcalls : ∀ c, c ∈ calls → c.starts = false) :
    (os_timer_expired (run_timer_calls (e, (os_timer_expired (some t) now).p) calls).2
      now2).ret = false :=
  (timer_disabled_expired _ now2
    (timer_calls_keep_disabled calls _ hcalls (timer_expired_disables t now hexp))).1

/-- The timer of C34 at work: a timer started with an interval of 5 ms at clock
reading 10 s reports its expiry at 11 s, and then, after `os_timer_running`,
`os_timer_stop` and `os_timer_expired` calls, does not report it again at
20 s. -/
theorem timer_expired_reported_once_witness :
    (os_timer_expired (os_timer_start 0 (os_timer_init 0 (some timer_zero)).p 5 ⟨10, 0⟩).p
      ⟨11, 0⟩).ret = true ∧
    (os_timer_expired (run_timer_calls (0, (os_timer_expired
        (some ⟨TIMER_MAGIC, 1, 1, 0, ⟨10, 5000000⟩, 5⟩) ⟨11, 0⟩).p)
        [.running ⟨12, 0⟩, .stop, .expired ⟨13, 0⟩]).2 ⟨20, 0⟩).ret = false :=
  ⟨by decide,
    timer_expired_reported_once 0 ⟨TIMER_MAGIC, 1, 1, 0, ⟨10, 5000000⟩, 5⟩ ⟨11, 0⟩ ⟨20, 0⟩
      [.running ⟨12, 0⟩, .stop, .expired ⟨13, 0⟩] (by decide) (by decide)⟩


/-! ## Peek beyond the held bytes, resize, empty spans -/

/-- C35: the code on a ring of capacity 8 that holds the three bytes 1, 2, 3
(`head = 0`, `tail = 3`, pool 1, 2, ..., 8), with `offset = 2` and `count = 3`:
`os_rbuf_used()` is 3, below `offset + count = 5`, yet `os_rbuf_peek` returns 0,
leaves `os_errno` alone and hands out 3, 4, 5, of which 4 and 5 are pool bytes
the ring does not hold. -/
theorem rbuf_peek_beyond_held :
    os_rbuf_used (some ⟨fun i => i + 1, 7, 0, 3⟩) = 3 ∧
    held ⟨fun i => i + 1, 7, 0, 3⟩ = [1, 2, 3] ∧
    (os_rbuf_peek 0 (some ⟨fun i => i + 1, 7, 0, 3⟩) 2 (some (fun _ => 0)) 3).ret = 0 ∧
    (os_rbuf_peek 0 (some ⟨fun i => i + 1, 7, 0, 3⟩) 2 (some (fun _ => 0)) 3).os_errno = 0 ∧
    (os_rbuf_peek 0 (some ⟨fun i => i + 1, 7, 0, 3⟩) 2 (some (fun _ => 0)) 3).p_buffer.map
      (fun b => (List.range 3).map b) = some [3, 4, 5] := by
  refine ⟨by decide, by decide, by decide, by decide, by decide⟩

/-- C36 as stated fails: a ring of capacity 4 with `head = 3`, `tail = 1` holds
the two bytes 4, 1 (pool 1, 2, ..., 8); the new capacity 8 is a power of two and
not smaller than the two bytes held, `os_rbuf_change_size` returns 0, and
afterwards `os_rbuf_used()` is 6 and the ring holds 4, 5, 6, 7, 8, 1. -/
theorem rbuf_change_size_wrapped_grows :
    rbuf_wf ⟨fun i => i + 1, 3, 3, 1⟩ ∧
    os_rbuf_used (some ⟨fun i => i + 1, 3, 3, 1⟩) = 2 ∧
    held ⟨fun i => i + 1, 3, 3, 1⟩ = [4, 1] ∧
    (os_rbuf_change_size 0 (some ⟨fun i => i + 1, 3, 3, 1⟩) 8).ret = 0 ∧
    os_rbuf_used (os_rbuf_change_size 0 (some ⟨fun i => i + 1, 3, 3, 1⟩) 8).p = 6 ∧
    (os_rbuf_change_size 0 (some ⟨fun i => i + 1, 3, 3, 1⟩) 8).p.map held
      = some [4, 5, 6, 7, 8, 1] := by
  refine ⟨⟨⟨2, by decide, by decide⟩, by decide, by decide⟩, by decide, by decide, by decide,
    by decide, by decide⟩

/-- C36, as the code has it: for a ring with power-of-two capacity and cursors
within the mask whose held bytes do not wrap (`head <= tail`), and a
power-of-two new capacity `C` with `tail <= C - 1`, `os_rbuf_change_size`
returns 0, leaves `os_errno`, the pool and both cursors as they were and stores
the mask `C - 1`; `os_rbuf_used()` is unchanged and a peek at offset 0 of
`used()` bytes reads the same bytes as before. -/
theorem rbuf_change_size_keeps_unwrapped (e : Int) (r : os_rbuf_t) (C : Nat)
    (hwf : rbuf_wf r) (hle : r.head ≤ r.tail) (hC : ∃ k, C = 2 ^ k) (h32 : C < 2 ^ 32)
    (ht : r.tail ≤ C - 1) :
    os_rbuf_change_size e (some r) C = ⟨0, e, some ⟨r.pool, C - 1, r.head, r.tail⟩⟩ ∧
      os_rbuf_used (os_rbuf_change_size e (some r) C).p = os_rbuf_used (some r) ∧
      (os_rbuf_change_size e (some r) C).p.map held = some (held r) := by
  obtain ⟨k, hk⟩ := hC
  obtain ⟨h1, h2⟩ := pow2_check hk h32
  have h3 : 1 ≤ C := hk ▸ Nat.one_le_two_pow
  have hmask : ∀ x, x ≤ C - 1 → x &&& (C - 1) = x := by
    intro x hx
    rw [hk, Nat.and_pow_two_sub_one_eq_mod, Nat.mod_eq_of_lt (by omega)]
  have hres : os_rbuf_change_size e (some r) C = ⟨0, e, some ⟨r.pool, C - 1, r.head, r.tail⟩⟩ := by
    simp only [os_rbuf_change_size, h1, ne_eq]
    rw [h1] at h2
    rw [if_neg (by rw [h2]; exact fun h => h rfl), hmask r.head (by omega), hmask r.tail ht]
  have hwf1 : rbuf_wf ⟨r.pool, C - 1, r.head, r.tail⟩ :=
    ⟨⟨k, pow2_exponent_le hk h32, by simp only; omega⟩, by simp only; omega, ht⟩
  have hu : os_rbuf_used (some ⟨r.pool, C - 1, r.head, r.tail⟩) = os_rbuf_used (some r) := by
    rw [used_eq hwf1, used_eq hwf]
    simp only [if_pos hle]
  have hur : os_rbuf_used (some r) = r.tail - r.head := by
    rw [used_eq hwf, if_pos hle]
  refine ⟨hres, by rw [hres]; exact hu, ?_⟩
  rw [hres]
  simp only [Option.map_some', Option.some.injEq]
  rw [held_eq, held_eq, hu]
  apply List.map_congr_left
  intro i hi
  have hi1 : i < r.tail - r.head := by
    rw [← hur]; exact List.mem_range.mp hi
  obtain ⟨⟨k0, hk0, hs0⟩, hh0, ht0⟩ := hwf
  obtain ⟨⟨k1, hk1, hs1⟩, hh1, ht1⟩ := hwf1
  simp only at hs1 hh1 ht1 ⊢
  rw [index_eq hk1 hs1 hh1 (by omega), index_eq hk0 hs0 hh0 (by omega), if_pos (by omega),
    if_pos (by omega)]

/-- The resize of C36 at work: a ring of capacity 8 that holds 3, 4 at
`head = 2`, `tail = 4` is resized to capacity 16 and holds the same bytes. -/
theorem rbuf_change_size_keeps_unwrapped_witness :
    os_rbuf_change_size 0 (some ⟨fun i => i + 1, 7, 2, 4⟩) 16 =
        ⟨0, 0, some ⟨fun i => i + 1, 16 - 1, 2, 4⟩⟩ ∧
      os_rbuf_used (os_rbuf_change_size 0 (some ⟨fun i => i + 1, 7, 2, 4⟩) 16).p =
        os_rbuf_used (some ⟨fun i => i + 1, 7, 2, 4⟩) ∧
      (os_rbuf_change_size 0 (some ⟨fun i => i + 1, 7, 2, 4⟩) 16).p.map held =
        some (held ⟨fun i => i + 1, 7, 2, 4⟩) :=
  rbuf_change_size_keeps_unwrapped 0 ⟨fun i => i + 1, 7, 2, 4⟩ 16
    ⟨⟨3, by decide, by decide⟩, by decide, by decide⟩ (by decide) ⟨4, by decide⟩ (by decide)
    (by decide)

/-- C40: `os_rbuf_push`, `os_rbuf_peek` and `os_rbuf_pop` called with a byte
count of 0 and a non-null buffer, on any ring pointer, at any offset and any
prior `os_errno`, return -1 with `os_errno = OS_EINVAL` and leave the ring
(head, tail, size and pool) and the caller's buffer as they were. -/
theorem rbuf_zero_count_rejected (e : Int) (p : Option os_rbuf_t) (buf : Nat → Nat)
    (offset : Nat) :
    os_rbuf_push e p (some buf) 0 = ⟨-1, OS_EINVAL, p⟩ ∧
      os_rbuf_peek e p offset (some buf) 0 = ⟨-1, OS_EINVAL, p, some buf⟩ ∧
      os_rbuf_pop e p (some buf) 0 = ⟨-1, OS_EINVAL, p, some buf⟩ := by
  cases p with
  | none => exact ⟨rfl, rfl, rfl⟩
  | some r => exact ⟨by simp [os_rbuf_push], by simp [os_rbuf_peek], by simp [os_rbuf_pop]⟩


/-! ## Ids of the messages copied into a mailbox -/

/-- What `os_queue_post` copies: with an id above 8191 no mailbox is written;
otherwise every mailbox is as before or has taken the message, whose id is at
most 8191. -/
theorem post_copies_valid_id (fuel : Nat) (s : queue_state) (l : List Nat) (a : Nat)
    (m : os_msg_t) (hreg : registry s l) (hfuel : l.length ≤ fuel) :
    ∃ res, os_queue_post fuel s (some a) (some m) = some res ∧
      (8191 < m.id → res.st.mem = s.mem) ∧
      ∀ c, res.st.mem c = s.mem c ∨
        (m.id ≤ 8191 ∧
          res.st.mem c = deliver (s.mem c) ⟨some a, m.target, m.userdata, m.id, m.params⟩) := by
  by_cases h : 8191 < m.id
  · have h1 : m.id > OS_QUEUE_MSGID_MAX - 1 := h
    exact ⟨⟨-1, ⟨OS_EINVAL, s.g_queue_list, s.mem⟩, some m⟩,
      by simp only [os_queue_post, h1, if_true], fun _ => rfl, fun c => Or.inl rfl⟩
  · obtain ⟨s1, h1, -, -, h4⟩ := queue_post_spec fuel s l a m hreg (registry_nodup hreg) hfuel
      (by omega)
    refine ⟨_, h1, fun hc => absurd hc h, ?_⟩
    intro c
    simp only
    rw [h4 c]
    split
    · exact Or.inr ⟨by omega, rfl⟩
    · exact Or.inl rfl

/-- C37 as stated fails: mailbox 1 (capacity 4, empty) is registered;
`os_queue_send` of a message with id 9000, above 8191, returns 0 and copies the
message into slot 0, and the next `os_queue_recv` returns 0 and hands out a
message with id 9000. -/
theorem queue_send_copies_any_id :
    (os_queue_send 1
        ⟨0, some 1, fun _ => ⟨none, some (fun _ => ⟨none, none, 0, 0, []⟩), 0, 0, 3,
          fun _ => 0⟩⟩
        (some 2) (some ⟨none, some 1, 42, 9000, []⟩)).map
        (fun res => (res.ret, (res.st.mem 1).buffer.map (fun b => (b 0).id),
          (os_queue_recv res.st (some 1) (some ⟨none, none, 0, 0, []⟩)).ret,
          (os_queue_recv res.st (some 1) (some ⟨none, none, 0, 0, []⟩)).msg.map
            (fun x => x.id)))
      = some (0, some 9000, 0, some 9000) := by
  decide

/-- C37, as the code has it: with registry list `l` and enough fuel,
`os_queue_post` and `os_queue_postv` check the id: with an id above 8191 they
write no mailbox, and otherwise every mailbox is as before or has taken the
message, whose id is then at most 8191. `os_queue_send` and `os_queue_sendv` do
not look at the id: for a registered target `t` with storage `b` they return 0
and copy the message with its id, whatever it is, into slot `tail` of `t`. -/
theorem queue_copied_ids (fuel : Nat) (s : queue_state) (l : List Nat) (a t : Nat)
    (m : os_msg_t) (n : Nat) (args : List Nat) (b : Nat → os_msg_t)
    (hreg : registry s l) (hfuel : l.length ≤ fuel) :
    (∃ res, os_queue_post fuel s (some a) (some m) = some res ∧
        (8191 < m.id → res.st.mem = s.mem) ∧
        ∀ c, res.st.mem c = s.mem c ∨
          (m.id ≤ 8191 ∧
            res.st.mem c =
              deliver (s.mem c) ⟨some a, m.target, m.userdata, m.id, m.params⟩)) ∧
      (∃ res, os_queue_postv fuel s (some a) m.id n args = some res ∧
        (8191 < m.id → res.st.mem = s.mem) ∧
        ∀ c, res.st.mem c = s.mem c ∨
          (m.id ≤ 8191 ∧
            res.st.mem c = deliver (s.mem c) ⟨some a, none, 0, m.id, va_params n args⟩)) ∧
      (m.target = some t → t ∈ l → (s.mem t).buffer = some b →
        ∃ res, os_queue_send fuel s (some a) (some m) = some res ∧ res.ret = 0 ∧
          (res.st.mem t).buffer = some (Function.update b (s.mem t).tail
            ⟨some a, m.target, m.userdata, m.id, m.params⟩)) ∧
      (n ≤ 128 → t ∈ l → (s.mem t).buffer = some b →
        ∃ res, os_queue_sendv fuel s (some a) (some t) m.userdata m.id n args = some res ∧
          res.ret = 0 ∧
          (res.st.mem t).buffer = some (Function.update b (s.mem t).tail
            ⟨some a, some t, m.userdata, m.id, va_params n args⟩)) := by
  refine ⟨post_copies_valid_id fuel s l a m hreg hfuel, ?_, ?_, ?_⟩
  · by_cases hn : n > OS_QUEUE_PARAM_COUNT
    · exact ⟨⟨-1, ⟨OS_EINVAL, s.g_queue_list, s.mem⟩⟩, by simp only [os_queue_postv, if_pos hn],
        fun _ => rfl, fun c => Or.inl rfl⟩
    · obtain ⟨res, h1, h2, h3⟩ :=
        post_copies_valid_id fuel s l a ⟨some a, none, 0, m.id, va_params n args⟩ hreg hfuel
      exact ⟨⟨res.ret, res.st⟩,
        by simp only [os_queue_postv, if_neg hn, h1, Option.map_some'], h2, h3⟩
  · intro ht hmem hb
    refine ⟨_, queue_send_found fuel s l a t m hreg hfuel ht hmem, rfl, ?_⟩
    simp only [Function.update_same, deliver, hb, Option.map_some']
  · intro hn hmem hb
    have hn1 : ¬ n > OS_QUEUE_PARAM_COUNT := by
      simp only [OS_QUEUE_PARAM_COUNT]; omega
    have hsend := queue_send_found fuel s l a t
      ⟨some a, some t, m.userdata, m.id, va_params n args⟩ hreg hfuel rfl hmem
    simp only at hsend
    refine ⟨⟨0, ⟨s.os_errno, s.g_queue_list, Function.update s.mem t
        (deliver (s.mem t) ⟨some a, some t, m.userdata, m.id, va_params n args⟩)⟩⟩,
      by simp only [os_queue_sendv, if_neg hn1, hsend, Option.map_some'], rfl, ?_⟩
    simp only [Function.update_same, deliver, hb, Option.map_some']

/-- The copies of C37 at work on the registered, empty mailbox 1 of capacity 4:
a post of id 9000 writes no mailbox, a send of id 9000 is copied into slot 0. -/
theorem queue_copied_ids_witness :
    (∃ res, os_queue_post 1
        ⟨0, some 1, fun _ => ⟨none, some (fun _ => ⟨none, none, 0, 0, []⟩), 0, 0, 3,
          fun _ => 0xFFFFFFFF⟩⟩
        (some 2) (some ⟨none, some 1, 42, 9000, []⟩) = some res ∧
      ∀ c, res.st.mem c = ⟨none, some (fun _ => ⟨none, none, 0, 0, []⟩), 0, 0, 3,
        fun _ => 0xFFFFFFFF⟩) ∧
    (∃ res, os_queue_send 1
        ⟨0, some 1, fun _ => ⟨none, some (fun _ => ⟨none, none, 0, 0, []⟩), 0, 0, 3,
          fun _ => 0xFFFFFFFF⟩⟩
        (some 2) (some ⟨none, some 1, 42, 9000, []⟩) = some res ∧ res.ret = 0 ∧
      (res.st.mem 1).buffer = some (Function.update (fun _ => ⟨none, none, 0, 0, []⟩) 0
        ⟨some 2, some 1, 42, 9000, []⟩)) :=
  have h := queue_copied_ids 1
    ⟨0, some 1, fun _ => ⟨none, some (fun _ => ⟨none, none, 0, 0, []⟩), 0, 0, 3,
      fun _ => 0xFFFFFFFF⟩⟩
    [1] 2 1 ⟨none, some 1, 42, 9000, []⟩ 0 [] (fun _ => ⟨none, none, 0, 0, []⟩)
    ⟨rfl, trivial⟩ (by decide)
  ⟨h.1.imp (fun _ h1 => ⟨h1.1, fun c => congrFun (h1.2.1 (by decide)) c⟩),
    h.2.2.1 rfl (by decide) rfl⟩


/-! ## Well-formedness of the registry -/

theorem init_keeps_registry (s : queue_state) (l : List Nat) (p : Option Nat)
    (pool : Option (Nat → os_msg_t)) (n : Nat) (hreg : registry s l)
    (hp : ∀ a, p = some a → a ∉ l) :
    ∃ l1, registry (os_queue_init s p pool n).st l1 ∧ l1.length ≤ l.length + 1 := by
  cases p with
  | none => exact ⟨l, hreg, Nat.le_succ _⟩
  | some a =>
    cases pool with
    | none => exact ⟨l, hreg, Nat.le_succ _⟩
    | some b =>
      simp only [os_queue_init]
      by_cases hc : n &&& u32_sub n 1 ≠ 0
      · rw [if_pos hc]
        exact ⟨l, hreg, Nat.le_succ _⟩
      · rw [if_neg hc]
        exact ⟨a :: l, registry_cons hreg _ a (hp a rfl) _ rfl, Nat.le_refl _⟩

theorem destroy_keeps_registry (fuel : Nat) (s : queue_state) (l : List Nat) (p : Option Nat)
    (hreg : registry s l) (hfuel : l.length ≤ fuel) :
    ∃ res, os_queue_destroy fuel s p = some res ∧
      ∃ l1, registry res.st l1 ∧ l1.length ≤ l.length := by
  cases p with
  | none => exact ⟨_, rfl, l, hreg, Nat.le_refl _⟩
  | some a =>
    have hloop := destroy_loop_spec s a l fuel none s.g_queue_list hreg hfuel
    refine ⟨⟨0, if a ∈ l then destroy_found s a (pred_in a l none) else s⟩,
      by simp only [os_queue_destroy, hloop, Option.map_some'], ?_⟩
    by_cases ha : a ∈ l
    · simp only [if_pos ha]
      exact ⟨l.erase a,
        unlink_chain s.mem a l s.g_queue_list none hreg (registry_nodup hreg) ha
          (fun v hv => by cases hv),
        List.length_erase_le a l⟩
    · simp only [if_neg ha]
      exact ⟨l, hreg, Nat.le_refl _⟩

theorem registry_calls_keep (fuel : Nat) :
    ∀ (calls : List registry_call) (s : queue_state) (l : List Nat), registry s l →
      l.length + calls.length ≤ fuel → init_only_unregistered fuel s calls →
      ∃ s1 l1, run_registry_calls fuel s calls = some s1 ∧ registry s1 l1 ∧
        l1.length ≤ l.length + calls.length := by
  intro calls
  induction calls with
  | nil => intro s l hreg _ _; exact ⟨s, l, rfl, hreg, Nat.le_refl _⟩
  | cons c cs ih =>
    intro s l hreg hfuel hfresh
    simp only [List.length_cons] at hfuel
    obtain ⟨hf1, hf2⟩ := hfresh
    cases c with
    | init p pool n =>
      have hp : ∀ a, p = some a → a ∉ l := by
        intro a ha
        subst ha
        exact hf1 l hreg
      obtain ⟨l1, hreg1, hlen1⟩ := init_keeps_registry s l p pool n hreg hp
      simp only [registry_call.run] at hf2
      obtain ⟨s2, l2, h1, h2, h3⟩ := ih _ l1 hreg1 (by omega) hf2
      exact ⟨s2, l2, by simp only [run_registry_calls, registry_call.run, h1], h2,
        by simp only [List.length_cons]; omega⟩
    | destroy p =>
      obtain ⟨res, hres, l1, hreg1, hlen1⟩ := destroy_keeps_registry fuel s l p hreg (by omega)
      simp only [registry_call.run, hres, Option.map_some'] at hf2
      obtain ⟨s2, l2, h1, h2, h3⟩ := ih _ l1 hreg1 (by omega) hf2
      exact ⟨s2, l2,
        by simp only [run_registry_calls, registry_call.run, hres, Option.map_some', h1], h2,
        by simp only [List.length_cons]; omega⟩

/-- C39: from a state whose registry is the list `l0`, after any sequence of
`os_queue_init` and `os_queue_destroy` calls in which `os_queue_init` is applied
only to mailboxes not registered at the time (with fuel for the longest list),
every call ends and the registry is again a finite list `l1` without
duplicates; on it `os_queue_send`, `os_queue_post` and `os_queue_destroy` end,
and `os_queue_post` leaves every mailbox as it was or with one copy of the
message delivered. -/
theorem queue_registry_well_formed (fuel : Nat) (s0 : queue_state) (l0 : List Nat)
    (calls : List registry_call) (hreg : registry s0 l0)
    (hfuel : l0.length + calls.length ≤ fuel)
    (hfresh : init_only_unregistered fuel s0 calls) :
    ∃ s1 l1, run_registry_calls fuel s0 calls = some s1 ∧ registry s1 l1 ∧ l1.Nodup ∧
      l1.length ≤ fuel ∧
      (∀ a m, ∃ res, os_queue_send fuel s1 (some a) (some m) = some res) ∧
      (∀ a, ∃ res, os_queue_destroy fuel s1 (some a) = some res) ∧
      (∀ a m, ∃ res, os_queue_post fuel s1 (some a) (some m) = some res ∧
        ∀ b, res.st.mem b = s1.mem b ∨
          res.st.mem b =
            deliver (s1.mem b) ⟨some a, m.target, m.userdata, m.id, m.params⟩) := by
  obtain ⟨s1, l1, h1, h2, h3⟩ := registry_calls_keep fuel calls s0 l0 hreg hfuel hfresh
  have hlen : l1.length ≤ fuel := by omega
  refine ⟨s1, l1, h1, h2, registry_nodup h2, hlen, ?_, ?_, ?_⟩
  · intro a m
    by_cases ht : ∃ t, m.target = some t ∧ t ∈ l1
    · obtain ⟨t, ht1, ht2⟩ := ht
      exact ⟨_, queue_send_found fuel s1 l1 a t m h2 hlen ht1 ht2⟩
    · exact ⟨_, queue_send_absent fuel s1 l1 a m h2 hlen
        (fun t ht1 ht2 => ht ⟨t, ht1, ht2⟩)⟩
  · intro a
    obtain ⟨res, hres, -⟩ := destroy_keeps_registry fuel s1 l1 (some a) h2 hlen
    exact ⟨res, hres⟩
  · intro a m
    obtain ⟨res, hres, -, hcopy⟩ := post_copies_valid_id fuel s1 l1 a m h2 hlen
    refine ⟨res, hres, ?_⟩
    intro b
    rcases hcopy b with h | h
    · exact Or.inl h
    · exact Or.inr h.2

/-- The registry of C39 at work: from the empty registry, mailboxes 1 and 2 are
created and mailbox 1 is destroyed; the calls end in a state with a
duplicate-free registry list. -/
theorem queue_registry_well_formed_witness :
    ∃ s1 l1, run_registry_calls 3 ⟨0, none, fun _ => queue_zero⟩
        [.init (some 1) (some (fun _ => ⟨none, none, 0, 0, []⟩)) 4,
          .init (some 2) (some (fun _ => ⟨none, none, 0, 0, []⟩)) 4,
          .destroy (some 1)] = some s1 ∧ registry s1 l1 ∧ l1.Nodup :=
  (queue_registry_well_formed 3 ⟨0, none, fun _ => queue_zero⟩ []
    [.init (some 1) (some (fun _ => ⟨none, none, 0, 0, []⟩)) 4,
      .init (some 2) (some (fun _ => ⟨none, none, 0, 0, []⟩)) 4,
      .destroy (some 1)] trivial (by decide)
    (by
      simp only [init_only_unregistered, registry_call.run]
      refine ⟨?_, ?_, trivial, ?_⟩
      · intro l hl
        rw [is_chain_unique l [] _ hl trivial]
        exact List.not_mem_nil 1
      · intro l hl
        have hc : registry (os_queue_init ⟨0, none, fun _ => queue_zero⟩ (some 1)
            (some (fun _ => ⟨none, none, 0, 0, []⟩)) 4).st [1] := ⟨rfl, trivial⟩
        rw [is_chain_unique l [1] _ hl hc]
        decide
      · split <;> trivial)).imp
    (fun _ h => h.imp (fun _ h1 => ⟨h1.1, h1.2.1, h1.2.2.1⟩))

end Libos
